import Mathlib

/-!
Verification of the reconciliation engine of `thelaby-cipher` (upload.js and
src/labyrinth.js, src/image.js).  The JavaScript source is shallowly embedded:
pure functions become Lean functions, the `main` orchestration becomes a pure
state-passing function over an explicit content-tree state and an environment
of remote-call results, and `crypto.createHash('md5')` is implemented as real
MD5 over byte lists.
-/

set_option maxRecDepth 4000

namespace Thelaby

/-! ## MD5 (crypto.createHash('md5') … digest('hex'))

Real MD5 over a list of bytes (each a `Nat < 256`), producing the lowercase
hex digest string exactly as Node's `digest('hex')` does. -/

def u32 (n : Nat) : Nat := n % 4294967296

def rotl32 (x n : Nat) : Nat := u32 ((x <<< n) + (x >>> (32 - n)))

def not32 (x : Nat) : Nat := 4294967295 - (x % 4294967296)

/-- The 64 MD5 sine-derived constants. -/
def md5K : List Nat :=
  [0xd76aa478, 0xe8c7b756, 0x242070db, 0xc1bdceee,
   0xf57c0faf, 0x4787c62a, 0xa8304613, 0xfd469501,
   0x698098d8, 0x8b44f7af, 0xffff5bb1, 0x895cd7be,
   0x6b901122, 0xfd987193, 0xa679438e, 0x49b40821,
   0xf61e2562, 0xc040b340, 0x265e5a51, 0xe9b6c7aa,
   0xd62f105d, 0x02441453, 0xd8a1e681, 0xe7d3fbc8,
   0x21e1cde6, 0xc33707d6, 0xf4d50d87, 0x455a14ed,
   0xa9e3e905, 0xfcefa3f8, 0x676f02d9, 0x8d2a4c8a,
   0xfffa3942, 0x8771f681, 0x6d9d6122, 0xfde5380c,
   0xa4beea44, 0x4bdecfa9, 0xf6bb4b60, 0xbebfbc70,
   0x289b7ec6, 0xeaa127fa, 0xd4ef3085, 0x04881d05,
   0xd9d4d039, 0xe6db99e5, 0x1fa27cf8, 0xc4ac5665,
   0xf4292244, 0x432aff97, 0xab9423a7, 0xfc93a039,
   0x655b59c3, 0x8f0ccc92, 0xffeff47d, 0x85845dd1,
   0x6fa87e4f, 0xfe2ce6e0, 0xa3014314, 0x4e0811a1,
   0xf7537e82, 0xbd3af235, 0x2ad7d2bb, 0xeb86d391]

/-- The 64 MD5 per-round left-rotation amounts. -/
def md5S : List Nat :=
  [7, 12, 17, 22, 7, 12, 17, 22, 7, 12, 17, 22, 7, 12, 17, 22,
   5, 9, 14, 20, 5, 9, 14, 20, 5, 9, 14, 20, 5, 9, 14, 20,
   4, 11, 16, 23, 4, 11, 16, 23, 4, 11, 16, 23, 4, 11, 16, 23,
   6, 10, 15, 21, 6, 10, 15, 21, 6, 10, 15, 21, 6, 10, 15, 21]

/-- `k` bytes of `n`, little-endian. -/
def leBytes : Nat → Nat → List Nat
  | 0, _ => []
  | k + 1, n => (n % 256) :: leBytes k (n / 256)

/-- Little-endian 32-bit word `i` of a 64-byte block. -/
def blockWord (block : List Nat) (i : Nat) : Nat :=
  block.getD (4 * i) 0 + 256 * block.getD (4 * i + 1) 0 +
    65536 * block.getD (4 * i + 2) 0 + 16777216 * block.getD (4 * i + 3) 0

structure Md5State where
  a : Nat
  b : Nat
  c : Nat
  d : Nat
deriving DecidableEq, Repr

def md5Round (block : List Nat) (st : Md5State) (i : Nat) : Md5State :=
  let fg : Nat × Nat :=
    if i < 16 then ((st.b &&& st.c) ||| (not32 st.b &&& st.d), i)
    else if i < 32 then ((st.d &&& st.b) ||| (not32 st.d &&& st.c), (5 * i + 1) % 16)
    else if i < 48 then (st.b ^^^ st.c ^^^ st.d, (3 * i + 5) % 16)
    else (st.c ^^^ (st.b ||| not32 st.d), (7 * i) % 16)
  let f := u32 (fg.1 + st.a + md5K.getD i 0 + blockWord block fg.2)
  { a := st.d, b := u32 (st.b + rotl32 f (md5S.getD i 0)), c := st.b, d := st.c }

def md5Block (st : Md5State) (block : List Nat) : Md5State :=
  let r := (List.range 64).foldl (md5Round block) st
  { a := u32 (st.a + r.a), b := u32 (st.b + r.b),
    c := u32 (st.c + r.c), d := u32 (st.d + r.d) }

/-- Split a byte list into 64-byte chunks, structurally via a fuel bounded by
the list length (each step consumes 64 > 0 bytes, so the fuel suffices). -/
def chunksAux : Nat → List Nat → List (List Nat)
  | 0, _ => []
  | _ + 1, [] => []
  | fuel + 1, l => l.take 64 :: chunksAux fuel (l.drop 64)

def chunks64 (l : List Nat) : List (List Nat) := chunksAux l.length l

/-- MD5 padding: append `0x80`, zero bytes up to 56 mod 64, and the bit length
as a 64-bit little-endian integer. -/
def md5Pad (msg : List Nat) : List Nat :=
  let z := (120 - (msg.length + 1) % 64) % 64
  msg ++ 128 :: List.replicate z 0 ++ leBytes 8 ((8 * msg.length) % 18446744073709551616)

def md5Init : Md5State :=
  { a := 0x67452301, b := 0xefcdab89, c := 0x98badcfe, d := 0x10325476 }

/-- The 16 raw digest bytes of a byte-list message. -/
def md5Bytes (msg : List Nat) : List Nat :=
  let fin := (chunks64 (md5Pad msg)).foldl md5Block md5Init
  leBytes 4 fin.a ++ leBytes 4 fin.b ++ leBytes 4 fin.c ++ leBytes 4 fin.d

def hexDigit (n : Nat) : Char :=
  Char.ofNat (if n < 10 then 48 + n else 87 + n)

def byteHex (b : Nat) : List Char := [hexDigit (b / 16), hexDigit (b % 16)]

/-- Lowercase hex digest, as Node's `digest('hex')`. -/
def md5Hex (msg : List Nat) : String :=
  String.mk (msg |> md5Bytes |>.flatMap byteHex)

/-! ## UTF-8 encoding

Node hashes JS strings as their UTF-8 bytes; we encode `Char`s accordingly. -/

def utf8Char (c : Char) : List Nat :=
  let n := c.toNat
  if n < 128 then [n]
  else if n < 2048 then [192 + n / 64, 128 + n % 64]
  else if n < 65536 then [224 + n / 4096, 128 + (n / 64) % 64, 128 + n % 64]
  else [240 + n / 262144, 128 + (n / 4096) % 64, 128 + (n / 64) % 64, 128 + n % 64]

def utf8 (s : List Char) : List Nat := s.flatMap utf8Char

def utf8Str (s : String) : List Nat := utf8 s.data

/-! ## JSON values and `JSON.stringify`

`JVal` models a parsed JSON value as JavaScript holds it: object fields keep
their insertion order, which `JSON.stringify` reproduces verbatim. -/

inductive JVal where
  | jnull
  | jbool (b : Bool)
  | jnum (n : Int)
  | jstr (s : String)
  | jarr (elems : List JVal)
  | jobj (fields : List (String × JVal))

def lbrace : Char := Char.ofNat 123
def rbrace : Char := Char.ofNat 125

/-- `JSON.stringify` escaping for one character of a string literal. -/
def jsonEscChar (c : Char) : List Char :=
  if c = '"' then ['\\', '"']
  else if c = '\\' then ['\\', '\\']
  else if c = Char.ofNat 8 then ['\\', 'b']
  else if c = Char.ofNat 9 then ['\\', 't']
  else if c = Char.ofNat 10 then ['\\', 'n']
  else if c = Char.ofNat 12 then ['\\', 'f']
  else if c = Char.ofNat 13 then ['\\', 'r']
  else if c.toNat < 32 then
    ['\\', 'u', '0', '0', hexDigit (c.toNat / 16), hexDigit (c.toNat % 16)]
  else [c]

def jsonStringChars (s : String) : List Char :=
  '"' :: s.data.flatMap jsonEscChar ++ ['"']

mutual

def jsonChars : JVal → List Char
  | .jnull => ['n', 'u', 'l', 'l']
  | .jbool true => ['t', 'r', 'u', 'e']
  | .jbool false => ['f', 'a', 'l', 's', 'e']
  | .jnum n => (toString n).data
  | .jstr s => jsonStringChars s
  | .jarr es => '[' :: jsonArrChars es ++ [']']
  | .jobj fs => lbrace :: jsonObjChars fs ++ [rbrace]

def jsonArrChars : List JVal → List Char
  | [] => []
  | [e] => jsonChars e
  | e :: rest => jsonChars e ++ ',' :: jsonArrChars rest

def jsonObjChars : List (String × JVal) → List Char
  | [] => []
  | [(k, v)] => jsonStringChars k ++ ':' :: jsonChars v
  | (k, v) :: rest => jsonStringChars k ++ ':' :: jsonChars v ++ ',' :: jsonObjChars rest

end

def jsonStringify (v : JVal) : String := String.mk (jsonChars v)

/-! ## computePageHash (upload.js:408-411) and calculateChecksum (image.js:75-78)

```js
function computePageHash(html, jsonData, imageChecksums = []) {
    const combined = JSON.stringify({ html, json: jsonData, images: imageChecksums.sort() });
    return crypto.createHash('md5').update(combined).digest('hex');
}
```
`Array.prototype.sort()` on an array of strings sorts by UTF-16 code-unit
order.  Two strings comparing equal in that (total, antisymmetric) order are
identical, so the sorted result is unique and any correct sort — here a
structural insertion sort on the code-unit order — produces it. -/

def charListLe : List Char → List Char → Bool
  | [], _ => true
  | _ :: _, [] => false
  | a :: as, b :: bs =>
      if a.toNat < b.toNat then true
      else if b.toNat < a.toNat then false
      else charListLe as bs

def strLe (a b : String) : Prop := charListLe a.data b.data = true

instance : DecidableRel strLe := fun a b => by
  unfold strLe
  infer_instance

def sortStrings (l : List String) : List String :=
  l.insertionSort strLe

def computePageHash (html : String) (jsonData : JVal) (imageChecksums : List String) : String :=
  let combined := jsonStringify (.jobj
    [("html", .jstr html), ("json", jsonData),
     ("images", .jarr ((sortStrings imageChecksums).map .jstr))])
  md5Hex (utf8Str combined)

/-- `calculateChecksum` (src/image.js): MD5 hex digest of a file's bytes. -/
def calculateChecksum (fileBytes : List Nat) : String := md5Hex fileBytes

end Thelaby

namespace Thelaby

/-! ## JavaScript truthiness helpers

JS treats `undefined`, `null`, `''`, `0` and `false` as falsy.  Optional string
fields are modelled as `Option String`, where `none` is an absent field and
`some ""` is a present-but-falsy value. -/

/-- Truthiness of an optional string field (`if (x)` in JS). -/
def truthyS : Option String → Bool
  | some s => s ≠ ""
  | none => false

/-- The truthy value of an optional string field, if any. -/
def truthyVal : Option String → Option String
  | some s => if s = "" then none else some s
  | none => none

/-! ## Tags (src/labyrinth.js:62-113, 223-241)

`TAG_MAP` maps English and Korean tag names to the site's numeric tag IDs;
`tagsToIds` converts a config `tags` array. -/

/-- One element of a JS `tags` array: a number, a string, or any other value. -/
inductive TagInput where
  | num (n : Int)
  | str (s : String)
  | other
deriving DecidableEq, Repr

def TAG_MAP (s : String) : Option Nat :=
  match s with
  | "problem" => some 1
  | "story" => some 2
  | "expert" => some 3
  | "no-search" => some 4
  | "search" => some 5
  | "specific-person" => some 6
  | "event" => some 7
  | "parody" => some 8
  | "movie" => some 9
  | "tv" => some 10
  | "comic" => some 11
  | "singer" => some 12
  | "actor" => some 13
  | "nonsense" => some 14
  | "cute" => some 15
  | "game" => some 16
  | "long" => some 17
  | "short" => some 18
  | "horror" => some 19
  | "escape" => some 20
  | "puzzle" => some 21
  | "mobile-ok" => some 22
  | "no-mobile" => some 23
  | "streaming-ok" => some 24
  | "문제" => some 1
  | "스토리" => some 2
  | "전문지식" => some 3
  | "검색불필요" => some 4
  | "검색필요" => some 5
  | "특정인물" => some 6
  | "이벤트" => some 7
  | "패러디" => some 8
  | "영화" => some 9
  | "TV프로그램" => some 10
  | "만화" => some 11
  | "가수" => some 12
  | "배우" => some 13
  | "넌센스" => some 14
  | "귀염뽀짝" => some 15
  | "게임" => some 16
  | "장편미궁" => some 17
  | "단편미궁" => some 18
  | "공포" => some 19
  | "방탈출" => some 20
  | "퍼즐" => some 21
  | "모바일가능" => some 22
  | "모바일불가능" => some 23
  | "방송송출허용" => some 24
  | _ => none

/-- The per-element loop of `tagsToIds`: numbers pass through, known names map
to their IDs, unknown names are dropped (with a console warning).  All
`TAG_MAP` values are nonzero, so the JS truthiness test `if (id)` coincides
with map membership. -/
def collectTagIds : List TagInput → List Int
  | [] => []
  | .num n :: rest => n :: collectTagIds rest
  | .str s :: rest =>
      match TAG_MAP s with
      | some i => (i : Int) :: collectTagIds rest
      | none => collectTagIds rest
  | .other :: rest => collectTagIds rest

/-- `tagsToIds` (src/labyrinth.js:223-241).  A non-array input (modelled as
`none`) yields `[]`; the collected IDs are truncated to the first five
(`ids.slice(0, 5)`). -/
def tagsToIds (tags : Option (List TagInput)) : List Int :=
  match tags with
  | none => []
  | some ts => (collectTagIds ts).take 5

/-! ## Kernel-computable string helpers

Core `String.trim`/`splitOn`/`startsWith` go through `Substring` internals
that do not reduce inside the kernel, so the few string operations the source
uses are given directly over character lists (JS `.trim()` strips whitespace;
the ASCII whitespace characters cover every string these checks see). -/

def isWSChar (c : Char) : Bool :=
  c == ' ' || c == Char.ofNat 9 || c == Char.ofNat 10 || c == Char.ofNat 11 ||
    c == Char.ofNat 12 || c == Char.ofNat 13

def dropWS : List Char → List Char
  | [] => []
  | c :: t => if isWSChar c then dropWS t else c :: t

/-- JS `s.trim()`. -/
def trimStr (s : String) : String :=
  String.mk (List.reverse (dropWS (List.reverse (dropWS s.data))))

/-! ## Retry utility (upload.js:128-183) -/

/-- `RETRY_CONFIG.maxRetries`. -/
def RETRY_maxRetries : Nat := 3

/-- `RETRY_CONFIG.delayMs`. -/
def RETRY_delayMs : Nat := 1000

/-- ASCII lowercasing, as used for case-insensitive (`/i`) regex matching of
the ASCII retry patterns. -/
def asciiLower (c : Char) : Char :=
  if 65 ≤ c.toNat ∧ c.toNat ≤ 90 then Char.ofNat (c.toNat + 32) else c

def lowerChars (s : String) : List Char := s.data.map asciiLower

def startsWithL : List Char → List Char → Bool
  | [], _ => true
  | _ :: _, [] => false
  | a :: as, b :: bs => a == b && startsWithL as bs

def hasSubstr (needle : List Char) : List Char → Bool
  | [] => startsWithL needle []
  | c :: t => startsWithL needle (c :: t) || hasSubstr needle t

/-- `RETRY_CONFIG.retryableErrors`: each regex is a case-insensitive plain
substring pattern (no metacharacters), given here lowercased. -/
def retryablePatterns : List String :=
  ["timeout", "exceeded", "waiting failed", "econnreset", "econnrefused",
   "etimedout", "net::", "navigation failed", "protocol error", "target closed"]

/-- `isRetryableError` (upload.js:151-154): some retryable pattern occurs in
the error message (case-insensitively). -/
def isRetryableError (message : String) : Bool :=
  retryablePatterns.any (fun p => hasSubstr p.data (lowerChars message))

/-- Result of `withRetry`: the final outcome, the list of inter-attempt delays
(in ms) in order, and the number of invocations of the wrapped function. -/
structure RetryOut (α : Type) where
  result : Except String α
  delays : List Nat
  calls : Nat
deriving Repr

/-- The `withRetry` loop (upload.js:163-183), written structurally on the
number of retries still allowed (`remaining = maxRetries - attempt`).
`fn k` is the outcome of the `k`-th invocation (an error carries its
message).  The JS loop rethrows when the error is not retryable or this was
the final attempt (`attempt === maxRetries`, i.e. `remaining = 0`); otherwise
it sleeps `delayMs * attempt` and retries. -/
def withRetryFrom (fn : Nat → Except String α) : Nat → Nat → RetryOut α
  | attempt, remaining =>
      match fn attempt, remaining with
      | .ok a, _ => { result := .ok a, delays := [], calls := 1 }
      | .error e, 0 => { result := .error e, delays := [], calls := 1 }
      | .error e, r + 1 =>
          if ¬ isRetryableError e then { result := .error e, delays := [], calls := 1 }
          else
            let rest := withRetryFrom fn (attempt + 1) r
            { result := rest.result, delays := RETRY_delayMs * attempt :: rest.delays,
              calls := rest.calls + 1 }

/-- `withRetry fn maxRetries`, starting at attempt 1 with `maxRetries - 1`
retries allowed (models the JS loop for `maxRetries ≥ 1`). -/
def withRetry (fn : Nat → Except String α) (maxRetries : Nat := RETRY_maxRetries) :
    RetryOut α :=
  withRetryFrom fn 1 (maxRetries - 1)

end Thelaby

namespace Thelaby

/-! ## Labyrinth config (src/labyrinth.js:18-39, 145-204, 393-408)

A `labyrinth.json` as authored: every field optional (absent keys are `none`).
`rating_threshold` is modelled as an integer (the `'clear'` spelling maps to
`0` before any use relevant here) and `description` as a plain string. -/

structure Config where
  title : Option String := none
  image : Option String := none
  description : Option String := none
  tags : Option (List TagInput) := none
  is_event : Option Bool := none
  allow_rating : Option Bool := none
  rating_threshold : Option Int := none
  show_difficulty : Option Bool := none
  show_page_count : Option Bool := none
  show_ending_count : Option Bool := none
  show_badend_count : Option Bool := none
  clear_visibility : Option String := none
  show_answer_rate : Option Bool := none
  block_right_click : Option Bool := none
  login_required : Option Bool := none
  start_page : Option String := none
  first_page : Option String := none
deriving DecidableEq, Repr

/-- The result of `normalizeConfig` = `{ ...LABYRINTH_DEFAULTS, ...config }`:
every defaulted key is concrete; `first_page` has no default and survives only
if present in the config. -/
structure NormConfig where
  title : String
  image : String
  description : String
  tags : List TagInput
  is_event : Bool
  allow_rating : Bool
  rating_threshold : Int
  show_difficulty : Bool
  show_page_count : Bool
  show_ending_count : Bool
  show_badend_count : Bool
  clear_visibility : String
  show_answer_rate : Bool
  block_right_click : Bool
  login_required : Bool
  start_page : String
  first_page : Option String
deriving DecidableEq, Repr

/-- `normalizeConfig` (src/labyrinth.js:146-148) with the `LABYRINTH_DEFAULTS`
of src/labyrinth.js:18-39. -/
def normalizeConfig (c : Config) : NormConfig where
  title := c.title.getD ""
  image := c.image.getD ""
  description := c.description.getD ""
  tags := c.tags.getD []
  is_event := c.is_event.getD false
  allow_rating := c.allow_rating.getD true
  rating_threshold := c.rating_threshold.getD 1
  show_difficulty := c.show_difficulty.getD true
  show_page_count := c.show_page_count.getD false
  show_ending_count := c.show_ending_count.getD false
  show_badend_count := c.show_badend_count.getD false
  clear_visibility := c.clear_visibility.getD "full"
  show_answer_rate := c.show_answer_rate.getD false
  block_right_click := c.block_right_click.getD false
  login_required := c.login_required.getD false
  start_page := c.start_page.getD ""
  first_page := c.first_page

/-- One validation error of `validateConfig`, one constructor per
`errors.push` site. -/
inductive CErr where
  | titleMissing
  | titleTooLong
  | descTooLong
  | tooManyTags
  | unknownTags (tags : List String)
  | badImageExt
  | badClearVisibility
deriving DecidableEq, Repr

/-- `image.split('.').pop()`: the segment after the last dot (the whole string
when no dot occurs, `""` for a trailing dot). -/
def extAfterLastDot (s : String) : String :=
  String.mk (s.data.foldl (fun cur c => if c == '.' then [] else cur ++ [c]) [])

def lowerStr (s : String) : String := String.mk (lowerChars s)

/-- `validateConfig` (src/labyrinth.js:154-204).  `normalized.tags` is always
an array (hence truthy in JS, even when empty), so the tag checks reduce to
plain length/membership tests. -/
def validateConfig (c : Config) : List CErr :=
  let n := normalizeConfig c
  (if n.title = "" ∨ trimStr n.title = "" then [CErr.titleMissing]
   else if n.title.length > 100 then [CErr.titleTooLong] else []) ++
  (if n.description ≠ "" ∧ n.description.length > 500 then [CErr.descTooLong] else []) ++
  (if n.tags.length > 5 then [CErr.tooManyTags] else []) ++
  (let invalid := n.tags.filterMap (fun t =>
      match t with
      | .str s => if (TAG_MAP s).isNone then some s else none
      | _ => none)
   if n.tags.length > 0 ∧ invalid ≠ [] then [CErr.unknownTags invalid] else []) ++
  (if n.image ≠ "" ∧
      ¬ (["bmp", "jpg", "jpeg", "gif", "png"].contains (lowerStr (extAfterLastDot n.image)))
   then [CErr.badImageExt] else []) ++
  (if n.clear_visibility ≠ "" ∧
      ¬ (["hidden", "count", "list", "full"].contains n.clear_visibility)
   then [CErr.badClearVisibility] else [])

/-! ## The file-system / browser leaves kept abstract

The reconcile pipeline consumes three file-system-dependent leaves whose
internals no claim depends on; they are supplied to the model as explicit
deterministic functions (the model's stand-in for the real directory tree):

* `scanImages` — `findLocalImages` (upload.js:514-562): the list of resolved
  local image paths referenced by an HTML string;
* `fileBytes` — the bytes of a local file (scanned image paths always exist,
  since `findLocalImages` throws on missing files before returning);
* `subst` — `replaceLocalImages` (upload.js:614-631): HTML with local image
  references rewritten through a `path → URL` map. -/
structure FS where
  scanImages : String → List String
  fileBytes : String → List Nat
  subst : String → List (String × String) → String

/-- Serialization of a normalized config in the JS key (insertion) order:
the `LABYRINTH_DEFAULTS` keys, then `first_page` if the config carried one,
then `_image_hash` if one was attached. -/
def normConfigToJVal (n : NormConfig) (imageHash : Option String) : JVal :=
  .jobj
    ([("title", JVal.jstr n.title),
      ("image", JVal.jstr n.image),
      ("description", JVal.jstr n.description),
      ("tags", JVal.jarr (n.tags.map (fun t =>
        match t with
        | .num k => JVal.jnum k
        | .str s => JVal.jstr s
        | .other => JVal.jnull))),
      ("is_event", JVal.jbool n.is_event),
      ("allow_rating", JVal.jbool n.allow_rating),
      ("rating_threshold", JVal.jnum n.rating_threshold),
      ("show_difficulty", JVal.jbool n.show_difficulty),
      ("show_page_count", JVal.jbool n.show_page_count),
      ("show_ending_count", JVal.jbool n.show_ending_count),
      ("show_badend_count", JVal.jbool n.show_badend_count),
      ("clear_visibility", JVal.jstr n.clear_visibility),
      ("show_answer_rate", JVal.jbool n.show_answer_rate),
      ("block_right_click", JVal.jbool n.block_right_click),
      ("login_required", JVal.jbool n.login_required),
      ("start_page", JVal.jstr n.start_page)] ++
     (match n.first_page with
      | some fp => [("first_page", JVal.jstr fp)]
      | none => []) ++
     (match imageHash with
      | some h => [("_image_hash", JVal.jstr h)]
      | none => []))

/-- `computeLabyrinthHash` (src/labyrinth.js:393-408): MD5 of the stringified
normalized config, with the title image's MD5 mixed in as `_image_hash` when
the image file exists. -/
def computeLabyrinthHash (fs : FS) (c : Config) : String :=
  let n := normalizeConfig c
  let imageHash : Option String :=
    if n.image ≠ "" then some (md5Hex (fs.fileBytes n.image)) else none
  md5Hex (utf8Str (jsonStringify (normConfigToJVal n imageHash)))

end Thelaby

namespace Thelaby

/-! ## Page files

A page has three independently optional local facets: `{page}.html` (content),
`{page}.json` (metadata) and `{page}.meta` (engine-owned recorded state). -/

/-- One element of a page's `answers` array.  JS reads `ans.answer` with a
truthiness test, so an absent text is modelled as `""`; `public` defaults to
`false` under `ans.public || false`. -/
structure AnswerJ where
  answer : String := ""
  next : Option String := none
  isPublic : Bool := false
  explanation : Option String := none
deriving DecidableEq, Repr

/-- A parsed `{page}.json`. -/
structure PageJson where
  title : Option String := none
  background_color : Option String := none
  header_display : Option String := none
  answers : Option (List AnswerJ) := none
  is_ending : Option Bool := none
  hint : Option String := none
  hint_enabled : Option Bool := none
deriving DecidableEq, Repr

/-- A parsed `{page}.meta` (`readPageMeta` returns `{}` when the file is
absent, i.e. all fields `none`). -/
structure MetaRec where
  id : Option String := none
  hash : Option String := none
  is_first : Option Bool := none
  is_ending : Option Bool := none
deriving DecidableEq, Repr

/-- The parsed `labyrinth.meta`; `images` and `pageIds` carry the
`|| {}` / `|| []` read defaults. -/
structure LabyMeta where
  id : Option String := none
  hash : Option String := none
  images : List (String × String) := []
  pageIds : List String := []
deriving DecidableEq, Repr

/-- The on-disk facets of one page name. -/
structure Entry where
  html : Option String := none
  json : Option PageJson := none
  meta : Option MetaRec := none
deriving DecidableEq, Repr

/-- The content tree: the scanned page files (in directory-scan order, names
unique on a real file system) and `labyrinth.meta` if present. -/
structure Tree where
  entries : List (String × Entry)
  labyMeta : Option LabyMeta := none
deriving DecidableEq, Repr

def findEntry (entries : List (String × Entry)) (name : String) : Entry :=
  (((entries.find? (fun p => p.1 = name)).map (fun p => p.2))).getD {}

/-- `metas[name]` as `determinePageStates` consumes it: the parsed meta file,
`{}` when absent or never loaded (JS `metas[name]?.id` is `undefined` in
either case, matching `none` here). -/
def metasOf (entries : List (String × Entry)) (name : String) : MetaRec :=
  ((findEntry entries name).meta).getD {}

def namesWithHtml (entries : List (String × Entry)) : List String :=
  (entries.filter (fun p => p.2.html.isSome)).map (fun p => p.1)

def namesWithJson (entries : List (String × Entry)) : List String :=
  (entries.filter (fun p => p.2.json.isSome)).map (fun p => p.1)

def namesWithMeta (entries : List (String × Entry)) : List String :=
  (entries.filter (fun p => p.2.meta.isSome)).map (fun p => p.1)

/-! ## Page validation (upload.js:416-506) -/

/-- One page-validation error, one constructor per `errors.push` site of
`validatePageJson`. -/
inductive VErr where
  | titleMissing (page : String)
  | titleTooLong (page : String)
  | badBgColor (page : String) (value : String)
  | emptyAnswer (page : String) (idx : Nat)
  | unresolvedNext (page : String) (idx : Nat) (target : String)
deriving DecidableEq, Repr

/-- One page-validation warning, one constructor per `warnings.push` site. -/
inductive VWarn where
  | badHeaderDisplay (page : String) (value : String)
  | nonBoolIsEnding (page : String)
deriving DecidableEq, Repr

def isHexDigitChar (c : Char) : Bool :=
  (48 ≤ c.toNat ∧ c.toNat ≤ 57) ∨ (97 ≤ c.toNat ∧ c.toNat ≤ 102) ∨
    (65 ≤ c.toNat ∧ c.toNat ≤ 70)

/-- The `PAGE_VALIDATION.background_color` pattern `^#[0-9a-fA-F]{6}$`. -/
def isHexColor (s : String) : Bool :=
  match s.data with
  | '#' :: rest => rest.length = 6 && rest.all isHexDigitChar
  | _ => false

def headerDisplayAllowed : List String := ["labyrinth_title", "page_title", "none"]

/-- The per-answer checks of `validatePageJson` (answer text non-empty; a
truthy `next` must name a known page). -/
def answerErrors (pageName : String) (allPageNames : List String) :
    Nat → List AnswerJ → List VErr
  | _, [] => []
  | i, a :: rest =>
      (if a.answer = "" ∨ trimStr a.answer = "" then [VErr.emptyAnswer pageName i] else []) ++
      (match truthyVal a.next with
       | some nx =>
           if ¬ allPageNames.contains nx then [VErr.unresolvedNext pageName i nx] else []
       | none => []) ++
      answerErrors pageName allPageNames (i + 1) rest

/-- `validatePageJson` (upload.js:429-483), errors only.  The `is_ending`
warning branch concerns non-boolean JSON values, which the typed model cannot
carry; it is warning-only and never blocks. -/
def validatePageJson (pageName : String) (p : PageJson) (allPageNames : List String) :
    List VErr :=
  (match p.title with
   | none => [VErr.titleMissing pageName]
   | some t =>
       if t = "" ∨ trimStr t = "" then [VErr.titleMissing pageName]
       else if t.length > 100 then [VErr.titleTooLong pageName] else []) ++
  (match truthyVal p.background_color with
   | some c => if ¬ isHexColor c then [VErr.badBgColor pageName c] else []
   | none => []) ++
  (match p.answers with
   | some l => answerErrors pageName allPageNames 0 l
   | none => [])

/-- The warnings of `validatePageJson` (header_display membership). -/
def pageWarnings (pageName : String) (p : PageJson) : List VWarn :=
  match truthyVal p.header_display with
  | some h => if ¬ headerDisplayAllowed.contains h then [VWarn.badHeaderDisplay pageName h] else []
  | none => []

/-- A loaded entry of the `pages` map: content, metadata, recorded state and
the fingerprint computed at load time. -/
structure PageRec where
  html : String
  json : PageJson
  meta : MetaRec
  hash : String
deriving DecidableEq, Repr

/-- `validateAllPages` (upload.js:490-506): concatenated per-page errors, in
page order, with `allPageNames = Object.keys(pages)`. -/
def validateAllPages (pages : List (String × PageRec)) : List VErr :=
  let allPageNames := pages.map (fun p => p.1)
  pages.flatMap (fun p => validatePageJson p.1 p.2.json allPageNames)

/-! ## State classification (upload.js:658-736) -/

/-- A `json_missing`/`html_missing` item `{ name, hasMeta, metaId }`
(`metaId` is the raw `metas[name]?.id`). -/
structure JMItem where
  name : String
  hasMeta : Bool
  metaId : Option String
deriving DecidableEq, Repr

/-- A `pageIds_missing` item `{ name, id }` (the id is truthy by
construction). -/
structure PMItem where
  name : String
  id : String
deriving DecidableEq, Repr

/-- A `residual_meta` item `{ name, id, inPageIds }`. -/
structure RMItem where
  name : String
  id : Option String
  inPageIds : Bool
deriving DecidableEq, Repr

structure PStates where
  normal : List String
  newP : List String
  json_missing : List JMItem
  html_missing : List JMItem
  orphan : List String
  pageIds_missing : List PMItem
  residual_meta : List RMItem
deriving DecidableEq, Repr

/-- `determinePageStates` (upload.js:658-736), transcribed branch for branch;
`newP` is the JS `new` category.  `idToName` is used only through
`!idToName[id]`, i.e. as existence of a meta whose truthy id equals `id`. -/
def determinePageStates (htmlNames jsonNames metaNames : List String)
    (pageIds : List String) (metas : String → MetaRec) : PStates :=
  let hasJson := fun n => jsonNames.contains n
  let hasMeta := fun n => metaNames.contains n
  let tid := fun n => truthyVal (metas n).id
  let inIds := fun n => match tid n with
    | some i => pageIds.contains i
    | none => false
  { normal := htmlNames.filter (fun n =>
      hasJson n && hasMeta n && (tid n).isSome && inIds n)
    newP := htmlNames.filter (fun n => hasJson n && !(hasMeta n))
    pageIds_missing := htmlNames.filterMap (fun n =>
      match tid n with
      | some i =>
          if hasJson n && hasMeta n && !(pageIds.contains i) then some ⟨n, i⟩ else none
      | none => none)
    json_missing := htmlNames.filterMap (fun n =>
      if !(hasJson n) then some ⟨n, hasMeta n, (metas n).id⟩ else none)
    html_missing := jsonNames.filterMap (fun n =>
      if !(htmlNames.contains n) then some ⟨n, hasMeta n, (metas n).id⟩ else none)
    residual_meta := metaNames.filterMap (fun n =>
      if !(htmlNames.contains n) && !(jsonNames.contains n) then
        some ⟨n, (metas n).id, inIds n⟩
      else none)
    orphan := pageIds.filter (fun i =>
      !(metaNames.any (fun n => tid n == some i))) }

end Thelaby

namespace Thelaby

/-! ## Remote actions and the remote environment

`RAction` records each mutating remote round trip `main` issues, in order.
Navigation, login/logout and form-filling DOM glue are not mutations and are
not traced; a page create/update is summarized by its one form submission.
`Env` supplies the results of the remote calls as deterministic functions
(`createId` is indexed by the submission's sequence number).  The environment
returns results rather than throwing; thrown transient errors and their
retries are modelled separately by `withRetry`. -/

inductive RAction where
  | labyCreate
  | labyUpdate (labyId : String)
  | deleteP (labyId : String) (pageId : String)
  | createSubmit (labyId : String) (name : String) (title : String) (content : String)
  | updateSubmit (pageId : String) (name : String) (title : String) (content : String)
  | uploadImg (path : String)
  | clearParentConnections (targetId : String)
  | setParentConnection (targetId : String) (srcId : String) (answerIndex : Nat)
  | setEditorContent (targetId : String)
deriving DecidableEq, Repr

structure Env where
  labyCreateId : String
  deleteOk : String → Bool
  createId : Nat → Option String
  uploadUrl : String → Option String
  connectOk : String → String → Nat → Bool

inductive Abort where
  | configNoTitle
  | configInvalid (errors : List CErr)
  | validationFailed (errors : List VErr)
  | firstPageMissing (name : String)
deriving DecidableEq, Repr

structure RunResult where
  trace : List RAction
  tree : Tree
  abort : Option Abort
deriving DecidableEq, Repr

/-! ## Assoc-list helpers for JS object maps (insertion-ordered) -/

def lookupAssoc (l : List (String × α)) (k : String) : Option α :=
  (l.find? (fun p => p.1 = k)).map (fun p => p.2)

/-- JS object assignment `m[k] = v`: replace in place if the key exists,
append otherwise. -/
def setAssoc (l : List (String × α)) (k : String) (v : α) : List (String × α) :=
  if l.any (fun p => p.1 = k) then
    l.map (fun p => if p.1 = k then (p.1, v) else p)
  else l ++ [(k, v)]

/-! ## Asset upload & dedup (uploadNewImages, upload.js:572-606) -/

def SITE_BASE : String := "https://www.thelabyrinth.co.kr"

/-- `url.startsWith('/') ? 'https://www.thelabyrinth.co.kr' + url : url`. -/
def fullUrlOf (u : String) : String :=
  if startsWithL ['/'] u.data then SITE_BASE ++ u else u

structure UploadOut where
  cache : List (String × String)
  pathMap : List (String × String)
  actions : List RAction
deriving Repr

/-- `uploadNewImages`: walk the image paths; a path whose checksum has a
truthy cached URL is served from the cache, otherwise `uploadImage` is
invoked; a truthy resulting URL is absolutized and recorded in both the cache
and the path map, a falsy one leaves both untouched. -/
def uploadNewImages (fs : FS) (env : Env) (imagePaths : List String)
    (imageCache : List (String × String)) : UploadOut :=
  imagePaths.foldl (fun acc p =>
    let checksum := calculateChecksum (fs.fileBytes p)
    match truthyVal (lookupAssoc acc.cache checksum) with
    | some url => { acc with pathMap := setAssoc acc.pathMap p url }
    | none =>
        let acts := acc.actions ++ [RAction.uploadImg p]
        match truthyVal (env.uploadUrl p) with
        | some url =>
            let fullUrl := fullUrlOf url
            { cache := setAssoc acc.cache checksum fullUrl,
              pathMap := setAssoc acc.pathMap p fullUrl,
              actions := acts }
        | none => { acc with actions := acts })
    { cache := imageCache, pathMap := [], actions := [] }

/-! ## Loading pages (upload.js:893-933) -/

def containsLT (s : String) : Bool := hasSubstr ['<'] s.data

/-- The image paths referenced by a page: content images, then each answer's
explanation images when the explanation is truthy and contains `'<'`
(upload.js:904-920 at load time, 1122-1140 / 1253-1271 at submit time). -/
def pageImagePaths (fs : FS) (html : String) (answers : List AnswerJ) : List String :=
  fs.scanImages html ++ answers.flatMap (fun a =>
    match a.explanation with
    | some e => if e ≠ "" && containsLT e then fs.scanImages e else []
    | none => [])

/-- `[...new Set(l)]`: first occurrences, in order. -/
def dedupL : List String → List String
  | [] => []
  | x :: xs => x :: (dedupL xs).filter (fun y => y ≠ x)

/-- Serialization of an answer for the fingerprint, present fields in file
order. -/
def answerToJVal (a : AnswerJ) : JVal :=
  .jobj
    ([("answer", JVal.jstr a.answer)] ++
     (match a.next with
      | some nx => [("next", JVal.jstr nx)]
      | none => []) ++
     [("public", JVal.jbool a.isPublic)] ++
     (match a.explanation with
      | some e => [("explanation", JVal.jstr e)]
      | none => []))

/-- Serialization of a page's metadata for the fingerprint.  The real call
hashes the parsed file with the author's key order; the model fixes one
canonical key order per structure, which is constant across runs over the
same file — exactly the property the pipeline uses.  (Key-order sensitivity
of `computePageHash` itself is analysed separately on raw `JVal`s.) -/
def pageJsonToJVal (p : PageJson) : JVal :=
  .jobj
    ((match p.title with
      | some t => [("title", JVal.jstr t)]
      | none => []) ++
     (match p.background_color with
      | some c => [("background_color", JVal.jstr c)]
      | none => []) ++
     (match p.header_display with
      | some h => [("header_display", JVal.jstr h)]
      | none => []) ++
     (match p.answers with
      | some l => [("answers", JVal.jarr (l.map answerToJVal))]
      | none => []) ++
     (match p.is_ending with
      | some b => [("is_ending", JVal.jbool b)]
      | none => []) ++
     (match p.hint with
      | some h => [("hint", JVal.jstr h)]
      | none => []) ++
     (match p.hint_enabled with
      | some b => [("hint_enabled", JVal.jbool b)]
      | none => []))

/-- The load loop (upload.js:897-926): every name with both a truthy HTML
file and a JSON file enters `pages`, with its fingerprint computed over
content, metadata and the deduplicated referenced-image checksums. -/
def loadPages (fs : FS) (entries : List (String × Entry)) : List (String × PageRec) :=
  entries.filterMap (fun pe =>
    match pe.2.html, pe.2.json with
    | some h, some j =>
        if h = "" then none
        else
          let checksums := (dedupL (pageImagePaths fs h (j.answers.getD []))).map
            (fun p => calculateChecksum (fs.fileBytes p))
          some (pe.1, ⟨h, j, pe.2.meta.getD {}, computePageHash h (pageJsonToJVal j) checksums⟩)
    | _, _ => none)

def findPage (pages : List (String × PageRec)) (n : String) : PageRec :=
  (lookupAssoc pages n).getD ⟨"", {}, {}, ""⟩

end Thelaby

namespace Thelaby

/-! ## Plan building (upload.js:1005-1056) -/

structure Plan where
  newPages : List String
  updatedPages : List String
  unchangedPages : List String
  recreateIds : List String
  pagesToDelete : List String
  metasToDelete : List String
deriving DecidableEq, Repr

/-- Categorize for processing: split `normal` by fingerprint; fold
`pageIds_missing` pages into the new set (clearing their in-memory meta) and
schedule their stale ids; collect orphan/residual/facet-missing deletions and
the meta files to remove.  Returns the plan and the meta-cleared `pages`
map. -/
def buildPlan (states : PStates) (pages : List (String × PageRec))
    (pageIds : List String) : Plan × List (String × PageRec) :=
  let jmIds : List JMItem → List String := fun items => items.filterMap (fun it =>
    if it.hasMeta then
      match truthyVal it.metaId with
      | some i => if pageIds.contains i then some i else none
      | none => none
    else none)
  let jmNames : List JMItem → List String := fun items => items.filterMap (fun it =>
    if it.hasMeta then some it.name else none)
  let plan : Plan :=
    { newPages := states.newP ++ states.pageIds_missing.map (fun it => it.name)
      updatedPages := states.normal.filter (fun n =>
        (findPage pages n).meta.hash ≠ some (findPage pages n).hash)
      unchangedPages := states.normal.filter (fun n =>
        (findPage pages n).meta.hash = some (findPage pages n).hash)
      recreateIds := states.pageIds_missing.map (fun it => it.id)
      pagesToDelete :=
        states.orphan ++
        states.residual_meta.filterMap (fun it =>
          match truthyVal it.id with
          | some i => if it.inPageIds then some i else none
          | none => none) ++
        jmIds states.json_missing ++ jmIds states.html_missing
      metasToDelete :=
        jmNames states.json_missing ++ jmNames states.html_missing ++
        states.residual_meta.map (fun it => it.name) }
  let pages' := pages.map (fun pr =>
    if states.pageIds_missing.any (fun it => it.name = pr.1) then
      (pr.1, { pr.2 with meta := {} })
    else pr)
  (plan, pages')

/-! ## Step 3: deletions (upload.js:1064-1097) -/

/-- The deletion loop: one `deletePage` call per scheduled id; the id is
filtered out of `pageIds` in both the success and the "already deleted"
branch, so the call's result does not affect the state. -/
def runDeletes (env : Env) (labyId : String) (ids : List String)
    (pageIds : List String) : List RAction × List String :=
  ids.foldl (fun acc i =>
    if env.deleteOk i then
      (acc.1 ++ [RAction.deleteP labyId i], acc.2.filter (fun x => x ≠ i))
    else
      (acc.1 ++ [RAction.deleteP labyId i], acc.2.filter (fun x => x ≠ i)))
    ([], pageIds)

def clearAllMetas (entries : List (String × Entry)) : List (String × Entry) :=
  entries.map (fun pe => (pe.1, { pe.2 with meta := none }))

def deleteMetasFor (entries : List (String × Entry)) (names : List String) :
    List (String × Entry) :=
  entries.map (fun pe =>
    if names.contains pe.1 then (pe.1, { pe.2 with meta := none }) else pe)

def setEntryMeta (entries : List (String × Entry)) (name : String)
    (m : Option MetaRec) : List (String × Entry) :=
  entries.map (fun pe => if pe.1 = name then (pe.1, { pe.2 with meta := m }) else pe)

def setPageMeta (pages : List (String × PageRec)) (name : String) (m : MetaRec) :
    List (String × PageRec) :=
  pages.map (fun pr => if pr.1 = name then (pr.1, { pr.2 with meta := m }) else pr)

/-! ## Steps 4-5: create / update loops (upload.js:1099-1341) -/

/-- The threaded state of the create/update/link phases. -/
structure PState where
  trace : List RAction
  entries : List (String × Entry)
  pages : List (String × PageRec)
  imageCache : List (String × String)
  pageIds : List String
  finalHtml : List (String × String)
  createCount : Nat
deriving Repr

/-- A processed answer: `{ ...ans, explanationHtml }`. -/
structure PAnswer where
  answer : String
  next : Option String
  isPublic : Bool
  explanationHtml : String
deriving DecidableEq, Repr

/-- The shared image sub-step of the create and update loops: collect the
page's referenced images, upload the new ones through the shared cache, and
substitute the resulting URLs into the content and each truthy explanation
(upload.js:1122-1159 and 1253-1290). -/
def prepPage (fs : FS) (env : Env) (st : PState) (html0 : String)
    (answers : List AnswerJ) : PState × String × List PAnswer :=
  let localImages := pageImagePaths fs html0 answers
  let pAnswers := answers.map (fun a =>
    PAnswer.mk a.answer a.next a.isPublic (a.explanation.getD ""))
  if localImages.isEmpty then (st, html0, pAnswers)
  else
    let u := uploadNewImages fs env localImages st.imageCache
    let html1 := fs.subst html0 u.pathMap
    let pAnswers1 := pAnswers.map (fun a =>
      if a.explanationHtml ≠ "" then
        { a with explanationHtml := fs.subst a.explanationHtml u.pathMap }
      else a)
    ({ st with trace := st.trace ++ u.actions, imageCache := u.cache }, html1, pAnswers1)

/-- One iteration of the create loop (upload.js:1105-1208): submit the page;
a truthy returned id records `{id, hash, is_first, is_ending}` into the
page's meta file, appends the id to `pageIds` if absent, and keeps the final
substituted HTML; a falsy id is a non-fatal per-page failure. -/
def createOne (fs : FS) (env : Env) (labyId : String) (firstPage : Option String)
    (st : PState) (name : String) : PState :=
  let pr := findPage st.pages name
  if pr.html = "" then st
  else
    let pageData := pr.json
    let answers := pageData.answers.getD []
    let isFirst := firstPage = some name
    let isEnding := pageData.is_ending.getD false
    let s := prepPage fs env st pr.html answers
    let st1 := s.1
    let html1 := s.2.1
    let st2 := { st1 with
      trace := st1.trace ++ [RAction.createSubmit labyId name (pageData.title.getD "") html1]
      createCount := st1.createCount + 1 }
    match truthyVal (env.createId st1.createCount) with
    | some pid =>
        let meta' := { pr.meta with
          id := some pid
          hash := some pr.hash
          is_first := some isFirst
          is_ending := some isEnding }
        { st2 with
          entries := setEntryMeta st2.entries name (some meta')
          pages := setPageMeta st2.pages name meta'
          pageIds := if st2.pageIds.contains pid then st2.pageIds else st2.pageIds ++ [pid]
          finalHtml := setAssoc st2.finalHtml name html1 }
    | none => st2

/-- One iteration of the update loop (upload.js:1230-1337): skip without a
truthy recorded id; otherwise submit a full replace on the recorded id and
refresh the recorded fingerprint/flags. -/
def updateOne (fs : FS) (env : Env) (firstPage : Option String)
    (st : PState) (name : String) : PState :=
  let pr := findPage st.pages name
  match truthyVal pr.meta.id with
  | none => st
  | some pid =>
      if pr.html = "" then st
      else
        let pageData := pr.json
        let answers := pageData.answers.getD []
        let isFirst := firstPage = some name
        let isEnding := pageData.is_ending.getD false
        let s := prepPage fs env st pr.html answers
        let st1 := s.1
        let html1 := s.2.1
        let meta' := { pr.meta with
          hash := some pr.hash
          is_first := some isFirst
          is_ending := some isEnding }
        { st1 with
          trace := st1.trace ++ [RAction.updateSubmit pid name (pageData.title.getD "") html1]
          entries := setEntryMeta st1.entries name (some meta')
          pages := setPageMeta st1.pages name meta'
          finalHtml := setAssoc st1.finalHtml name html1 }

/-! ## Step 6: parent connections (upload.js:1343-1431) -/

structure Conn where
  fromPageId : String
  answerIndex : Nat
deriving DecidableEq, Repr

def pushConn (l : List (String × List Conn)) (k : String) (c : Conn) :
    List (String × List Conn) :=
  if l.any (fun p => p.1 = k) then
    l.map (fun p => if p.1 = k then (p.1, p.2 ++ [c]) else p)
  else l ++ [(k, [c])]

/-- Recompute the edge map over all pages' answers: an edge is kept when its
target is newly created or its source was created/updated this run, grouped
by target id in first-insertion order (upload.js:1348-1380). -/
def buildConnections (pages : List (String × PageRec)) (pageIdMap : List (String × String))
    (newPages updatedPages : List String) : List (String × List Conn) :=
  let newPageIds := newPages.filterMap (fun n => truthyVal (lookupAssoc pageIdMap n))
  pages.foldl (fun conns pr =>
    let name := pr.1
    match truthyVal pr.2.meta.id with
    | none => conns
    | some fromId =>
        ((pr.2.json.answers.getD []).enum).foldl (fun conns2 ia =>
          match truthyVal ia.2.next with
          | some nx =>
              match truthyVal (lookupAssoc pageIdMap nx) with
              | some targetId =>
                  let isTargetNew := newPageIds.contains targetId
                  let isSrc := newPages.contains name || updatedPages.contains name
                  if isTargetNew || isSrc then
                    pushConn conns2 targetId ⟨fromId, ia.1 + 1⟩
                  else conns2
              | none => conns2
          | none => conns2) conns) []

/-- The link loop (upload.js:1385-1431): per target, clear the stored
predecessor set, set each computed source, and re-set the editor content when
a final HTML was kept for the target's name. -/
def runLinks (st : PState) (pageIdMap : List (String × String))
    (conns : List (String × List Conn)) : List RAction :=
  conns.flatMap (fun tc =>
    let targetName := (((pageIdMap.find? (fun p => p.2 = tc.1)).map (fun p => p.1))).getD tc.1
    [RAction.clearParentConnections tc.1] ++
    tc.2.map (fun c => RAction.setParentConnection tc.1 c.fromPageId c.answerIndex) ++
    (match lookupAssoc st.finalHtml targetName with
     | some _ => [RAction.setEditorContent tc.1]
     | none => []))

/-! ## The whole run (upload.js main, lines 738-1476) -/

/-- The meta-file cleanup for a fresh labyrinth (upload.js:836-844): when no
`labyrinth.meta` exists, every page meta file is removed before anything
else. -/
def entriesAfterCleanup (tree : Tree) : List (String × Entry) :=
  if tree.labyMeta.isNone then clearAllMetas tree.entries else tree.entries

/-- Step 2 (upload.js:852-879): create the labyrinth when no truthy id is
recorded, update it when the recorded config hash differs, else no-op. -/
def labyStep (fs : FS) (config : Config) (env : Env) (lm0 : LabyMeta) :
    List RAction × LabyMeta :=
  if ¬ truthyS lm0.id then
    ([RAction.labyCreate],
     { lm0 with id := some env.labyCreateId, hash := some (computeLabyrinthHash fs config) })
  else if lm0.hash ≠ some (computeLabyrinthHash fs config) then
    ([RAction.labyUpdate (lm0.id.getD "")],
     { lm0 with hash := some (computeLabyrinthHash fs config) })
  else ([], lm0)

/-- `config.first_page || config.start_page || null` (upload.js:996). -/
def firstPageOf (config : Config) : Option String :=
  if truthyS config.first_page then config.first_page
  else if truthyS config.start_page then config.start_page
  else none

/-- `firstPage && !Object.keys(pages).includes(firstPage)` (upload.js:999). -/
def firstPageBad (config : Config) (pages0 : List (String × PageRec)) : Bool :=
  match firstPageOf config with
  | some fp => !((pages0.map (fun p => p.1)).contains fp)
  | none => false

/-- Steps 3-6 (upload.js:1005-1431), run after all gates have passed:
plan, delete, create, update, link. -/
def mainPhases (fs : FS) (config : Config) (env : Env)
    (entries0 : List (String × Entry)) (lm : LabyMeta) : List RAction × Tree :=
  let labyId := lm.id.getD ""
  let pages0 := loadPages fs entries0
  let states := determinePageStates (namesWithHtml entries0) (namesWithJson entries0)
      (namesWithMeta entries0) lm.pageIds (metasOf entries0)
  let planP := buildPlan states pages0 lm.pageIds
  let plan := planP.1
  let pages1 := planP.2
  let del := runDeletes env labyId (plan.pagesToDelete ++ plan.recreateIds) lm.pageIds
  let tr3 := del.1
  let pageIds1 := del.2
  let entries1 := deleteMetasFor entries0 plan.metasToDelete
  let st0 : PState := ⟨[], entries1, pages1, lm.images, pageIds1, [], 0⟩
  let st4 := plan.newPages.foldl (createOne fs env labyId (firstPageOf config)) st0
  let pageIdMap := st4.pages.filterMap (fun pr =>
    (truthyVal pr.2.meta.id).map (fun i => (pr.1, i)))
  let st5 := plan.updatedPages.foldl (updateOne fs env (firstPageOf config)) st4
  let conns := buildConnections st5.pages pageIdMap plan.newPages plan.updatedPages
  let tr6 := runLinks st5 pageIdMap conns
  (tr3 ++ st5.trace ++ tr6,
   ⟨st5.entries, some { lm with images := st5.imageCache, pageIds := st5.pageIds }⟩)

/-- The reconcile pipeline as a pure function of the file system, the config,
the remote environment and the content tree.  Aborts (`process.exit(1)`)
leave the writes performed so far; the trace lists the mutating remote calls
in order. -/
def reconcile (fs : FS) (config : Config) (env : Env) (tree : Tree) : RunResult :=
  if ¬ truthyS config.title then ⟨[], tree, some Abort.configNoTitle⟩
  else if validateConfig config ≠ [] then
    ⟨[], tree, some (Abort.configInvalid (validateConfig config))⟩
  else
    let entries0 := entriesAfterCleanup tree
    let s2 := labyStep fs config env (tree.labyMeta.getD {})
    let pages0 := loadPages fs entries0
    if validateAllPages pages0 ≠ [] then
      ⟨s2.1, ⟨entries0, some s2.2⟩, some (Abort.validationFailed (validateAllPages pages0))⟩
    else if firstPageBad config pages0 then
      ⟨s2.1, ⟨entries0, some s2.2⟩,
       some (Abort.firstPageMissing ((firstPageOf config).getD ""))⟩
    else
      let mp := mainPhases fs config env entries0 s2.2
      ⟨s2.1 ++ mp.1, mp.2, none⟩

/-! ## Remote link state

The predecessor sets stored on the remote side, as transformed by a run's
trace: `clearParentConnections` empties a target's set, a successful
`setParentConnection` (per `env.connectOk`) appends an edge. -/

def applyLinkAction (env : Env) (st : List (String × List Conn)) :
    RAction → List (String × List Conn)
  | RAction.clearParentConnections t => setAssoc st t []
  | RAction.setParentConnection t s i =>
      if env.connectOk t s i then
        setAssoc st t ((lookupAssoc st t).getD [] ++ [⟨s, i⟩])
      else st
  | _ => st

def linkStateAfter (env : Env) (init : List (String × List Conn))
    (trace : List RAction) : List (String × List Conn) :=
  trace.foldl (applyLinkAction env) init

end Thelaby

namespace Thelaby

/-- Action classifier: is this a page-create submission for `name`? -/
def isCreateOf (name : String) : RAction → Bool
  | RAction.createSubmit _ n _ _ => n = name
  | _ => false

/-- The plan and meta-cleared pages map computed by step 3's planning. -/
def planOf (fs : FS) (entries0 : List (String × Entry)) (lm : LabyMeta) :
    Plan × List (String × PageRec) :=
  buildPlan (determinePageStates (namesWithHtml entries0) (namesWithJson entries0)
    (namesWithMeta entries0) lm.pageIds (metasOf entries0)) (loadPages fs entries0) lm.pageIds

/-- All remote ids scheduled for deletion (orphans, residual, missing-file
metas, and stale recreate ids). -/
def allDeleteIds (fs : FS) (entries0 : List (String × Entry)) (lm : LabyMeta) :
    List String :=
  (planOf fs entries0 lm).1.pagesToDelete ++ (planOf fs entries0 lm).1.recreateIds

/-- The page-phase state after step 3 (deletes and meta cleanup). -/
def st0Of (fs : FS) (entries0 : List (String × Entry)) (lm : LabyMeta) : PState :=
  ⟨[], deleteMetasFor entries0 (planOf fs entries0 lm).1.metasToDelete,
   (planOf fs entries0 lm).2, lm.images,
   lm.pageIds.filter (fun x => !((allDeleteIds fs entries0 lm).contains x)), [], 0⟩

/-- The state after the create loop (step 4). -/
def st4Of (fs : FS) (config : Config) (env : Env) (entries0 : List (String × Entry))
    (lm : LabyMeta) : PState :=
  (planOf fs entries0 lm).1.newPages.foldl
    (createOne fs env (lm.id.getD "") (firstPageOf config)) (st0Of fs entries0 lm)

/-- The name-to-remote-id map rebuilt after creation (upload.js:1217-1223). -/
def pageIdMapOf (fs : FS) (config : Config) (env : Env)
    (entries0 : List (String × Entry)) (lm : LabyMeta) : List (String × String) :=
  (st4Of fs config env entries0 lm).pages.filterMap (fun pr =>
    (truthyVal pr.2.meta.id).map (fun i => (pr.1, i)))

/-- The state after the update loop (step 5). -/
def st5Of (fs : FS) (config : Config) (env : Env) (entries0 : List (String × Entry))
    (lm : LabyMeta) : PState :=
  (planOf fs entries0 lm).1.updatedPages.foldl
    (updateOne fs env (firstPageOf config)) (st4Of fs config env entries0 lm)

/-- The connection map computed for step 6. -/
def connsOf (fs : FS) (config : Config) (env : Env)
    (entries0 : List (String × Entry)) (lm : LabyMeta) : List (String × List Conn) :=
  buildConnections (st5Of fs config env entries0 lm).pages
    (pageIdMapOf fs config env entries0 lm)
    (planOf fs entries0 lm).1.newPages (planOf fs entries0 lm).1.updatedPages

/-- A trivial file system for concrete scenarios: no images anywhere. -/
def demoFS : FS := ⟨fun _ => [], fun _ => [], fun h _ => h⟩

/-- A fully successful remote environment for concrete scenarios: created
pages get ids "100", "101", …. -/
def demoEnv : Env :=
  ⟨"L1", fun _ => true, fun k => some (toString (100 + k)), fun _ => some "/up.png",
   fun _ _ _ => true⟩

def demoCfg : Config := { title := some "My Laby" }

/-- A fresh tree whose single page has an answer pointing at a page that does
not exist. -/
def badNextJson : PageJson :=
  { title := some "A", answers := some [{ answer := "go", next := some "ZZZ" }] }

def badNextTree : Tree :=
  { entries := [("A", { html := some "<p>A</p>", json := some badNextJson })]
    labyMeta := none }

/-- Environment for the orphan-deletion scenario: page creation always
reports a falsy id. -/
def orphanEnv : Env :=
  ⟨"L1", fun _ => true, fun _ => none, fun _ => some "/up.png", fun _ _ _ => true⟩

def orphanLM : LabyMeta :=
  { id := some "7", hash := some "h", images := [], pageIds := ["500"] }

/-- A tree whose recorded `pageIds` holds one id with no meta file at all. -/
def orphanTree : Tree := { entries := [], labyMeta := some orphanLM }

/-- Scenario for the recreate-on-missing-id claim: one page whose meta
records id "9", which `pageIds` does not contain. -/
def c5Json : PageJson := { title := some "P" }

def c5LM : LabyMeta :=
  { id := some "7", hash := some "h", images := [], pageIds := [] }

def c5Entry : Entry where
  html := some "<p>x</p>"
  json := some c5Json
  meta := some { id := some "9", hash := some "zz" }

def c5Tree : Tree :=
  { entries := [("p", c5Entry)]
    labyMeta := some c5LM }

def c5Env : Env :=
  ⟨"L1", fun _ => true, fun _ => some "42", fun _ => some "/up.png", fun _ _ _ => true⟩

/-- Link-convergence scenario: page A's answer points at page B; both fresh. -/
def c6JsonA : PageJson where
  title := some "A"
  answers := some [{ answer := "go", next := some "B" }]

/-- A after the local edit that removes its answer. -/
def c6JsonA2 : PageJson where
  title := some "A"
  answers := some []

def c6JsonB : PageJson := { title := some "B" }

def c6EntryA : Entry where
  html := some "<p>a</p>"
  json := some c6JsonA

def c6EntryB : Entry where
  html := some "<p>b</p>"
  json := some c6JsonB

def c6Tree1 : Tree := { entries := [("A", c6EntryA), ("B", c6EntryB)], labyMeta := none }

def c6Run1 : RunResult := reconcile demoFS demoCfg demoEnv c6Tree1

/-- The remote predecessor sets after run 1, starting from no stored links. -/
def c6State1 : List (String × List Conn) := linkStateAfter demoEnv [] c6Run1.trace

def c6EntryA2 : Entry where
  html := some "<p>a</p>"
  json := some c6JsonA2
  meta := (findEntry c6Run1.tree.entries "A").meta

def c6EntryB2 : Entry where
  html := some "<p>b</p>"
  json := some c6JsonB
  meta := (findEntry c6Run1.tree.entries "B").meta

/-- The tree after run 1 with A's answer removed locally. -/
def c6Tree2 : Tree :=
  { entries := [("A", c6EntryA2), ("B", c6EntryB2)], labyMeta := c6Run1.tree.labyMeta }

def c6Run2 : RunResult := reconcile demoFS demoCfg demoEnv c6Tree2

/-- The remote predecessor sets after run 2. -/
def c6State2 : List (String × List Conn) := linkStateAfter demoEnv c6State1 c6Run2.trace

/-- Concrete link-phase inputs: A (id "100") answers into B (id "101"). -/
def linkWPages : List (String × PageRec) :=
  [("A", ⟨"<p>a</p>", c6JsonA, { id := some "100" }, "h1"⟩),
   ("B", ⟨"<p>b</p>", c6JsonB, { id := some "101" }, "h2"⟩)]

def linkWPim : List (String × String) := [("A", "100"), ("B", "101")]

def linkWSt : PState := ⟨[], [], [], [], [], [], 0⟩

/-- `entries'` differs from `entries` at most in the per-entry `meta` field
(same names, same html, same json, in the same order).  Every transformation
the pipeline applies to the entry list has this shape. -/
def MetaOnly (entries entries' : List (String × Entry)) : Prop :=
  ∃ f : String → Entry → Option MetaRec,
    entries' = entries.map (fun pe => (pe.1, { pe.2 with meta := f pe.1 pe.2 }))

/-- Everything the second run needs in order to be a no-op: the labyrinth
meta is fingerprint-current, all gates pass, no page is new / missing its id
/ missing files with a leftover meta, no recorded id is orphaned, and every
normal page's recorded fingerprint matches its computed one. -/
structure NoOpReady (fs : FS) (config : Config) (tree : Tree) (lm : LabyMeta) : Prop where
  hlm : tree.labyMeta = some lm
  hid : truthyS lm.id = true
  hhash : lm.hash = some (computeLabyrinthHash fs config)
  htitle : truthyS config.title = true
  hcfg : validateConfig config = []
  hval : validateAllPages (loadPages fs tree.entries) = []
  hfp : firstPageBad config (loadPages fs tree.entries) = false
  hnew : ∀ n ∈ namesWithHtml tree.entries,
    ((namesWithJson tree.entries).contains n &&
      !((namesWithMeta tree.entries).contains n)) = false
  hpm : ∀ n ∈ namesWithHtml tree.entries, ∀ i,
    truthyVal (metasOf tree.entries n).id = some i → lm.pageIds.contains i = true
  hmetaok : ∀ n ∈ namesWithMeta tree.entries,
    (namesWithHtml tree.entries).contains n = true ∧
    (namesWithJson tree.entries).contains n = true
  horph : ∀ i ∈ lm.pageIds, ((namesWithMeta tree.entries).any
    (fun n => truthyVal (metasOf tree.entries n).id == some i)) = true
  hupd : ∀ n ∈ namesWithHtml tree.entries,
    ((namesWithJson tree.entries).contains n &&
     (namesWithMeta tree.entries).contains n &&
     (truthyVal (metasOf tree.entries n).id).isSome &&
     (match truthyVal (metasOf tree.entries n).id with
      | some i => lm.pageIds.contains i
      | none => false)) = true →
    (findPage (loadPages fs tree.entries) n).meta.hash =
      some (findPage (loadPages fs tree.entries) n).hash

/-- Idempotence scenario: a fresh tree (no recorded state at all) with one
page that has both content and metadata. -/
def c1Tree : Tree :=
  { entries := [("A", { html := some "<p>A</p>", json := some c5Json })]
    labyMeta := none }

/-! # Theorems -/

/-! ## C10: tagsToIds -/

theorem collectTagIds_num_map (ns : List Int) :
    collectTagIds (ns.map TagInput.num) = ns := by
  induction ns with
  | nil => rfl
  | cons n rest ih => simp [collectTagIds, ih]

/-- C10.  `tagsToIds` returns at most five IDs for every input; numeric
entries pass through unchanged with no membership check (the whole numeric
prefix survives up to the cap); a known tag-name string maps to its ID; an
unknown string is dropped (warned, not an error); and the collected list is
truncated to its first five entries — so the tag set `applyTags` applies is
never larger than five even for an unvalidated config. -/
theorem tagsToIds_spec :
    (∀ tags, (tagsToIds tags).length ≤ 5) ∧
    (∀ ns : List Int, tagsToIds (some (ns.map TagInput.num)) = ns.take 5) ∧
    (∀ s rest, TAG_MAP s = none →
      collectTagIds (TagInput.str s :: rest) = collectTagIds rest) ∧
    (∀ s i rest, TAG_MAP s = some i →
      collectTagIds (TagInput.str s :: rest) = (i : Int) :: collectTagIds rest) ∧
    (∀ ts, tagsToIds (some ts) = (collectTagIds ts).take 5) := by
  refine ⟨?_, ?_, ?_, ?_, ?_⟩
  · intro tags
    cases tags with
    | none => simp [tagsToIds]
    | some ts =>
        simp only [tagsToIds, List.length_take]
        omega
  · intro ns
    simp [tagsToIds, collectTagIds_num_map]
  · intro s rest h
    simp [collectTagIds, h]
  · intro s i rest h
    simp [collectTagIds, h]
  · intro ts
    rfl

/-- Witness for C10 at concrete inputs: seven entries (numbers, known and
unknown names) collapse to the first five collected IDs. -/
theorem tagsToIds_spec_witness :
    TAG_MAP "nosuchtag" = none ∧ TAG_MAP "puzzle" = some 21 ∧
    tagsToIds (some [.num 9, .str "puzzle", .str "nosuchtag", .num 0, .str "horror",
      .num 7, .str "short"]) = [9, 21, 0, 19, 7] := by
  refine ⟨rfl, rfl, ?_⟩
  have h := tagsToIds_spec.2.2.2.2 [.num 9, .str "puzzle", .str "nosuchtag", .num 0,
    .str "horror", .num 7, .str "short"]
  rw [h]
  decide

/-! ## C9: withRetry -/

/-- C9.  The retry wrapper with the fixed configuration (`maxRetries = 3`,
`delayMs = 1000`): a success on an attempt returns that attempt's result with
no further invocations; a non-retryable error propagates immediately (one
call, no delay) from the first or any later attempt; a retryable error before
the final attempt triggers a delay of `1000·attempt` ms (linearly increasing:
1000 then 2000) and a retry; and a retryable error on the final attempt
propagates.  `fn k` is the outcome of the `k`-th invocation. -/
theorem withRetry_spec (fn : Nat → Except String α) :
    (∀ a, fn 1 = .ok a → withRetry fn 3 = ⟨.ok a, [], 1⟩) ∧
    (∀ e, fn 1 = .error e → isRetryableError e = false →
      withRetry fn 3 = ⟨.error e, [], 1⟩) ∧
    (∀ e a, fn 1 = .error e → isRetryableError e = true → fn 2 = .ok a →
      withRetry fn 3 = ⟨.ok a, [1000], 2⟩) ∧
    (∀ e e', fn 1 = .error e → isRetryableError e = true → fn 2 = .error e' →
      isRetryableError e' = false → withRetry fn 3 = ⟨.error e', [1000], 2⟩) ∧
    (∀ e e' a, fn 1 = .error e → isRetryableError e = true → fn 2 = .error e' →
      isRetryableError e' = true → fn 3 = .ok a →
      withRetry fn 3 = ⟨.ok a, [1000, 2000], 3⟩) ∧
    (∀ e e' e'', fn 1 = .error e → isRetryableError e = true → fn 2 = .error e' →
      isRetryableError e' = true → fn 3 = .error e'' →
      withRetry fn 3 = ⟨.error e'', [1000, 2000], 3⟩) := by
  refine ⟨?_, ?_, ?_, ?_, ?_, ?_⟩
  · intro a h1
    simp [withRetry, withRetryFrom, h1]
  · intro e h1 hr
    simp [withRetry, withRetryFrom, h1, hr]
  · intro e a h1 hr h2
    simp [withRetry, withRetryFrom, h1, hr, h2, RETRY_delayMs]
  · intro e e' h1 hr h2 hr'
    simp [withRetry, withRetryFrom, h1, hr, h2, hr', RETRY_delayMs]
  · intro e e' a h1 hr h2 hr' h3
    simp [withRetry, withRetryFrom, h1, hr, h2, hr', h3, RETRY_delayMs]
  · intro e e' e'' h1 hr h2 hr' h3
    simp [withRetry, withRetryFrom, h1, hr, h2, hr', h3, RETRY_delayMs]

/-- Witness for C9: a concrete attempt sequence — a timeout (retryable), then
a connection reset (retryable), then success — yields the third attempt's
value after delays of 1000 and 2000 ms; and a non-retryable error propagates
at once. -/
theorem withRetry_spec_witness :
    isRetryableError "Navigation Timeout Exceeded" = true ∧
    isRetryableError "read ECONNRESET" = true ∧
    isRetryableError "element not found" = false ∧
    withRetry (fun k => if k = 1 then .error "Navigation Timeout Exceeded"
      else if k = 2 then .error "read ECONNRESET" else .ok 42) 3 =
      ⟨.ok 42, [1000, 2000], 3⟩ ∧
    withRetry (fun _ => .error "element not found") 3 =
      ⟨(.error "element not found" : Except String Nat), [], 1⟩ := by
  refine ⟨by decide, by decide, by decide, ?_, ?_⟩
  · exact (withRetry_spec _).2.2.2.2.1 _ _ 42 rfl (by decide) rfl (by decide) rfl
  · exact (withRetry_spec (fun _ => .error "element not found")).2.1 _ rfl (by decide)

end Thelaby

namespace Thelaby

/-! ## C4: computePageHash -/

theorem charListLe_total : ∀ a b : List Char, charListLe a b = true ∨ charListLe b a = true := by
  intro a
  induction a with
  | nil => intro b; left; rfl
  | cons x xs ih =>
      intro b
      cases b with
      | nil => right; rfl
      | cons y ys =>
          simp only [charListLe]
          rcases Nat.lt_trichotomy x.toNat y.toNat with h | h | h
          · left; simp [h]
          · have hne : ¬ x.toNat < y.toNat := by omega
            have hne' : ¬ y.toNat < x.toNat := by omega
            rcases ih ys with h' | h'
            · left; simp [hne, hne', h']
            · right; simp [hne, hne', h']
          · right; simp [h, Nat.lt_asymm h]

theorem charListLe_trans : ∀ a b c : List Char,
    charListLe a b = true → charListLe b c = true → charListLe a c = true := by
  intro a
  induction a with
  | nil => intro b c _ _; rfl
  | cons x xs ih =>
      intro b c hab hbc
      cases b with
      | nil => simp [charListLe] at hab
      | cons y ys =>
          cases c with
          | nil => simp [charListLe] at hbc
          | cons z zs =>
              simp only [charListLe] at hab hbc ⊢
              by_cases h1 : x.toNat < y.toNat
              · by_cases h2 : y.toNat < z.toNat
                · have : x.toNat < z.toNat := by omega
                  simp [this]
                · by_cases h3 : z.toNat < y.toNat
                  · simp [h2, h3] at hbc
                  · have : x.toNat < z.toNat := by omega
                    simp [this]
              · by_cases h2 : y.toNat < x.toNat
                · simp [h1, h2] at hab
                · by_cases h3 : y.toNat < z.toNat
                  · have : x.toNat < z.toNat := by omega
                    simp [this]
                  · by_cases h4 : z.toNat < y.toNat
                    · simp [h3, h4] at hbc
                    · have h5 : ¬ x.toNat < z.toNat := by omega
                      have h6 : ¬ z.toNat < x.toNat := by omega
                      simp only [h1, h2, if_false, if_neg] at hab
                      simp only [h3, h4, if_false, if_neg] at hbc
                      simp only [h5, h6, if_false, if_neg]
                      exact ih ys zs hab hbc

theorem char_toNat_inj {x y : Char} (h : x.toNat = y.toNat) : x = y := by
  have := congrArg Char.ofNat h
  rwa [Char.ofNat_toNat, Char.ofNat_toNat] at this

theorem charListLe_antisymm : ∀ a b : List Char,
    charListLe a b = true → charListLe b a = true → a = b := by
  intro a
  induction a with
  | nil =>
      intro b _ hba
      cases b with
      | nil => rfl
      | cons y ys => simp [charListLe] at hba
  | cons x xs ih =>
      intro b hab hba
      cases b with
      | nil => simp [charListLe] at hab
      | cons y ys =>
          simp only [charListLe] at hab hba
          rcases Nat.lt_trichotomy x.toNat y.toNat with h | h | h
          · simp [h, Nat.lt_asymm h] at hba
          · have h1 : ¬ x.toNat < y.toNat := by omega
            have h2 : ¬ y.toNat < x.toNat := by omega
            simp [h1, h2] at hab hba
            rw [char_toNat_inj h, ih ys hab hba]
          · simp [h, Nat.lt_asymm h] at hab

theorem string_data_inj {a b : String} (h : a.data = b.data) : a = b := by
  cases a; cases b
  exact congrArg String.mk h

instance : IsTotal String strLe := ⟨fun a b => charListLe_total a.data b.data⟩

instance : IsTrans String strLe :=
  ⟨fun a b c hab hbc => charListLe_trans a.data b.data c.data hab hbc⟩

instance : IsAntisymm String strLe :=
  ⟨fun a b hab hba => string_data_inj (charListLe_antisymm a.data b.data hab hba)⟩

/-- A permutation of the checksum list leaves its sorted form unchanged. -/
theorem sortStrings_perm {l l' : List String} (h : l.Perm l') :
    sortStrings l = sortStrings l' :=
  List.eq_of_perm_of_sorted
    ((List.perm_insertionSort strLe l).trans (h.trans (List.perm_insertionSort strLe l').symm))
    (List.sorted_insertionSort strLe l) (List.sorted_insertionSort strLe l')

/-- C4, amended.  `computePageHash` is invariant under reordering of the
asset-checksum list (the checksums are sorted before hashing), but it is
*not* invariant under reordering of the metadata object's keys:
`JSON.stringify` serializes the metadata with its key order preserved, and at
a concrete two-key object the two orders produce different digests.  At
concrete instances, changing the content string, a metadata field's value, or
a referenced asset's checksum each changes the fingerprint. -/
theorem computePageHash_spec :
    (∀ (html : String) (json : JVal) (l l' : List String), l.Perm l' →
      computePageHash html json l = computePageHash html json l') ∧
    (computePageHash "h" (.jobj [("a", .jnum 1), ("b", .jnum 2)]) [] ≠
      computePageHash "h" (.jobj [("b", .jnum 2), ("a", .jnum 1)]) []) ∧
    (computePageHash "<p>x</p>" (.jobj [("title", .jstr "T")]) ["c1"] ≠
      computePageHash "<p>y</p>" (.jobj [("title", .jstr "T")]) ["c1"]) ∧
    (computePageHash "<p>x</p>" (.jobj [("title", .jstr "T")]) ["c1"] ≠
      computePageHash "<p>x</p>" (.jobj [("title", .jstr "U")]) ["c1"]) ∧
    (computePageHash "<p>x</p>" (.jobj [("title", .jstr "T")]) ["c1"] ≠
      computePageHash "<p>x</p>" (.jobj [("title", .jstr "T")]) ["c2"]) := by
  refine ⟨?_, by decide, by decide, by decide, by decide⟩
  intro html json l l' h
  simp only [computePageHash, sortStrings_perm h]

/-- Witness for C4 (amended): the checksum lists `["b", "a"]` and `["a", "b"]`
are permutations and produce the same fingerprint. -/
theorem computePageHash_spec_witness :
    (["b", "a"] : List String).Perm ["a", "b"] ∧
    computePageHash "h" (.jobj [("t", .jstr "v")]) ["b", "a"] =
      computePageHash "h" (.jobj [("t", .jstr "v")]) ["a", "b"] := by
  have hp : (["b", "a"] : List String).Perm ["a", "b"] := List.Perm.swap "a" "b" []
  exact ⟨hp, computePageHash_spec.1 _ _ _ _ hp⟩

/-- Counterexample to C4 as stated: reordering the metadata object's keys
changes the fingerprint, because the metadata is serialized in key order
(only the asset checksums are sorted). -/
theorem computePageHash_keyOrder_cex :
    computePageHash "h" (.jobj [("a", .jnum 1), ("b", .jnum 2)]) [] ≠
      computePageHash "h" (.jobj [("b", .jnum 2), ("a", .jnum 1)]) [] := by
  decide

end Thelaby

namespace Thelaby

/-! ## C8: asset upload dedup and cache -/

theorem truthyVal_eq_some {o : Option String} {u : String} (h : truthyVal o = some u) :
    o = some u ∧ u ≠ "" := by
  cases o with
  | none => simp [truthyVal] at h
  | some s =>
      simp only [truthyVal] at h
      by_cases hs : s = ""
      · simp [hs] at h
      · simp only [hs, if_neg] at h
        cases h
        exact ⟨rfl, hs⟩

theorem lookupAssoc_cons {α : Type} (p : String × α) (rest : List (String × α)) (k : String) :
    lookupAssoc (p :: rest) k = if p.1 = k then some p.2 else lookupAssoc rest k := by
  by_cases hp : p.1 = k
  · simp [lookupAssoc, List.find?_cons, hp]
  · simp [lookupAssoc, List.find?_cons, hp]

theorem lookupAssoc_append_single {α : Type} (l : List (String × α)) (k : String) (v : α)
    (h : ∀ q ∈ l, q.1 ≠ k) : lookupAssoc (l ++ [(k, v)]) k = some v := by
  induction l with
  | nil => simp [lookupAssoc, List.find?_cons]
  | cons p rest ih =>
      rw [List.cons_append, lookupAssoc_cons]
      have hp : ¬ p.1 = k := h p (by simp)
      rw [if_neg hp]
      exact ih (fun q hq => h q (by simp [hq]))

theorem lookupAssoc_map_set_self {α : Type} (l : List (String × α)) (k : String) (v : α)
    (h : l.any (fun q => q.1 = k) = true) :
    lookupAssoc (l.map (fun q => if q.1 = k then (q.1, v) else q)) k = some v := by
  induction l with
  | nil => simp at h
  | cons p rest ih =>
      by_cases hp : p.1 = k
      · rw [List.map_cons, if_pos hp, lookupAssoc_cons, if_pos hp]
      · rw [List.map_cons, if_neg hp, lookupAssoc_cons, if_neg hp]
        apply ih
        simpa [hp] using h

theorem lookupAssoc_setAssoc_self {α : Type} (l : List (String × α)) (k : String) (v : α) :
    lookupAssoc (setAssoc l k v) k = some v := by
  simp only [setAssoc]
  by_cases ha : l.any (fun q => q.1 = k)
  · rw [if_pos ha]
    exact lookupAssoc_map_set_self l k v ha
  · rw [if_neg ha]
    apply lookupAssoc_append_single
    intro q hq hc
    exact ha (List.any_eq_true.2 ⟨q, hq, by simpa using hc⟩)

theorem lookupAssoc_setAssoc_ne {α : Type} (l : List (String × α)) (k k' : String) (v : α)
    (h : k' ≠ k) : lookupAssoc (setAssoc l k v) k' = lookupAssoc l k' := by
  simp only [setAssoc]
  by_cases ha : l.any (fun q => q.1 = k)
  · rw [if_pos ha]
    induction l with
    | nil => rfl
    | cons p rest ih =>
        rw [List.map_cons, lookupAssoc_cons]
        by_cases hp : p.1 = k
        · have hp' : ¬ p.1 = k' := by rw [hp]; exact fun hh => h hh.symm
          rw [if_pos hp]
          rw [lookupAssoc_cons, if_neg (by simpa using hp'), if_neg hp']
          by_cases hr : rest.any (fun q => q.1 = k)
          · exact ih hr
          · have hrest : rest.map (fun q => if q.1 = k then (q.1, v) else q) = rest := by
              rw [List.map_congr_left, List.map_id]
              intro q hq
              have : ¬ q.1 = k := fun hc => hr (List.any_eq_true.2 ⟨q, hq, by simpa using hc⟩)
              simp [this]
            rw [hrest]
        · rw [if_neg hp, lookupAssoc_cons]
          by_cases hq : p.1 = k'
          · simp [hq]
          · rw [if_neg hq, if_neg hq]
            by_cases hr : rest.any (fun q => q.1 = k)
            · exact ih hr
            · have hrest : rest.map (fun q => if q.1 = k then (q.1, v) else q) = rest := by
                rw [List.map_congr_left, List.map_id]
                intro q hqq
                have : ¬ q.1 = k := fun hc => hr (List.any_eq_true.2 ⟨q, hqq, by simpa using hc⟩)
                simp [this]
              rw [hrest]
  · rw [if_neg ha]
    induction l with
    | nil =>
        rw [List.nil_append, lookupAssoc_cons]
        simp only [lookupAssoc, List.find?_nil, Option.map_none]
        rw [if_neg (fun hh => h hh.symm)]
    | cons p rest ih =>
        rw [List.cons_append, lookupAssoc_cons, lookupAssoc_cons]
        by_cases hq : p.1 = k'
        · rw [if_pos hq, if_pos hq]
        · rw [if_neg hq, if_neg hq]
          exact ih (by rw [List.any_cons] at ha; simp only [Bool.or_eq_true, not_or] at ha; simpa using ha.2)

theorem fullUrlOf_ne_empty {u : String} (h : u ≠ "") : fullUrlOf u ≠ "" := by
  simp only [fullUrlOf]
  by_cases hs : startsWithL ['/'] u.data
  · simp only [hs, if_true]
    intro hcontra
    have : (SITE_BASE ++ u).data = ("" : String).data := congrArg String.data hcontra
    simp [SITE_BASE, String.data_append] at this
  · simpa [hs]

/-- A single-path `uploadNewImages` on a cache hit: no upload, the cached URL
is mapped, the cache unchanged. -/
theorem uploadNewImages_single_hit (fs : FS) (env : Env) (p url : String)
    (cache : List (String × String))
    (h : truthyVal (lookupAssoc cache (calculateChecksum (fs.fileBytes p))) = some url) :
    uploadNewImages fs env [p] cache =
      { cache := cache, pathMap := setAssoc [] p url, actions := [] } := by
  simp only [uploadNewImages, List.foldl_cons, List.foldl_nil, h]

/-- A single-path `uploadNewImages` on a cache miss with a truthy upload
result: one upload action, the absolutized URL cached and mapped. -/
theorem uploadNewImages_single_miss (fs : FS) (env : Env) (p u : String)
    (cache : List (String × String))
    (hmiss : truthyVal (lookupAssoc cache (calculateChecksum (fs.fileBytes p))) = none)
    (hu : truthyVal (env.uploadUrl p) = some u) :
    uploadNewImages fs env [p] cache =
      { cache := setAssoc cache (calculateChecksum (fs.fileBytes p)) (fullUrlOf u),
        pathMap := setAssoc [] p (fullUrlOf u),
        actions := [RAction.uploadImg p] } := by
  simp only [uploadNewImages, List.foldl_cons, List.foldl_nil, hmiss, hu, List.nil_append]

/-- Every fold step of `uploadNewImages` preserves truthy cache entries. -/
theorem uploadNewImages_cache_mono (fs : FS) (env : Env) (paths : List String)
    (k v : String) (hv : v ≠ "") :
    ∀ acc : UploadOut, lookupAssoc acc.cache k = some v →
      lookupAssoc (paths.foldl (fun acc p =>
        let checksum := calculateChecksum (fs.fileBytes p)
        match truthyVal (lookupAssoc acc.cache checksum) with
        | some url => { acc with pathMap := setAssoc acc.pathMap p url }
        | none =>
            let acts := acc.actions ++ [RAction.uploadImg p]
            match truthyVal (env.uploadUrl p) with
            | some url =>
                let fullUrl := fullUrlOf url
                { cache := setAssoc acc.cache checksum fullUrl,
                  pathMap := setAssoc acc.pathMap p fullUrl,
                  actions := acts }
            | none => { acc with actions := acts }) acc).cache k = some v := by
  induction paths with
  | nil => intro acc h; simpa using h
  | cons p rest ih =>
      intro acc h
      simp only [List.foldl_cons]
      apply ih
      cases hl : truthyVal (lookupAssoc acc.cache (calculateChecksum (fs.fileBytes p))) with
      | some url => simpa using h
      | none =>
          cases hu : truthyVal (env.uploadUrl p) with
          | some url =>
              simp only []
              by_cases hkc : k = calculateChecksum (fs.fileBytes p)
              · rw [← hkc] at hl
                rw [h] at hl
                simp [truthyVal, hv] at hl
              · rw [lookupAssoc_setAssoc_ne _ _ _ _ hkc]
                exact h
          | none => simpa using h

/-- C8, amended.  Asset uploads are deduplicated by content checksum across
the run: with the checksum not already truthy in the cache and a truthy
upload result, two pages referencing byte-identical image files (any
filenames) cause exactly one `uploadImage` call, and both pages' path maps
carry the same resulting URL (which the caller substitutes into both pages'
content).  Every cache entry with a truthy (non-empty) URL survives
unchanged into the output cache; a falsy (empty-string) entry, however, may
be overwritten by a re-upload, so whole-cache append-only holds for the
truthy entries. -/
theorem uploadNewImages_spec :
    (∀ (fs : FS) (env : Env) (cache : List (String × String)) (p₁ p₂ u : String),
      fs.fileBytes p₁ = fs.fileBytes p₂ →
      truthyVal (lookupAssoc cache (calculateChecksum (fs.fileBytes p₁))) = none →
      truthyVal (env.uploadUrl p₁) = some u →
      (uploadNewImages fs env [p₁] cache).actions = [RAction.uploadImg p₁] ∧
      (uploadNewImages fs env [p₂] (uploadNewImages fs env [p₁] cache).cache).actions = [] ∧
      lookupAssoc (uploadNewImages fs env [p₁] cache).pathMap p₁ = some (fullUrlOf u) ∧
      lookupAssoc (uploadNewImages fs env [p₂]
        (uploadNewImages fs env [p₁] cache).cache).pathMap p₂ = some (fullUrlOf u)) ∧
    (∀ (fs : FS) (env : Env) (paths : List String) (cache : List (String × String))
      (k v : String), lookupAssoc cache k = some v → v ≠ "" →
      lookupAssoc (uploadNewImages fs env paths cache).cache k = some v) := by
  constructor
  · intro fs env cache p₁ p₂ u hbytes hmiss hu
    have hu' : u ≠ "" := (truthyVal_eq_some hu).2
    have hfull : fullUrlOf u ≠ "" := fullUrlOf_ne_empty hu'
    have h1 := uploadNewImages_single_miss fs env p₁ u cache hmiss hu
    have hlook : truthyVal (lookupAssoc (uploadNewImages fs env [p₁] cache).cache
        (calculateChecksum (fs.fileBytes p₂))) = some (fullUrlOf u) := by
      rw [h1, ← hbytes]
      simp only []
      rw [lookupAssoc_setAssoc_self]
      simp [truthyVal, hfull]
    have h2 := uploadNewImages_single_hit fs env p₂ (fullUrlOf u)
      (uploadNewImages fs env [p₁] cache).cache hlook
    refine ⟨by rw [h1], by rw [h2], ?_, ?_⟩
    · rw [h1]
      show lookupAssoc (setAssoc [] p₁ (fullUrlOf u)) p₁ = some (fullUrlOf u)
      exact lookupAssoc_setAssoc_self _ _ _
    · rw [h2]
      show lookupAssoc (setAssoc [] p₂ (fullUrlOf u)) p₂ = some (fullUrlOf u)
      exact lookupAssoc_setAssoc_self _ _ _
  · intro fs env paths cache k v h hv
    exact uploadNewImages_cache_mono fs env paths k v hv
      { cache := cache, pathMap := [], actions := [] } h

/-- Witness for C8 (amended): two distinct filenames with identical bytes —
one upload call, the same URL in both path maps, and a pre-existing truthy
cache entry surviving unchanged. -/
theorem uploadNewImages_spec_witness :
    (uploadNewImages ⟨fun _ => [], fun _ => [7], fun h _ => h⟩
        ⟨"L", fun _ => true, fun _ => none, fun _ => some "/u.png", fun _ _ _ => true⟩
        ["a.png"] [("k0", "http://old")]).actions = [RAction.uploadImg "a.png"] ∧
    (uploadNewImages ⟨fun _ => [], fun _ => [7], fun h _ => h⟩
        ⟨"L", fun _ => true, fun _ => none, fun _ => some "/u.png", fun _ _ _ => true⟩
        ["b.png"]
        (uploadNewImages ⟨fun _ => [], fun _ => [7], fun h _ => h⟩
          ⟨"L", fun _ => true, fun _ => none, fun _ => some "/u.png", fun _ _ _ => true⟩
          ["a.png"] [("k0", "http://old")]).cache).actions = [] ∧
    lookupAssoc (uploadNewImages ⟨fun _ => [], fun _ => [7], fun h _ => h⟩
        ⟨"L", fun _ => true, fun _ => none, fun _ => some "/u.png", fun _ _ _ => true⟩
        ["a.png"] [("k0", "http://old")]).cache "k0" = some "http://old" := by
  refine ⟨?_, ?_, ?_⟩
  · exact (uploadNewImages_spec.1 ⟨fun _ => [], fun _ => [7], fun h _ => h⟩
      ⟨"L", fun _ => true, fun _ => none, fun _ => some "/u.png", fun _ _ _ => true⟩
      [("k0", "http://old")] "a.png" "b.png" "/u.png" rfl (by decide) rfl).1
  · exact (uploadNewImages_spec.1 ⟨fun _ => [], fun _ => [7], fun h _ => h⟩
      ⟨"L", fun _ => true, fun _ => none, fun _ => some "/u.png", fun _ _ _ => true⟩
      [("k0", "http://old")] "a.png" "b.png" "/u.png" rfl (by decide) rfl).2.1
  · exact uploadNewImages_spec.2 ⟨fun _ => [], fun _ => [7], fun h _ => h⟩
      ⟨"L", fun _ => true, fun _ => none, fun _ => some "/u.png", fun _ _ _ => true⟩
      ["a.png"] [("k0", "http://old")] "k0" "http://old" rfl (by decide)

/-- Counterexample to C8's unconditional append-only clause: an input cache
entry whose recorded URL is the empty string (falsy in JS) is overwritten by
a successful re-upload, so it is not "present unchanged in the output
cache". -/
theorem uploadNewImages_appendOnly_cex :
    lookupAssoc (uploadNewImages ⟨fun _ => [], fun _ => [1], fun h _ => h⟩
        ⟨"L", fun _ => true, fun _ => none, fun _ => some "/u.png", fun _ _ _ => true⟩
        ["p.png"] [(calculateChecksum [1], "")]).cache (calculateChecksum [1]) ≠
      some "" := by
  decide

end Thelaby

namespace Thelaby

/-! ## C2: classification partition -/

theorem length_filter_filterMap {α β : Type} (l : List α) (f : α → Option β) (q : β → Bool) :
    ((l.filterMap f).filter q).length =
      (l.filter (fun n => ((f n).map q).getD false)).length := by
  induction l with
  | nil => rfl
  | cons x rest ih =>
      cases hf : f x with
      | none => simpa [List.filterMap_cons, hf] using ih
      | some b =>
          cases hq : q b with
          | true => simp [List.filterMap_cons, hf, List.filter_cons, hq, ih]
          | false => simp [List.filterMap_cons, hf, List.filter_cons, hq, ih]

theorem length_filter_unique {α : Type} [DecidableEq α] {l : List α} (hl : l.Nodup)
    (p : α → Bool) (n₀ : α) (huniq : ∀ n ∈ l, p n = true → n = n₀) :
    (l.filter p).length = if n₀ ∈ l ∧ p n₀ = true then 1 else 0 := by
  induction l with
  | nil => simp
  | cons x rest ih =>
      have hx : x ∉ rest := (List.nodup_cons.1 hl).1
      have hrest := ih (List.nodup_cons.1 hl).2 (fun n hn hp => huniq n (by simp [hn]) hp)
      cases hpx : p x with
      | true =>
          have hxn : x = n₀ := huniq x (by simp) hpx
          subst hxn
          have : ¬ (x ∈ rest ∧ p x = true) := fun h => hx h.1
          rw [List.filter_cons_of_pos (by simp [hpx])]
          simp only [List.length_cons, hrest, this, if_false, if_neg this]
          simp [hpx]
      | false =>
          rw [List.filter_cons_of_neg (by simp [hpx])]
          rw [hrest]
          by_cases hmem : n₀ ∈ rest ∧ p n₀ = true
          · simp only [hmem, if_pos]
            have : n₀ ∈ x :: rest ∧ p n₀ = true := ⟨by simp [hmem.1], hmem.2⟩
            simp [this]
          · rw [if_neg hmem]
            have : ¬ (n₀ ∈ x :: rest ∧ p n₀ = true) := by
              intro h
              rcases h with ⟨hin, hp⟩
              rcases List.mem_cons.1 hin with rfl | hin'
              · rw [hpx] at hp; exact Bool.false_ne_true hp
              · exact hmem ⟨hin', hp⟩
            rw [if_neg this]

theorem length_filter_zero {α : Type} {l : List α} (p : α → Bool)
    (h : ∀ n ∈ l, p n = false) : (l.filter p).length = 0 := by
  rw [List.length_eq_zero]
  rw [List.filter_eq_nil]
  intro a ha
  simp [h a ha]

end Thelaby

namespace Thelaby

/-- Number of categories of `determinePageStates` in which the page name `n`
occurs (with multiplicity). -/
def nameOccs (st : PStates) (n : String) : Nat :=
  (st.normal.filter (fun m => m = n)).length +
  (st.newP.filter (fun m => m = n)).length +
  (st.json_missing.filter (fun it => it.name = n)).length +
  (st.html_missing.filter (fun it => it.name = n)).length +
  (st.pageIds_missing.filter (fun it => it.name = n)).length +
  (st.residual_meta.filter (fun it => it.name = n)).length

/-- Number of categories of `determinePageStates` in which the remote id `i`
occurs (with multiplicity): directly in `orphan`, via a carried id in the
item categories, and via the classified page's recorded id in
`normal`/`newP`. -/
def idOccs (st : PStates) (metas : String → MetaRec) (i : String) : Nat :=
  (st.orphan.filter (fun j => j = i)).length +
  (st.normal.filter (fun m => truthyVal (metas m).id = some i)).length +
  (st.newP.filter (fun m => truthyVal (metas m).id = some i)).length +
  (st.json_missing.filter (fun it => truthyVal it.metaId = some i)).length +
  (st.html_missing.filter (fun it => truthyVal it.metaId = some i)).length +
  (st.pageIds_missing.filter (fun it => it.id = i)).length +
  (st.residual_meta.filter (fun it => truthyVal it.id = some i)).length

/-- Counterexample to C2 as stated: a page with an HTML file, a JSON file and
a meta file whose contents record no id (the empty object `{}`) falls through
every branch of `determinePageStates` — it lands in no category at all. -/
theorem determinePageStates_coverage_cex :
    nameOccs (determinePageStates ["p"] ["p"] ["p"] [] (fun _ => {})) "p" = 0 := by
  decide

end Thelaby

namespace Thelaby

theorem length_filter_filterMap_guard {α β : Type} (l : List α) (c : α → Bool) (g : α → β)
    (q : β → Bool) :
    ((l.filterMap (fun m => if c m then some (g m) else none)).filter q).length =
    (l.filter (fun m => c m && q (g m))).length := by
  induction l with
  | nil => rfl
  | cons m rest ih =>
      by_cases hc : c m
      · cases hq : q (g m) with
        | true => simp [List.filterMap_cons, hc, List.filter_cons, hq, ih]
        | false => simp [List.filterMap_cons, hc, List.filter_cons, hq, ih]
      · simp [List.filterMap_cons, hc, List.filter_cons, ih]

theorem length_filter_filterMap_opt {α β γ : Type} (l : List α) (t : α → Option γ)
    (c : α → γ → Bool) (g : α → γ → β) (q : β → Bool) :
    ((l.filterMap (fun m => match t m with
        | some i => if c m i then some (g m i) else none
        | none => none)).filter q).length =
    (l.filter (fun m => match t m with
        | some i => c m i && q (g m i)
        | none => false)).length := by
  induction l with
  | nil => rfl
  | cons m rest ih =>
      cases ht : t m with
      | none => simpa [List.filterMap_cons, ht, List.filter_cons] using ih
      | some i =>
          by_cases hc : c m i
          · cases hq : q (g m i) with
            | true => simp [List.filterMap_cons, ht, hc, List.filter_cons, hq, ih]
            | false => simp [List.filterMap_cons, ht, hc, List.filter_cons, hq, ih]
          · simp [List.filterMap_cons, ht, hc, List.filter_cons, ih]

theorem contains_eq_decide_mem (l : List String) (a : String) :
    l.contains a = decide (a ∈ l) := by
  by_cases h : a ∈ l
  · simp [h, List.elem_iff.2 h]
  · simp only [h, decide_eq_false h]
    cases hc : l.contains a with
    | false => rfl
    | true => exact absurd (List.elem_iff.1 hc) h

end Thelaby

namespace Thelaby

section PartitionTerms

variable (H J M P : List String) (ms : String → MetaRec) (n i : String)

theorem jm_name_term :
    ((H.filterMap (fun m =>
        if !(J.contains m) then some (⟨m, M.contains m, (ms m).id⟩ : JMItem) else none)).filter
      (fun it => it.name = n)).length =
    (H.filter (fun m => !(J.contains m) && decide (m = n))).length := by
  induction H with
  | nil => rfl
  | cons x rest ih =>
      by_cases hc : J.contains x
      · simp_all [List.filterMap_cons, List.filter_cons]
      · by_cases hx : x = n
        · simp_all [List.filterMap_cons, List.filter_cons]
        · simp_all [List.filterMap_cons, List.filter_cons]

theorem hm_name_term :
    ((J.filterMap (fun m =>
        if !(H.contains m) then some (⟨m, M.contains m, (ms m).id⟩ : JMItem) else none)).filter
      (fun it => it.name = n)).length =
    (J.filter (fun m => !(H.contains m) && decide (m = n))).length := by
  induction J with
  | nil => rfl
  | cons x rest ih =>
      by_cases hc : H.contains x
      · simp_all [List.filterMap_cons, List.filter_cons]
      · by_cases hx : x = n
        · simp_all [List.filterMap_cons, List.filter_cons]
        · simp_all [List.filterMap_cons, List.filter_cons]

theorem rm_name_term :
    ((M.filterMap (fun m =>
        if !(H.contains m) && !(J.contains m) then
          some (⟨m, (ms m).id,
            (match truthyVal (ms m).id with | some j => P.contains j | none => false)⟩ : RMItem)
        else none)).filter (fun it => it.name = n)).length =
    (M.filter (fun m => (!(H.contains m) && !(J.contains m)) && decide (m = n))).length := by
  induction M with
  | nil => rfl
  | cons x rest ih =>
      by_cases hc : !(H.contains x) && !(J.contains x)
      · by_cases hx : x = n
        · simp_all [List.filterMap_cons, List.filter_cons]
        · simp_all [List.filterMap_cons, List.filter_cons]
      · simp_all [List.filterMap_cons, List.filter_cons]

theorem pm_name_term :
    ((H.filterMap (fun m =>
        match truthyVal (ms m).id with
        | some j => if J.contains m && M.contains m && !(P.contains j) then
            some (⟨m, j⟩ : PMItem) else none
        | none => none)).filter (fun it => it.name = n)).length =
    (H.filter (fun m =>
        (match truthyVal (ms m).id with
         | some j => J.contains m && M.contains m && !(P.contains j)
         | none => false) && decide (m = n))).length := by
  induction H with
  | nil => rfl
  | cons x rest ih =>
      cases ht : truthyVal (ms x).id with
      | none => simp_all [List.filterMap_cons, List.filter_cons]
      | some j =>
          by_cases hc : J.contains x && M.contains x && !(P.contains j)
          · by_cases hx : x = n
            · simp_all [List.filterMap_cons, List.filter_cons]
            · simp_all [List.filterMap_cons, List.filter_cons]
          · simp_all [List.filterMap_cons, List.filter_cons]

theorem jm_id_term :
    ((H.filterMap (fun m =>
        if !(J.contains m) then some (⟨m, M.contains m, (ms m).id⟩ : JMItem) else none)).filter
      (fun it => truthyVal it.metaId = some i)).length =
    (H.filter (fun m => !(J.contains m) && decide (truthyVal (ms m).id = some i))).length := by
  induction H with
  | nil => rfl
  | cons x rest ih =>
      by_cases hc : J.contains x
      · simp_all [List.filterMap_cons, List.filter_cons]
      · by_cases hx : truthyVal (ms x).id = some i
        · simp_all [List.filterMap_cons, List.filter_cons]
        · simp_all [List.filterMap_cons, List.filter_cons]

theorem hm_id_term :
    ((J.filterMap (fun m =>
        if !(H.contains m) then some (⟨m, M.contains m, (ms m).id⟩ : JMItem) else none)).filter
      (fun it => truthyVal it.metaId = some i)).length =
    (J.filter (fun m => !(H.contains m) && decide (truthyVal (ms m).id = some i))).length := by
  induction J with
  | nil => rfl
  | cons x rest ih =>
      by_cases hc : H.contains x
      · simp_all [List.filterMap_cons, List.filter_cons]
      · by_cases hx : truthyVal (ms x).id = some i
        · simp_all [List.filterMap_cons, List.filter_cons]
        · simp_all [List.filterMap_cons, List.filter_cons]

theorem rm_id_term :
    ((M.filterMap (fun m =>
        if !(H.contains m) && !(J.contains m) then
          some (⟨m, (ms m).id,
            (match truthyVal (ms m).id with | some j => P.contains j | none => false)⟩ : RMItem)
        else none)).filter (fun it => truthyVal it.id = some i)).length =
    (M.filter (fun m =>
        (!(H.contains m) && !(J.contains m)) &&
          decide (truthyVal (ms m).id = some i))).length := by
  induction M with
  | nil => rfl
  | cons x rest ih =>
      by_cases hc : !(H.contains x) && !(J.contains x)
      · by_cases hx : truthyVal (ms x).id = some i
        · simp_all [List.filterMap_cons, List.filter_cons]
        · simp_all [List.filterMap_cons, List.filter_cons]
      · simp_all [List.filterMap_cons, List.filter_cons]

theorem pm_id_term :
    ((H.filterMap (fun m =>
        match truthyVal (ms m).id with
        | some j => if J.contains m && M.contains m && !(P.contains j) then
            some (⟨m, j⟩ : PMItem) else none
        | none => none)).filter (fun it => it.id = i)).length =
    (H.filter (fun m =>
        (match truthyVal (ms m).id with
         | some j => J.contains m && M.contains m && !(P.contains j) && decide (j = i)
         | none => false))).length := by
  induction H with
  | nil => rfl
  | cons x rest ih =>
      cases ht : truthyVal (ms x).id with
      | none => simp_all [List.filterMap_cons, List.filter_cons]
      | some j =>
          by_cases hc : J.contains x && M.contains x && !(P.contains j)
          · by_cases hx : j = i
            · simp_all [List.filterMap_cons, List.filter_cons]
            · simp_all [List.filterMap_cons, List.filter_cons]
          · by_cases hx : j = i
            · simp_all [List.filterMap_cons, List.filter_cons]
            · simp_all [List.filterMap_cons, List.filter_cons]

end PartitionTerms

end Thelaby

namespace Thelaby

theorem length_filter_decide_left {l : List String} (hl : l.Nodup) (b : String → Bool)
    (n : String) :
    (l.filter (fun m => decide (m = n) && b m)).length = if n ∈ l ∧ b n = true then 1 else 0 := by
  rw [length_filter_unique hl _ n (by
    intro m _ h
    simp only [Bool.and_eq_true] at h
    exact of_decide_eq_true h.1)]
  by_cases hc : n ∈ l ∧ b n = true
  · rw [if_pos hc, if_pos ⟨hc.1, by simp [hc.2]⟩]
  · rw [if_neg hc, if_neg]
    intro h'
    have h2 := h'.2
    simp only [Bool.and_eq_true] at h2
    exact hc ⟨h'.1, h2.2⟩

theorem length_filter_decide_right {l : List String} (hl : l.Nodup) (b : String → Bool)
    (n : String) :
    (l.filter (fun m => b m && decide (m = n))).length = if n ∈ l ∧ b n = true then 1 else 0 := by
  rw [length_filter_unique hl _ n (by
    intro m _ h
    simp only [Bool.and_eq_true] at h
    exact of_decide_eq_true h.2)]
  by_cases hc : n ∈ l ∧ b n = true
  · rw [if_pos hc, if_pos ⟨hc.1, by simp [hc.2]⟩]
  · rw [if_neg hc, if_neg]
    intro h'
    have h2 := h'.2
    simp only [Bool.and_eq_true] at h2
    exact hc ⟨h'.1, h2.1⟩

theorem any_tid_iff (M : List String) (ms : String → MetaRec) (i : String) :
    (M.any (fun n => truthyVal (ms n).id == some i)) = true ↔
      ∃ n ∈ M, truthyVal (ms n).id = some i := by
  simp [List.any_eq_true]

end Thelaby

namespace Thelaby

/-- C2, amended.  For inventories satisfying the file-system well-formedness
invariants — the three scanned name lists and `pageIds` duplicate-free, every
meta file recording a truthy id, ids only coming from meta files, and
recorded ids distinct across meta files — `determinePageStates` is a
partition: every page name of the inventory and every id of `knownPageIds`
lands in exactly one of the seven categories.  (Without the truthy-id
requirement coverage fails: see the counterexample, a meta file with no id
leaves its page uncategorized.) -/
theorem determinePageStates_partition
    (H J M P : List String) (ms : String → MetaRec)
    (hH : H.Nodup) (hJ : J.Nodup) (hM : M.Nodup) (hP : P.Nodup)
    (hTruthy : ∀ n ∈ M, (truthyVal (ms n).id).isSome)
    (hNoMeta : ∀ n, n ∉ M → (ms n).id = none)
    (hInj : ∀ m ∈ M, ∀ n ∈ M, truthyVal (ms m).id = truthyVal (ms n).id → m = n) :
    (∀ n, n ∈ H ∨ n ∈ J ∨ n ∈ M →
      nameOccs (determinePageStates H J M P ms) n = 1) ∧
    (∀ i, i ∈ P → idOccs (determinePageStates H J M P ms) ms i = 1) := by
  constructor
  ·
    intro n hn
    unfold nameOccs
    rw [show (determinePageStates H J M P ms).normal = H.filter (fun m =>
        J.contains m && M.contains m && (truthyVal (ms m).id).isSome &&
          (match truthyVal (ms m).id with | some j => P.contains j | none => false)) from rfl]
    rw [show (determinePageStates H J M P ms).newP = H.filter (fun m =>
        J.contains m && !(M.contains m)) from rfl]
    rw [show (determinePageStates H J M P ms).json_missing = H.filterMap (fun m =>
        if !(J.contains m) then some ⟨m, M.contains m, (ms m).id⟩ else none) from rfl]
    rw [show (determinePageStates H J M P ms).html_missing = J.filterMap (fun m =>
        if !(H.contains m) then some ⟨m, M.contains m, (ms m).id⟩ else none) from rfl]
    rw [show (determinePageStates H J M P ms).pageIds_missing = H.filterMap (fun m =>
        match truthyVal (ms m).id with
        | some j => if J.contains m && M.contains m && !(P.contains j) then some ⟨m, j⟩ else none
        | none => none) from rfl]
    rw [show (determinePageStates H J M P ms).residual_meta = M.filterMap (fun m =>
        if !(H.contains m) && !(J.contains m) then
          some ⟨m, (ms m).id,
            (match truthyVal (ms m).id with | some j => P.contains j | none => false)⟩
        else none) from rfl]
    rw [List.filter_filter, List.filter_filter]
    rw [jm_name_term, hm_name_term, pm_name_term, rm_name_term]
    rw [length_filter_decide_left hH, length_filter_decide_left hH,
        length_filter_decide_right hH, length_filter_decide_right hJ,
        length_filter_decide_right hH, length_filter_decide_right hM]
    have chJ : ∀ hx : n ∈ J, J.contains n = true := fun hx => by
      rw [contains_eq_decide_mem]; simpa using hx
    by_cases hh : n ∈ H <;> by_cases hj : n ∈ J <;> by_cases hm : n ∈ M
    · obtain ⟨j, htj⟩ := Option.isSome_iff_exists.1 (hTruthy n hm)
      by_cases hpj : j ∈ P
      · simp [contains_eq_decide_mem, hh, hj, hm, htj, hpj]
      · simp [contains_eq_decide_mem, hh, hj, hm, htj, hpj]
    · have ht0 : truthyVal (ms n).id = none := by rw [hNoMeta n hm]; rfl
      simp [contains_eq_decide_mem, hh, hj, hm, ht0]
    · obtain ⟨j, htj⟩ := Option.isSome_iff_exists.1 (hTruthy n hm)
      simp [contains_eq_decide_mem, hh, hj, hm, htj]
    · have ht0 : truthyVal (ms n).id = none := by rw [hNoMeta n hm]; rfl
      simp [contains_eq_decide_mem, hh, hj, hm, ht0]
    · obtain ⟨j, htj⟩ := Option.isSome_iff_exists.1 (hTruthy n hm)
      simp [contains_eq_decide_mem, hh, hj, hm, htj]
    · have ht0 : truthyVal (ms n).id = none := by rw [hNoMeta n hm]; rfl
      simp [contains_eq_decide_mem, hh, hj, hm, ht0]
    · obtain ⟨j, htj⟩ := Option.isSome_iff_exists.1 (hTruthy n hm)
      simp [contains_eq_decide_mem, hh, hj, hm, htj]
    · rcases hn with h | h | h
      · exact absurd h hh
      · exact absurd h hj
      · exact absurd h hm
  ·
    intro i hi
    have hPc : P.contains i = true := by rw [contains_eq_decide_mem]; simpa using hi
    unfold idOccs
    rw [show (determinePageStates H J M P ms).orphan = P.filter (fun j =>
        !(M.any (fun m => truthyVal (ms m).id == some j))) from rfl]
    rw [show (determinePageStates H J M P ms).normal = H.filter (fun m =>
        J.contains m && M.contains m && (truthyVal (ms m).id).isSome &&
          (match truthyVal (ms m).id with | some j => P.contains j | none => false)) from rfl]
    rw [show (determinePageStates H J M P ms).newP = H.filter (fun m =>
        J.contains m && !(M.contains m)) from rfl]
    rw [show (determinePageStates H J M P ms).json_missing = H.filterMap (fun m =>
        if !(J.contains m) then some ⟨m, M.contains m, (ms m).id⟩ else none) from rfl]
    rw [show (determinePageStates H J M P ms).html_missing = J.filterMap (fun m =>
        if !(H.contains m) then some ⟨m, M.contains m, (ms m).id⟩ else none) from rfl]
    rw [show (determinePageStates H J M P ms).pageIds_missing = H.filterMap (fun m =>
        match truthyVal (ms m).id with
        | some j => if J.contains m && M.contains m && !(P.contains j) then some ⟨m, j⟩ else none
        | none => none) from rfl]
    rw [show (determinePageStates H J M P ms).residual_meta = M.filterMap (fun m =>
        if !(H.contains m) && !(J.contains m) then
          some ⟨m, (ms m).id,
            (match truthyVal (ms m).id with | some j => P.contains j | none => false)⟩
        else none) from rfl]
    rw [List.filter_filter, List.filter_filter, List.filter_filter]
    rw [jm_id_term, hm_id_term, pm_id_term, rm_id_term]
    rw [length_filter_decide_left hP]
    have hpm0 : (H.filter (fun m =>
        (match truthyVal (ms m).id with
         | some j => J.contains m && M.contains m && !(P.contains j) && decide (j = i)
         | none => false))).length = 0 := by
      apply length_filter_zero
      intro m _
      cases htm : truthyVal (ms m).id with
      | none => rfl
      | some j =>
          by_cases hji : j = i
          · subst hji
            simp only [Bool.and_eq_true] at *
            simp [hPc]
            exact fun _ _ => hi
          · simp [hji]
    rw [hpm0]
    have memM_of_tid : ∀ m, truthyVal (ms m).id = some i → m ∈ M := by
      intro m htm
      by_contra hmm
      rw [show truthyVal (ms m).id = none from by rw [hNoMeta m hmm]; rfl] at htm
      exact Option.noConfusion htm
    by_cases hmap : ∃ n₀ ∈ M, truthyVal (ms n₀).id = some i
    · obtain ⟨n₀, hn₀M, ht₀⟩ := hmap
      have hany : (M.any (fun m => truthyVal (ms m).id == some i)) = true :=
        (any_tid_iff M ms i).2 ⟨n₀, hn₀M, ht₀⟩
      rw [length_filter_unique hH _ n₀ (by
        intro m _ hpred
        simp only [Bool.and_eq_true, decide_eq_true_eq] at hpred
        exact hInj m (memM_of_tid m hpred.1) n₀ hn₀M (hpred.1.trans ht₀.symm))]
      rw [length_filter_unique hH _ n₀ (by
        intro m _ hpred
        simp only [Bool.and_eq_true, decide_eq_true_eq] at hpred
        exact hInj m (memM_of_tid m hpred.1) n₀ hn₀M (hpred.1.trans ht₀.symm))]
      rw [length_filter_unique hH _ n₀ (by
        intro m _ hpred
        simp only [Bool.and_eq_true, decide_eq_true_eq] at hpred
        exact hInj m (memM_of_tid m hpred.2) n₀ hn₀M (hpred.2.trans ht₀.symm))]
      rw [length_filter_unique hJ _ n₀ (by
        intro m _ hpred
        simp only [Bool.and_eq_true, decide_eq_true_eq] at hpred
        exact hInj m (memM_of_tid m hpred.2) n₀ hn₀M (hpred.2.trans ht₀.symm))]
      rw [length_filter_unique hM _ n₀ (by
        intro m _ hpred
        simp only [Bool.and_eq_true, decide_eq_true_eq] at hpred
        exact hInj m (memM_of_tid m hpred.2) n₀ hn₀M (hpred.2.trans ht₀.symm))]
      have hMn₀ : M.contains n₀ = true := by rw [contains_eq_decide_mem]; simpa using hn₀M
      by_cases hh0 : n₀ ∈ H <;> by_cases hj0 : n₀ ∈ J
      · simp [contains_eq_decide_mem, hi, hany, hh0, hj0, hn₀M, ht₀, hPc]
      · simp [contains_eq_decide_mem, hi, hany, hh0, hj0, hn₀M, ht₀, hPc]
      · simp [contains_eq_decide_mem, hi, hany, hh0, hj0, hn₀M, ht₀, hPc]
      · simp [contains_eq_decide_mem, hi, hany, hh0, hj0, hn₀M, ht₀, hPc]
    · have hany : (M.any (fun m => truthyVal (ms m).id == some i)) = false := by
        cases ha : (M.any (fun m => truthyVal (ms m).id == some i)) with
        | false => rfl
        | true => exact absurd ((any_tid_iff M ms i).1 ha) hmap
      have hz : ∀ (L : List String) (b : String → Bool),
          (L.filter (fun m => b m && decide (truthyVal (ms m).id = some i))).length = 0 := by
        intro L b
        apply length_filter_zero
        intro m _
        by_cases htm : truthyVal (ms m).id = some i
        · exact absurd ⟨m, memM_of_tid m htm, htm⟩ hmap
        · simp [htm]
      have hz' : ∀ (L : List String) (b : String → Bool),
          (L.filter (fun m => decide (truthyVal (ms m).id = some i) && b m)).length = 0 := by
        intro L b
        apply length_filter_zero
        intro m _
        by_cases htm : truthyVal (ms m).id = some i
        · exact absurd ⟨m, memM_of_tid m htm, htm⟩ hmap
        · simp [htm]
      rw [hz', hz', hz, hz, hz]
      simp [hi, hany]

/-- Witness for C2 (amended) at a concrete inventory: page "a" has all three
facets with its id "x" known; "b" is content-only, "c" metadata-only, "d" a
residual meta file; id "z" is an orphan. -/
theorem determinePageStates_partition_witness :
    nameOccs (determinePageStates ["a", "b"] ["a", "c"] ["a", "d"] ["x", "z"]
      (fun n => if n = "a" then { id := some "x" } else if n = "d" then { id := some "y" }
        else {})) "a" = 1 ∧
    idOccs (determinePageStates ["a", "b"] ["a", "c"] ["a", "d"] ["x", "z"]
      (fun n => if n = "a" then { id := some "x" } else if n = "d" then { id := some "y" }
        else {}))
      (fun n => if n = "a" then { id := some "x" } else if n = "d" then { id := some "y" }
        else {}) "z" = 1 := by
  have h := determinePageStates_partition ["a", "b"] ["a", "c"] ["a", "d"] ["x", "z"]
    (fun n => if n = "a" then { id := some "x" } else if n = "d" then { id := some "y" }
      else {})
    (by decide) (by decide) (by decide) (by decide) (by decide)
    (by
      intro n hn
      have h1 : ¬ n = "a" := fun hh => hn (by rw [hh]; decide)
      have h2 : ¬ n = "d" := fun hh => hn (by rw [hh]; decide)
      simp [h1, h2])
    (by decide)
  exact ⟨h.1 "a" (by decide), h.2 "z" (by decide)⟩

end Thelaby

namespace Thelaby

/-! ## C3: validation gating -/

/-- Counterexample to C3 as stated: with a fresh labyrinth and a page whose
`next` is unresolved, the run still issues the labyrinth create (step 2
precedes page validation) before aborting — so "zero remote calls are made,
including the labyrinth create/update" is false. -/
theorem reconcile_validation_gate_cex :
    (reconcile demoFS demoCfg demoEnv badNextTree).trace = [RAction.labyCreate] ∧
    (reconcile demoFS demoCfg demoEnv badNextTree).abort =
      some (Abort.validationFailed [VErr.unresolvedNext "A" 0 "ZZZ"]) := by
  decide

/-- C3, amended.  If any page-validation error exists, the run aborts before
any page-level remote mutation: the trace contains at most the labyrinth
create/update of step 2 (which precedes page validation and may already have
been issued), and the abort report carries the full collected error list —
every page's errors, not just the first. -/
theorem reconcile_validation_gate (fs : FS) (config : Config) (env : Env) (tree : Tree)
    (ht : truthyS config.title = true)
    (hcfg : validateConfig config = [])
    (hv : validateAllPages (loadPages fs (entriesAfterCleanup tree)) ≠ []) :
    (reconcile fs config env tree).abort = some (Abort.validationFailed
      (validateAllPages (loadPages fs (entriesAfterCleanup tree)))) ∧
    ∀ a ∈ (reconcile fs config env tree).trace,
      a = RAction.labyCreate ∨ ∃ lid, a = RAction.labyUpdate lid := by
  have hr : reconcile fs config env tree =
      ⟨(labyStep fs config env (tree.labyMeta.getD {})).1,
       ⟨entriesAfterCleanup tree, some (labyStep fs config env (tree.labyMeta.getD {})).2⟩,
       some (Abort.validationFailed
         (validateAllPages (loadPages fs (entriesAfterCleanup tree))))⟩ := by
    simp only [reconcile]
    rw [if_neg (by simp [ht])]
    rw [if_neg (by simp [hcfg])]
    rw [if_pos hv]
  rw [hr]
  refine ⟨rfl, ?_⟩
  intro a ha
  simp only [labyStep] at ha
  by_cases h1 : ¬ truthyS (tree.labyMeta.getD {}).id
  · rw [if_pos h1] at ha
    left
    simpa using ha
  · rw [if_neg h1] at ha
    by_cases h2 : (tree.labyMeta.getD {}).hash = some (computeLabyrinthHash fs config)
    · rw [if_neg (by simp [h2])] at ha
      simp at ha
    · rw [if_pos (by simp [h2])] at ha
      right
      exact ⟨_, by simpa using ha⟩

/-- Witness for C3 (amended): the bad-`next` scenario aborts with exactly the
collected error list and its trace holds nothing but the labyrinth create. -/
theorem reconcile_validation_gate_witness :
    truthyS demoCfg.title = true ∧ validateConfig demoCfg = [] ∧
    (reconcile demoFS demoCfg demoEnv badNextTree).abort = some (Abort.validationFailed
      (validateAllPages (loadPages demoFS (entriesAfterCleanup badNextTree)))) := by
  refine ⟨by decide, by decide, ?_⟩
  exact (reconcile_validation_gate demoFS demoCfg demoEnv badNextTree (by decide) (by decide)
    (by decide)).1

end Thelaby

namespace Thelaby

/-! ## Pipeline lemmas shared by the remaining claims -/

/-- The success-path equation: when all four gates pass, the run does not
abort and decomposes into the step-2 trace followed by the main phases. -/
theorem reconcile_success_eq (fs : FS) (config : Config) (env : Env) (tree : Tree)
    (ht : truthyS config.title = true)
    (hcfg : validateConfig config = [])
    (hv : validateAllPages (loadPages fs (entriesAfterCleanup tree)) = [])
    (hfp : firstPageBad config (loadPages fs (entriesAfterCleanup tree)) = false) :
    reconcile fs config env tree =
      ⟨(labyStep fs config env (tree.labyMeta.getD {})).1 ++
         (mainPhases fs config env (entriesAfterCleanup tree)
           (labyStep fs config env (tree.labyMeta.getD {})).2).1,
       (mainPhases fs config env (entriesAfterCleanup tree)
         (labyStep fs config env (tree.labyMeta.getD {})).2).2,
       none⟩ := by
  simp only [reconcile]
  rw [if_neg (by simp [ht])]
  rw [if_neg (by simp [hcfg])]
  rw [if_neg (by simp [hv])]
  rw [if_neg (by simp [hfp])]

theorem runDeletes_fold (env : Env) (labyId : String) :
    ∀ (ids : List String) (tr : List RAction) (pids : List String),
      ids.foldl (fun acc i =>
        if env.deleteOk i then
          (acc.1 ++ [RAction.deleteP labyId i], acc.2.filter (fun x => x ≠ i))
        else
          (acc.1 ++ [RAction.deleteP labyId i], acc.2.filter (fun x => x ≠ i))) (tr, pids) =
      (tr ++ ids.map (RAction.deleteP labyId),
       pids.filter (fun x => !(ids.contains x))) := by
  intro ids
  induction ids with
  | nil =>
      intro tr pids
      simp
  | cons i rest ih =>
      intro tr pids
      rw [List.foldl_cons, ite_self]
      rw [ih (tr ++ [RAction.deleteP labyId i]) (pids.filter (fun x => x ≠ i))]
      rw [List.filter_filter]
      simp only [Prod.mk.injEq, List.map_cons]
      refine ⟨by simp, ?_⟩
      apply List.filter_congr
      intro x _
      by_cases hx : x = i
      · subst hx
        simp
      · by_cases hr : rest.contains x
        · simp [hx, hr]
        · simp [hx, hr]

/-- `runDeletes` in closed form: one delete call per scheduled id, and the
surviving id list filtered — identically in the success and the not-found
branch, so the environment's delete results are irrelevant. -/
theorem runDeletes_eq (env : Env) (labyId : String) (ids pageIds : List String) :
    runDeletes env labyId ids pageIds =
      (ids.map (RAction.deleteP labyId), pageIds.filter (fun x => !(ids.contains x))) := by
  unfold runDeletes
  exact runDeletes_fold env labyId ids [] pageIds

end Thelaby

namespace Thelaby

theorem findEntry_setEntryMeta_ne (entries : List (String × Entry)) (name m : String)
    (mr : Option MetaRec) (h : m ≠ name) :
    findEntry (setEntryMeta entries name mr) m = findEntry entries m := by
  induction entries with
  | nil => rfl
  | cons p rest ih =>
      by_cases hp : p.1 = name
      · simp only [setEntryMeta, List.map_cons, if_pos hp, findEntry, List.find?_cons]
        have : ¬ p.1 = m := by rw [hp]; exact fun hh => h hh.symm
        simp only [decide_eq_true_eq, this, if_neg]
        simpa [setEntryMeta, findEntry] using ih
      · simp only [setEntryMeta, List.map_cons, if_neg hp, findEntry, List.find?_cons]
        by_cases hq : p.1 = m
        · simp [hq]
        · simp only [decide_eq_true_eq, hq, if_neg]
          simpa [setEntryMeta, findEntry] using ih

theorem findEntry_setEntryMeta_self (entries : List (String × Entry)) (name : String)
    (mr : Option MetaRec) (h : (entries.map (fun p => p.1)).contains name) :
    findEntry (setEntryMeta entries name mr) name =
      { findEntry entries name with meta := mr } := by
  induction entries with
  | nil => simp at h
  | cons p rest ih =>
      by_cases hp : p.1 = name
      · simp [setEntryMeta, List.map_cons, hp, findEntry, List.find?_cons]
      · simp only [List.map_cons, List.contains_cons] at h
        have h' : (rest.map (fun p => p.1)).contains name := by
          by_cases he : name = p.1
          · exact absurd he.symm hp
          · simpa [he] using h
        simp only [setEntryMeta, List.map_cons, if_neg hp, findEntry, List.find?_cons]
        simp only [decide_eq_true_eq, hp, if_neg]
        simpa [setEntryMeta, findEntry] using ih h'

theorem findPage_setPageMeta_ne (pages : List (String × PageRec)) (name m : String)
    (mr : MetaRec) (h : m ≠ name) :
    findPage (setPageMeta pages name mr) m = findPage pages m := by
  induction pages with
  | nil => rfl
  | cons p rest ih =>
      by_cases hp : p.1 = name
      · simp only [setPageMeta, List.map_cons, if_pos hp, findPage, lookupAssoc, List.find?_cons]
        have : ¬ p.1 = m := by rw [hp]; exact fun hh => h hh.symm
        simp only [decide_eq_true_eq, this, if_neg]
        simpa [setPageMeta, findPage, lookupAssoc] using ih
      · simp only [setPageMeta, List.map_cons, if_neg hp, findPage, lookupAssoc, List.find?_cons]
        by_cases hq : p.1 = m
        · simp [hq]
        · simp only [decide_eq_true_eq, hq, if_neg]
          simpa [setPageMeta, findPage, lookupAssoc] using ih

theorem findPage_setPageMeta_self (pages : List (String × PageRec)) (name : String)
    (mr : MetaRec) (h : (pages.map (fun p => p.1)).contains name) :
    findPage (setPageMeta pages name mr) name =
      { findPage pages name with meta := mr } := by
  induction pages with
  | nil => simp at h
  | cons p rest ih =>
      by_cases hp : p.1 = name
      · simp [setPageMeta, List.map_cons, hp, findPage, lookupAssoc, List.find?_cons]
      · simp only [List.map_cons, List.contains_cons] at h
        have h' : (rest.map (fun p => p.1)).contains name := by
          by_cases he : name = p.1
          · exact absurd he.symm hp
          · simpa [he] using h
        simp only [setPageMeta, List.map_cons, if_neg hp, findPage, lookupAssoc, List.find?_cons]
        simp only [decide_eq_true_eq, hp, if_neg]
        simpa [setPageMeta, findPage, lookupAssoc] using ih h'

theorem setEntryMeta_names (entries : List (String × Entry)) (name : String)
    (mr : Option MetaRec) :
    (setEntryMeta entries name mr).map (fun p => p.1) = entries.map (fun p => p.1) := by
  induction entries with
  | nil => rfl
  | cons p rest ih =>
      by_cases hp : p.1 = name
      · simpa [setEntryMeta, hp] using ih
      · simpa [setEntryMeta, hp] using ih

theorem setPageMeta_names (pages : List (String × PageRec)) (name : String) (mr : MetaRec) :
    (setPageMeta pages name mr).map (fun p => p.1) = pages.map (fun p => p.1) := by
  induction pages with
  | nil => rfl
  | cons p rest ih =>
      by_cases hp : p.1 = name
      · simpa [setPageMeta, hp] using ih
      · simpa [setPageMeta, hp] using ih

/-- Every action `uploadNewImages` emits is an image upload. -/
theorem uploadNewImages_actions_shape (fs : FS) (env : Env) (paths : List String)
    (cache : List (String × String)) :
    ∀ a ∈ (uploadNewImages fs env paths cache).actions, ∃ p, a = RAction.uploadImg p := by
  suffices h : ∀ (acc : UploadOut), (∀ a ∈ acc.actions, ∃ p, a = RAction.uploadImg p) →
      ∀ a ∈ (paths.foldl (fun acc p =>
        let checksum := calculateChecksum (fs.fileBytes p)
        match truthyVal (lookupAssoc acc.cache checksum) with
        | some url => { acc with pathMap := setAssoc acc.pathMap p url }
        | none =>
            let acts := acc.actions ++ [RAction.uploadImg p]
            match truthyVal (env.uploadUrl p) with
            | some url =>
                let fullUrl := fullUrlOf url
                { cache := setAssoc acc.cache checksum fullUrl,
                  pathMap := setAssoc acc.pathMap p fullUrl,
                  actions := acts }
            | none => { acc with actions := acts }) acc).actions,
        ∃ p, a = RAction.uploadImg p by
    exact h { cache := cache, pathMap := [], actions := [] } (by simp)
  induction paths with
  | nil => intro acc hacc; simpa using hacc
  | cons p rest ih =>
      intro acc hacc
      simp only [List.foldl_cons]
      apply ih
      cases hl : truthyVal (lookupAssoc acc.cache (calculateChecksum (fs.fileBytes p))) with
      | some url => simpa using hacc
      | none =>
          cases hu : truthyVal (env.uploadUrl p) with
          | some url =>
              intro a ha
              simp only [List.mem_append, List.mem_singleton] at ha
              rcases ha with ha | ha
              · exact hacc a ha
              · exact ⟨p, ha⟩
          | none =>
              intro a ha
              simp only [List.mem_append, List.mem_singleton] at ha
              rcases ha with ha | ha
              · exact hacc a ha
              · exact ⟨p, ha⟩

/-- `prepPage` only appends upload actions to the trace and refreshes the
image cache; every other state component is untouched. -/
theorem prepPage_state (fs : FS) (env : Env) (st : PState) (h0 : String)
    (ans : List AnswerJ) :
    (prepPage fs env st h0 ans).1.entries = st.entries ∧
    (prepPage fs env st h0 ans).1.pages = st.pages ∧
    (prepPage fs env st h0 ans).1.pageIds = st.pageIds ∧
    (prepPage fs env st h0 ans).1.finalHtml = st.finalHtml ∧
    (prepPage fs env st h0 ans).1.createCount = st.createCount ∧
    ∃ Δ, (prepPage fs env st h0 ans).1.trace = st.trace ++ Δ ∧
      ∀ a ∈ Δ, ∃ p, a = RAction.uploadImg p := by
  by_cases he : (pageImagePaths fs h0 ans).isEmpty
  · refine ⟨?_, ?_, ?_, ?_, ?_, [], ?_, ?_⟩ <;> simp [prepPage, he]
  · refine ⟨?_, ?_, ?_, ?_, ?_,
      (uploadNewImages fs env (pageImagePaths fs h0 ans) st.imageCache).actions, ?_, ?_⟩ <;>
    first
      | simp [prepPage, he]
      | exact uploadNewImages_actions_shape fs env _ _

end Thelaby

namespace Thelaby

theorem createOne_skip (fs : FS) (env : Env) (labyId : String) (fp : Option String)
    (st : PState) (name : String) (h : (findPage st.pages name).html = "") :
    createOne fs env labyId fp st name = st := by
  simp [createOne, h]

theorem createOne_entries_ne (fs : FS) (env : Env) (labyId : String) (fp : Option String)
    (st : PState) (name : String) (m : String) (hm : m ≠ name) :
    findEntry (createOne fs env labyId fp st name).entries m = findEntry st.entries m := by
  obtain ⟨he, hp, hpi, hf, hc, Δ, htr, hΔ⟩ := prepPage_state fs env st
    (findPage st.pages name).html ((findPage st.pages name).json.answers.getD [])
  by_cases hh : (findPage st.pages name).html = ""
  · simp [createOne, hh]
  · simp only [createOne, if_neg hh]
    cases htv : truthyVal (env.createId
        (prepPage fs env st (findPage st.pages name).html
          ((findPage st.pages name).json.answers.getD [])).1.createCount) with
    | none => simpa using congrArg (fun e => findEntry e m) he
    | some pid =>
        simp only []
        rw [findEntry_setEntryMeta_ne _ _ _ _ hm]
        simpa using congrArg (fun e => findEntry e m) he

theorem createOne_pages_ne (fs : FS) (env : Env) (labyId : String) (fp : Option String)
    (st : PState) (name : String) (m : String) (hm : m ≠ name) :
    findPage (createOne fs env labyId fp st name).pages m = findPage st.pages m := by
  obtain ⟨he, hp, hpi, hf, hc, Δ, htr, hΔ⟩ := prepPage_state fs env st
    (findPage st.pages name).html ((findPage st.pages name).json.answers.getD [])
  by_cases hh : (findPage st.pages name).html = ""
  · simp [createOne, hh]
  · simp only [createOne, if_neg hh]
    cases htv : truthyVal (env.createId
        (prepPage fs env st (findPage st.pages name).html
          ((findPage st.pages name).json.answers.getD [])).1.createCount) with
    | none => simpa using congrArg (fun e => findPage e m) hp
    | some pid =>
        simp only []
        rw [findPage_setPageMeta_ne _ _ _ _ hm]
        simpa using congrArg (fun e => findPage e m) hp

theorem createOne_names (fs : FS) (env : Env) (labyId : String) (fp : Option String)
    (st : PState) (name : String) :
    (createOne fs env labyId fp st name).entries.map (fun p => p.1) =
      st.entries.map (fun p => p.1) ∧
    (createOne fs env labyId fp st name).pages.map (fun p => p.1) =
      st.pages.map (fun p => p.1) := by
  obtain ⟨he, hp, hpi, hf, hc, Δ, htr, hΔ⟩ := prepPage_state fs env st
    (findPage st.pages name).html ((findPage st.pages name).json.answers.getD [])
  by_cases hh : (findPage st.pages name).html = ""
  · simp [createOne, hh]
  · simp only [createOne, if_neg hh]
    cases htv : truthyVal (env.createId
        (prepPage fs env st (findPage st.pages name).html
          ((findPage st.pages name).json.answers.getD [])).1.createCount) with
    | none => exact ⟨congrArg (List.map _) he, congrArg (List.map _) hp⟩
    | some pid =>
        refine ⟨?_, ?_⟩
        · show (setEntryMeta _ name _).map _ = _
          rw [setEntryMeta_names]
          exact congrArg (List.map _) he
        · show (setPageMeta _ name _).map _ = _
          rw [setPageMeta_names]
          exact congrArg (List.map _) hp

theorem createOne_pageIds_cases (fs : FS) (env : Env) (labyId : String)
    (fp : Option String) (st : PState) (name : String) :
    (createOne fs env labyId fp st name).pageIds = st.pageIds ∨
    ∃ pid, truthyVal (env.createId st.createCount) = some pid ∧ pid ∉ st.pageIds ∧
      (createOne fs env labyId fp st name).pageIds = st.pageIds ++ [pid] := by
  obtain ⟨he, hp, hpi, hf, hc, Δ, htr, hΔ⟩ := prepPage_state fs env st
    (findPage st.pages name).html ((findPage st.pages name).json.answers.getD [])
  by_cases hh : (findPage st.pages name).html = ""
  · left; simp [createOne, hh]
  · simp only [createOne, if_neg hh]
    rw [hc]
    cases htv : truthyVal (env.createId st.createCount) with
    | none => left; exact hpi
    | some pid =>
        by_cases hmem : ((prepPage fs env st (findPage st.pages name).html
            ((findPage st.pages name).json.answers.getD [])).1.pageIds).contains pid
        · left
          show (if _ then _ else _) = _
          rw [if_pos hmem]
          exact hpi
        · right
          refine ⟨pid, rfl, ?_, ?_⟩
          · rw [hpi] at hmem
            intro hx
            exact hmem (by rw [contains_eq_decide_mem]; exact decide_eq_true hx)
          · show (if _ then _ else _) = _
            rw [if_neg hmem, hpi]

theorem createOne_createCount (fs : FS) (env : Env) (labyId : String)
    (fp : Option String) (st : PState) (name : String) :
    (createOne fs env labyId fp st name).createCount =
      st.createCount + (if (findPage st.pages name).html = "" then 0 else 1) := by
  obtain ⟨he, hp, hpi, hf, hc, Δ, htr, hΔ⟩ := prepPage_state fs env st
    (findPage st.pages name).html ((findPage st.pages name).json.answers.getD [])
  by_cases hh : (findPage st.pages name).html = ""
  · simp [createOne, hh]
  · simp only [createOne, if_neg hh, if_neg hh]
    cases htv : truthyVal (env.createId
        (prepPage fs env st (findPage st.pages name).html
          ((findPage st.pages name).json.answers.getD [])).1.createCount) with
    | none => simpa using hc
    | some pid => simpa using hc

theorem createOne_trace_delta (fs : FS) (env : Env) (labyId : String)
    (fp : Option String) (st : PState) (name : String) :
    ∃ Δ, (createOne fs env labyId fp st name).trace = st.trace ++ Δ ∧
      (∀ a ∈ Δ, (∃ p, a = RAction.uploadImg p) ∨
        ∃ t h, a = RAction.createSubmit labyId name t h) ∧
      (Δ.countP (isCreateOf name) =
        if (findPage st.pages name).html = "" then 0 else 1) := by
  obtain ⟨he, hp, hpi, hf, hc, Δ, htr, hΔ⟩ := prepPage_state fs env st
    (findPage st.pages name).html ((findPage st.pages name).json.answers.getD [])
  by_cases hh : (findPage st.pages name).html = ""
  · refine ⟨[], by simp [createOne, hh], by simp, by simp [hh]⟩
  · have hΔ' : ∀ a ∈ Δ ++ [RAction.createSubmit labyId name
        (((findPage st.pages name).json.title.getD ""))
        ((prepPage fs env st (findPage st.pages name).html
          ((findPage st.pages name).json.answers.getD [])).2.1)],
        (∃ p, a = RAction.uploadImg p) ∨ ∃ t h, a = RAction.createSubmit labyId name t h := by
      intro a ha
      rcases List.mem_append.1 ha with ha | ha
      · rcases hΔ a ha with ⟨p, hp'⟩
        exact Or.inl ⟨p, hp'⟩
      · rcases List.mem_singleton.1 ha with rfl
        exact Or.inr ⟨_, _, rfl⟩
    have hcnt : (Δ ++ [RAction.createSubmit labyId name
        (((findPage st.pages name).json.title.getD ""))
        ((prepPage fs env st (findPage st.pages name).html
          ((findPage st.pages name).json.answers.getD [])).2.1)]).countP (isCreateOf name)
        = 1 := by
      rw [List.countP_append]
      have hz : Δ.countP (isCreateOf name) = 0 := by
        rw [List.countP_eq_zero]
        intro a ha
        rcases hΔ a ha with ⟨p, rfl⟩
        simp [isCreateOf]
      rw [hz]
      simp [isCreateOf]
    simp only [createOne, if_neg hh]
    cases htv : truthyVal (env.createId
        (prepPage fs env st (findPage st.pages name).html
          ((findPage st.pages name).json.answers.getD [])).1.createCount) with
    | none =>
        refine ⟨_, ?_, hΔ', hcnt⟩
        show (prepPage fs env st _ _).1.trace ++ [_] = st.trace ++ (Δ ++ [_])
        rw [htr, List.append_assoc]
    | some pid =>
        refine ⟨_, ?_, hΔ', hcnt⟩
        show (prepPage fs env st _ _).1.trace ++ [_] = st.trace ++ (Δ ++ [_])
        rw [htr, List.append_assoc]

end Thelaby

namespace Thelaby

theorem createOne_success (fs : FS) (env : Env) (labyId : String) (fp : Option String)
    (st : PState) (name : String) (pid : String)
    (hh : (findPage st.pages name).html ≠ "")
    (htv : truthyVal (env.createId st.createCount) = some pid) :
    (createOne fs env labyId fp st name).entries =
      setEntryMeta st.entries name (some
        { (findPage st.pages name).meta with
            id := some pid
            hash := some (findPage st.pages name).hash
            is_first := some (fp = some name)
            is_ending := some ((findPage st.pages name).json.is_ending.getD false) }) ∧
    (createOne fs env labyId fp st name).pages =
      setPageMeta st.pages name
        { (findPage st.pages name).meta with
            id := some pid
            hash := some (findPage st.pages name).hash
            is_first := some (fp = some name)
            is_ending := some ((findPage st.pages name).json.is_ending.getD false) } ∧
    (createOne fs env labyId fp st name).pageIds =
      (if st.pageIds.contains pid then st.pageIds else st.pageIds ++ [pid]) ∧
    (createOne fs env labyId fp st name).createCount = st.createCount + 1 := by
  obtain ⟨he, hp, hpi, hf, hc, Δ, htr, hΔ⟩ := prepPage_state fs env st
    (findPage st.pages name).html ((findPage st.pages name).json.answers.getD [])
  simp only [createOne, if_neg hh]
  rw [hc, htv]
  refine ⟨?_, ?_, ?_, ?_⟩
  · show setEntryMeta _ name _ = _
    rw [he]
  · show setPageMeta _ name _ = _
    rw [hp]
  · show (if _ then _ else _) = _
    rw [hpi]
  · rfl

theorem createOne_fail (fs : FS) (env : Env) (labyId : String) (fp : Option String)
    (st : PState) (name : String)
    (hh : (findPage st.pages name).html ≠ "")
    (htv : truthyVal (env.createId st.createCount) = none) :
    (createOne fs env labyId fp st name).entries = st.entries ∧
    (createOne fs env labyId fp st name).pages = st.pages ∧
    (createOne fs env labyId fp st name).pageIds = st.pageIds ∧
    (createOne fs env labyId fp st name).createCount = st.createCount + 1 := by
  obtain ⟨he, hp, hpi, hf, hc, Δ, htr, hΔ⟩ := prepPage_state fs env st
    (findPage st.pages name).html ((findPage st.pages name).json.answers.getD [])
  simp only [createOne, if_neg hh]
  rw [hc, htv]
  exact ⟨he, hp, hpi, rfl⟩

theorem updateOne_statics (fs : FS) (env : Env) (fp : Option String)
    (st : PState) (name : String) :
    (updateOne fs env fp st name).pageIds = st.pageIds ∧
    (updateOne fs env fp st name).createCount = st.createCount ∧
    (updateOne fs env fp st name).entries.map (fun p => p.1) =
      st.entries.map (fun p => p.1) ∧
    (updateOne fs env fp st name).pages.map (fun p => p.1) =
      st.pages.map (fun p => p.1) := by
  obtain ⟨he, hp, hpi, hf, hc, Δ, htr, hΔ⟩ := prepPage_state fs env st
    (findPage st.pages name).html ((findPage st.pages name).json.answers.getD [])
  simp only [updateOne]
  cases htv : truthyVal (findPage st.pages name).meta.id with
  | none => exact ⟨rfl, rfl, rfl, rfl⟩
  | some pid =>
      by_cases hh : (findPage st.pages name).html = ""
      · simp only [if_pos hh]
        refine ⟨?_, ?_, ?_, ?_⟩ <;> trivial
      · simp only [if_neg hh]
        refine ⟨hpi, hc, ?_, ?_⟩
        · show (setEntryMeta _ name _).map _ = _
          rw [setEntryMeta_names]
          exact congrArg (List.map _) he
        · show (setPageMeta _ name _).map _ = _
          rw [setPageMeta_names]
          exact congrArg (List.map _) hp

theorem updateOne_entries_ne (fs : FS) (env : Env) (fp : Option String)
    (st : PState) (name : String) (m : String) (hm : m ≠ name) :
    findEntry (updateOne fs env fp st name).entries m = findEntry st.entries m ∧
    findPage (updateOne fs env fp st name).pages m = findPage st.pages m := by
  obtain ⟨he, hp, hpi, hf, hc, Δ, htr, hΔ⟩ := prepPage_state fs env st
    (findPage st.pages name).html ((findPage st.pages name).json.answers.getD [])
  simp only [updateOne]
  cases htv : truthyVal (findPage st.pages name).meta.id with
  | none => exact ⟨rfl, rfl⟩
  | some pid =>
      by_cases hh : (findPage st.pages name).html = ""
      · simp only [if_pos hh]
        refine ⟨?_, ?_⟩ <;> trivial
      · simp only [if_neg hh]
        constructor
        · show findEntry (setEntryMeta _ name _) m = _
          rw [findEntry_setEntryMeta_ne _ _ _ _ hm, he]
        · show findPage (setPageMeta _ name _) m = _
          rw [findPage_setPageMeta_ne _ _ _ _ hm, hp]

theorem updateOne_trace_delta (fs : FS) (env : Env) (fp : Option String)
    (st : PState) (name : String) :
    ∃ Δ, (updateOne fs env fp st name).trace = st.trace ++ Δ ∧
      ∀ a ∈ Δ, (∃ p, a = RAction.uploadImg p) ∨
        ∃ pid t h, a = RAction.updateSubmit pid name t h := by
  obtain ⟨he, hp, hpi, hf, hc, Δ, htr, hΔ⟩ := prepPage_state fs env st
    (findPage st.pages name).html ((findPage st.pages name).json.answers.getD [])
  simp only [updateOne]
  cases htv : truthyVal (findPage st.pages name).meta.id with
  | none => exact ⟨[], by simp, by simp⟩
  | some pid =>
      by_cases hh : (findPage st.pages name).html = ""
      · simp only [if_pos hh]
        exact ⟨[], by simp, by simp⟩
      · simp only [if_neg hh]
        refine ⟨Δ ++ [RAction.updateSubmit pid name
            ((findPage st.pages name).json.title.getD "")
            ((prepPage fs env st (findPage st.pages name).html
              ((findPage st.pages name).json.answers.getD [])).2.1)], ?_, ?_⟩
        · show (prepPage fs env st _ _).1.trace ++ [_] = st.trace ++ (Δ ++ [_])
          rw [htr, List.append_assoc]
        · intro a ha
          rcases List.mem_append.1 ha with ha | ha
          · rcases hΔ a ha with ⟨p, hp'⟩
            exact Or.inl ⟨p, hp'⟩
          · rcases List.mem_singleton.1 ha with rfl
            exact Or.inr ⟨_, _, _, rfl⟩

theorem updateOne_success (fs : FS) (env : Env) (fp : Option String)
    (st : PState) (name : String) (pid : String)
    (htv : truthyVal (findPage st.pages name).meta.id = some pid)
    (hh : (findPage st.pages name).html ≠ "") :
    (updateOne fs env fp st name).entries =
      setEntryMeta st.entries name (some
        { (findPage st.pages name).meta with
            hash := some (findPage st.pages name).hash
            is_first := some (fp = some name)
            is_ending := some ((findPage st.pages name).json.is_ending.getD false) }) ∧
    (updateOne fs env fp st name).pages =
      setPageMeta st.pages name
        { (findPage st.pages name).meta with
            hash := some (findPage st.pages name).hash
            is_first := some (fp = some name)
            is_ending := some ((findPage st.pages name).json.is_ending.getD false) } := by
  obtain ⟨he, hp, hpi, hf, hc, Δ, htr, hΔ⟩ := prepPage_state fs env st
    (findPage st.pages name).html ((findPage st.pages name).json.answers.getD [])
  simp only [updateOne]
  rw [htv]
  simp only [if_neg hh]
  constructor
  · show setEntryMeta _ name _ = _
    rw [he]
  · show setPageMeta _ name _ = _
    rw [hp]

theorem updateOne_skip (fs : FS) (env : Env) (fp : Option String)
    (st : PState) (name : String)
    (htv : truthyVal (findPage st.pages name).meta.id = none) :
    updateOne fs env fp st name = st := by
  simp only [updateOne]
  rw [htv]

end Thelaby

namespace Thelaby

theorem foldl_createOne_untouched (fs : FS) (env : Env) (labyId : String)
    (fp : Option String) (names : List String) (m : String) (hm : m ∉ names) :
    ∀ st : PState,
      findEntry ((names.foldl (createOne fs env labyId fp) st).entries) m =
        findEntry st.entries m ∧
      findPage ((names.foldl (createOne fs env labyId fp) st).pages) m =
        findPage st.pages m := by
  induction names with
  | nil => intro st; exact ⟨rfl, rfl⟩
  | cons n rest ih =>
      intro st
      have hmn : m ≠ n := fun h => hm (h ▸ List.mem_cons_self n rest)
      have hmr : m ∉ rest := fun h => hm (List.mem_cons_of_mem n h)
      obtain ⟨ih1, ih2⟩ := ih hmr (createOne fs env labyId fp st n)
      refine ⟨?_, ?_⟩
      · rw [List.foldl_cons, ih1, createOne_entries_ne _ _ _ _ _ _ _ hmn]
      · rw [List.foldl_cons, ih2, createOne_pages_ne _ _ _ _ _ _ _ hmn]

theorem foldl_updateOne_untouched (fs : FS) (env : Env) (fp : Option String)
    (names : List String) (m : String) (hm : m ∉ names) :
    ∀ st : PState,
      findEntry ((names.foldl (updateOne fs env fp) st).entries) m =
        findEntry st.entries m ∧
      findPage ((names.foldl (updateOne fs env fp) st).pages) m =
        findPage st.pages m := by
  induction names with
  | nil => intro st; exact ⟨rfl, rfl⟩
  | cons n rest ih =>
      intro st
      have hmn : m ≠ n := fun h => hm (h ▸ List.mem_cons_self n rest)
      have hmr : m ∉ rest := fun h => hm (List.mem_cons_of_mem n h)
      obtain ⟨ih1, ih2⟩ := ih hmr (updateOne fs env fp st n)
      obtain ⟨h1, h2⟩ := updateOne_entries_ne fs env fp st n m hmn
      exact ⟨by rw [List.foldl_cons, ih1, h1], by rw [List.foldl_cons, ih2, h2]⟩

theorem foldl_createOne_names (fs : FS) (env : Env) (labyId : String)
    (fp : Option String) (names : List String) :
    ∀ st : PState,
      ((names.foldl (createOne fs env labyId fp) st).entries).map (fun p => p.1) =
        st.entries.map (fun p => p.1) ∧
      ((names.foldl (createOne fs env labyId fp) st).pages).map (fun p => p.1) =
        st.pages.map (fun p => p.1) := by
  induction names with
  | nil => intro st; exact ⟨rfl, rfl⟩
  | cons n rest ih =>
      intro st
      obtain ⟨ih1, ih2⟩ := ih (createOne fs env labyId fp st n)
      obtain ⟨h1, h2⟩ := createOne_names fs env labyId fp st n
      exact ⟨by rw [List.foldl_cons, ih1, h1], by rw [List.foldl_cons, ih2, h2]⟩

theorem foldl_updateOne_names (fs : FS) (env : Env) (fp : Option String)
    (names : List String) :
    ∀ st : PState,
      ((names.foldl (updateOne fs env fp) st).entries).map (fun p => p.1) =
        st.entries.map (fun p => p.1) ∧
      ((names.foldl (updateOne fs env fp) st).pages).map (fun p => p.1) =
        st.pages.map (fun p => p.1) := by
  induction names with
  | nil => intro st; exact ⟨rfl, rfl⟩
  | cons n rest ih =>
      intro st
      obtain ⟨ih1, ih2⟩ := ih (updateOne fs env fp st n)
      obtain ⟨-, -, h1, h2⟩ := updateOne_statics fs env fp st n
      exact ⟨by rw [List.foldl_cons, ih1, h1], by rw [List.foldl_cons, ih2, h2]⟩

theorem foldl_createOne_trace (fs : FS) (env : Env) (labyId : String)
    (fp : Option String) (names : List String) :
    ∀ st : PState, ∃ Δ,
      (names.foldl (createOne fs env labyId fp) st).trace = st.trace ++ Δ ∧
      ∀ a ∈ Δ, (∃ p, a = RAction.uploadImg p) ∨
        ∃ n t h, n ∈ names ∧ a = RAction.createSubmit labyId n t h := by
  induction names with
  | nil => intro st; exact ⟨[], by simp, by simp⟩
  | cons n rest ih =>
      intro st
      obtain ⟨Δ1, hΔ1, hsh1⟩ := createOne_trace_delta fs env labyId fp st n
      obtain ⟨Δ2, hΔ2, hsh2⟩ := ih (createOne fs env labyId fp st n)
      refine ⟨Δ1 ++ Δ2, ?_, ?_⟩
      · rw [List.foldl_cons, hΔ2, hΔ1, List.append_assoc]
      · intro a ha
        rcases List.mem_append.1 ha with ha | ha
        · rcases hsh1.1 a ha with h | ⟨t, h0, hh⟩
          · exact Or.inl h
          · exact Or.inr ⟨n, t, h0, List.mem_cons_self n rest, hh⟩
        · rcases hsh2 a ha with h | ⟨n', t, h0, hn', hh⟩
          · exact Or.inl h
          · exact Or.inr ⟨n', t, h0, List.mem_cons_of_mem n hn', hh⟩

theorem foldl_updateOne_trace (fs : FS) (env : Env) (fp : Option String)
    (names : List String) :
    ∀ st : PState, ∃ Δ,
      (names.foldl (updateOne fs env fp) st).trace = st.trace ++ Δ ∧
      ∀ a ∈ Δ, (∃ p, a = RAction.uploadImg p) ∨
        ∃ pid n t h, n ∈ names ∧ a = RAction.updateSubmit pid n t h := by
  induction names with
  | nil => intro st; exact ⟨[], by simp, by simp⟩
  | cons n rest ih =>
      intro st
      obtain ⟨Δ1, hΔ1, hsh1⟩ := updateOne_trace_delta fs env fp st n
      obtain ⟨Δ2, hΔ2, hsh2⟩ := ih (updateOne fs env fp st n)
      refine ⟨Δ1 ++ Δ2, ?_, ?_⟩
      · rw [List.foldl_cons, hΔ2, hΔ1, List.append_assoc]
      · intro a ha
        rcases List.mem_append.1 ha with ha | ha
        · rcases hsh1 a ha with h | ⟨pid, t, h0, hh⟩
          · exact Or.inl h
          · exact Or.inr ⟨pid, n, t, h0, List.mem_cons_self n rest, hh⟩
        · rcases hsh2 a ha with h | ⟨pid, n', t, h0, hn', hh⟩
          · exact Or.inl h
          · exact Or.inr ⟨pid, n', t, h0, List.mem_cons_of_mem n hn', hh⟩

theorem foldl_createOne_pageIds_mono (fs : FS) (env : Env) (labyId : String)
    (fp : Option String) (names : List String) (x : String) :
    ∀ st : PState, x ∈ st.pageIds →
      x ∈ (names.foldl (createOne fs env labyId fp) st).pageIds := by
  induction names with
  | nil => intro st hx; exact hx
  | cons n rest ih =>
      intro st hx
      rw [List.foldl_cons]
      apply ih
      rcases createOne_pageIds_cases fs env labyId fp st n with h | ⟨pid, -, -, h⟩
      · rw [h]; exact hx
      · rw [h]; exact List.mem_append_left _ hx

theorem foldl_createOne_pageIds_not_new (fs : FS) (env : Env) (labyId : String)
    (fp : Option String) (names : List String) (i : String)
    (hcid : ∀ k, truthyVal (env.createId k) ≠ some i) :
    ∀ st : PState, i ∉ st.pageIds →
      i ∉ (names.foldl (createOne fs env labyId fp) st).pageIds := by
  induction names with
  | nil => intro st hx; exact hx
  | cons n rest ih =>
      intro st hx
      rw [List.foldl_cons]
      apply ih
      rcases createOne_pageIds_cases fs env labyId fp st n with h | ⟨pid, hpid, -, h⟩
      · rw [h]; exact hx
      · rw [h]
        intro hmem
        rcases List.mem_append.1 hmem with hmem | hmem
        · exact hx hmem
        · rcases List.mem_singleton.1 hmem with rfl
          exact hcid _ hpid

theorem foldl_createOne_pageIds_nodup (fs : FS) (env : Env) (labyId : String)
    (fp : Option String) (names : List String) :
    ∀ st : PState, st.pageIds.Nodup →
      ((names.foldl (createOne fs env labyId fp) st).pageIds).Nodup := by
  induction names with
  | nil => intro st h; exact h
  | cons n rest ih =>
      intro st h
      rw [List.foldl_cons]
      apply ih
      rcases createOne_pageIds_cases fs env labyId fp st n with hc | ⟨pid, -, hni, hc⟩
      · rw [hc]; exact h
      · rw [hc]
        exact List.Nodup.append h (List.nodup_singleton pid)
          (by simpa [List.disjoint_singleton] using hni)

theorem foldl_updateOne_pageIds (fs : FS) (env : Env) (fp : Option String)
    (names : List String) :
    ∀ st : PState, (names.foldl (updateOne fs env fp) st).pageIds = st.pageIds := by
  induction names with
  | nil => intro st; rfl
  | cons n rest ih =>
      intro st
      rw [List.foldl_cons, ih, (updateOne_statics fs env fp st n).1]

theorem foldl_createOne_countP_absent (fs : FS) (env : Env) (labyId : String)
    (fp : Option String) (names : List String) (name : String) (hnn : name ∉ names) :
    ∀ st : PState,
      ((names.foldl (createOne fs env labyId fp) st).trace).countP (isCreateOf name) =
        st.trace.countP (isCreateOf name) := by
  induction names with
  | nil => intro st; rfl
  | cons n rest ih =>
      intro st
      have hne : n ≠ name := fun h => hnn (h ▸ List.mem_cons_self n rest)
      have hnr : name ∉ rest := fun h => hnn (List.mem_cons_of_mem n h)
      rw [List.foldl_cons, ih hnr (createOne fs env labyId fp st n)]
      obtain ⟨Δ, hΔ, hsh, -⟩ := createOne_trace_delta fs env labyId fp st n
      rw [hΔ, List.countP_append]
      have hz : Δ.countP (isCreateOf name) = 0 := by
        rw [List.countP_eq_zero]
        intro a ha
        rcases hsh a ha with ⟨p, rfl⟩ | ⟨t, h0, rfl⟩
        · simp [isCreateOf]
        · simp [isCreateOf, hne]
      rw [hz]
      exact Nat.add_zero _

theorem foldl_updateOne_countP_create (fs : FS) (env : Env) (fp : Option String)
    (names : List String) (name : String) :
    ∀ st : PState,
      ((names.foldl (updateOne fs env fp) st).trace).countP (isCreateOf name) =
        st.trace.countP (isCreateOf name) := by
  induction names with
  | nil => intro st; rfl
  | cons n rest ih =>
      intro st
      rw [List.foldl_cons, ih (updateOne fs env fp st n)]
      obtain ⟨Δ, hΔ, hsh⟩ := updateOne_trace_delta fs env fp st n
      rw [hΔ, List.countP_append]
      have hz : Δ.countP (isCreateOf name) = 0 := by
        rw [List.countP_eq_zero]
        intro a ha
        rcases hsh a ha with ⟨p, rfl⟩ | ⟨pid, t, h0, rfl⟩
        · simp [isCreateOf]
        · simp [isCreateOf]
      rw [hz]
      exact Nat.add_zero _

end Thelaby

namespace Thelaby

/-- `mainPhases` split into its named phase results. -/
theorem mainPhases_decomp (fs : FS) (config : Config) (env : Env)
    (entries0 : List (String × Entry)) (lm : LabyMeta) :
    mainPhases fs config env entries0 lm =
      ((allDeleteIds fs entries0 lm).map (RAction.deleteP (lm.id.getD "")) ++
         (st5Of fs config env entries0 lm).trace ++
         runLinks (st5Of fs config env entries0 lm)
           (pageIdMapOf fs config env entries0 lm)
           (connsOf fs config env entries0 lm),
       ⟨(st5Of fs config env entries0 lm).entries,
        some { lm with
                 images := (st5Of fs config env entries0 lm).imageCache
                 pageIds := (st5Of fs config env entries0 lm).pageIds }⟩) := by
  simp only [mainPhases, planOf, allDeleteIds, st0Of, st4Of, st5Of, pageIdMapOf,
    connsOf, runDeletes_eq]

end Thelaby

namespace Thelaby

theorem runLinks_shape (st : PState) (pim : List (String × String))
    (conns : List (String × List Conn)) :
    ∀ a ∈ runLinks st pim conns,
      (∃ t, a = RAction.clearParentConnections t) ∨
      (∃ t s i, a = RAction.setParentConnection t s i) ∨
      (∃ t, a = RAction.setEditorContent t) := by
  intro a ha
  rw [runLinks, List.mem_flatMap] at ha
  obtain ⟨tc, -, ha⟩ := ha
  rcases List.mem_append.1 ha with ha | ha
  · rcases List.mem_append.1 ha with ha | ha
    · rcases List.mem_singleton.1 ha with rfl
      exact Or.inl ⟨_, rfl⟩
    · rcases List.mem_map.1 ha with ⟨c, -, rfl⟩
      exact Or.inr (Or.inl ⟨_, _, _, rfl⟩)
  · cases hl : lookupAssoc st.finalHtml
        ((((pim.find? (fun p => p.2 = tc.1)).map (fun p => p.1))).getD tc.1) with
    | none => rw [hl] at ha; simp at ha
    | some v =>
        rw [hl] at ha
        rcases List.mem_singleton.1 ha with rfl
        exact Or.inr (Or.inr ⟨_, rfl⟩)

theorem labyStep_shape (fs : FS) (config : Config) (env : Env) (lm0 : LabyMeta) :
    (labyStep fs config env lm0).1 = [] ∨
    (labyStep fs config env lm0).1 = [RAction.labyCreate] ∨
    (∃ l, (labyStep fs config env lm0).1 = [RAction.labyUpdate l]) := by
  rw [labyStep]
  by_cases h1 : truthyS lm0.id
  · rw [if_neg (by simpa using h1)]
    by_cases h2 : lm0.hash ≠ some (computeLabyrinthHash fs config)
    · rw [if_pos h2]
      exact Or.inr (Or.inr ⟨_, rfl⟩)
    · rw [if_neg h2]
      exact Or.inl rfl
  · rw [if_pos (by simpa using h1)]
    exact Or.inr (Or.inl rfl)

theorem labyStep_statics (fs : FS) (config : Config) (env : Env) (lm0 : LabyMeta) :
    (labyStep fs config env lm0).2.pageIds = lm0.pageIds ∧
    (labyStep fs config env lm0).2.images = lm0.images := by
  rw [labyStep]
  by_cases h1 : truthyS lm0.id
  · rw [if_neg (by simpa using h1)]
    by_cases h2 : lm0.hash ≠ some (computeLabyrinthHash fs config)
    · rw [if_pos h2]; exact ⟨rfl, rfl⟩
    · rw [if_neg h2]; exact ⟨rfl, rfl⟩
  · rw [if_pos (by simpa using h1)]
    exact ⟨rfl, rfl⟩

theorem count_map_deleteP (labyId : String) (l : List String) (i : String) :
    (l.map (RAction.deleteP labyId)).count (RAction.deleteP labyId i) = l.count i := by
  induction l with
  | nil => rfl
  | cons x rest ih =>
      rw [List.map_cons, List.count_cons, List.count_cons, ih]
      by_cases hx : x = i
      · simp [hx]
      · have : ¬ RAction.deleteP labyId x = RAction.deleteP labyId i := by
          intro h; exact hx (by injection h)
        simp [hx, this]

end Thelaby

namespace Thelaby

theorem count_filter_pos (p : String → Bool) (l : List String) (a : String)
    (h : p a = true) : (l.filter p).count a = l.count a := by
  induction l with
  | nil => rfl
  | cons x rest ih =>
      rw [List.filter_cons]
      by_cases hx : p x = true
      · rw [if_pos hx, List.count_cons, List.count_cons, ih]
      · rw [if_neg hx, List.count_cons, ih]
        have hxa : ¬ x = a := fun he => hx (he ▸ h)
        simp [hxa]

theorem count_concat5 (A B C D E : List String) (i : String)
    (h1 : A.count i = 1) (h2 : i ∉ B) (h3 : i ∉ C) (h4 : i ∉ D) (h5 : i ∉ E) :
    (A ++ B ++ C ++ D ++ E).count i = 1 ∧ i ∈ A ++ B ++ C ++ D ++ E := by
  constructor
  · rw [List.count_append, List.count_append, List.count_append, List.count_append,
      h1, List.count_eq_zero.2 h2, List.count_eq_zero.2 h3, List.count_eq_zero.2 h4,
      List.count_eq_zero.2 h5]
  · have hA : i ∈ A := by
      rw [← List.count_pos_iff, h1]
      exact Nat.one_pos
    exact List.mem_append_left _ (List.mem_append_left _ (List.mem_append_left _
      (List.mem_append_left _ hA)))

theorem metasOf_id_ne (entries : List (String × Entry)) (i : String)
    (hneta : ∀ pr ∈ entries, ∀ m, pr.2.meta = some m → truthyVal m.id ≠ some i) :
    ∀ n, truthyVal (metasOf entries n).id ≠ some i := by
  intro n
  unfold metasOf findEntry
  cases hfind : entries.find? (fun p => p.1 = n) with
  | none => simp [truthyVal]
  | some pr =>
      cases hm : pr.2.meta with
      | none => simp [hm, truthyVal]
      | some m =>
          have hpr := List.mem_of_find?_eq_some hfind
          have := hneta pr hpr m hm
          simpa [hm] using this

theorem allDeleteIds_count (fs : FS) (entries0 : List (String × Entry)) (lm : LabyMeta)
    (i : String) (hmem : i ∈ lm.pageIds) (hnodup : lm.pageIds.Nodup)
    (hmi : ∀ n, truthyVal (metasOf entries0 n).id ≠ some i) :
    (allDeleteIds fs entries0 lm).count i = 1 ∧ i ∈ allDeleteIds fs entries0 lm := by
  simp only [allDeleteIds, planOf, buildPlan, determinePageStates]
  have hbeq : ∀ n, ((truthyVal (metasOf entries0 n).id == some i) = false) := by
    intro n
    rw [beq_eq_false_iff_ne]
    exact hmi n
  have horphp : (fun x => !((namesWithMeta entries0).any
      (fun n => truthyVal (metasOf entries0 n).id == some x))) i = true := by
    simp only [Bool.not_eq_true']
    rw [List.any_eq_false]
    intro n hn
    rw [hbeq n]
    exact Bool.false_ne_true
  have horph1 : (lm.pageIds.filter (fun x => !((namesWithMeta entries0).any
      (fun n => truthyVal (metasOf entries0 n).id == some x)))).count i = 1 := by
    rw [count_filter_pos _ _ _ horphp]
    exact List.count_eq_one_of_mem hnodup hmem
  have horphm : i ∈ lm.pageIds.filter (fun x => !((namesWithMeta entries0).any
      (fun n => truthyVal (metasOf entries0 n).id == some x))) :=
    List.mem_filter.2 ⟨hmem, horphp⟩
  have hresid : i ∉ ((namesWithMeta entries0).filterMap (fun n =>
      if !((namesWithHtml entries0).contains n) && !((namesWithJson entries0).contains n)
      then some (RMItem.mk n (metasOf entries0 n).id
        (match truthyVal (metasOf entries0 n).id with
         | some i' => lm.pageIds.contains i'
         | none => false))
      else none)).filterMap (fun it =>
        match truthyVal it.id with
        | some i' => if it.inPageIds then some i' else none
        | none => none) := by
    intro hmem'
    rw [List.mem_filterMap] at hmem'
    obtain ⟨it, hit, hfit⟩ := hmem'
    rw [List.mem_filterMap] at hit
    obtain ⟨n, -, hgn⟩ := hit
    split at hgn
    · cases hgn
      split at hfit
      · split at hfit
        · cases hfit
          exact hmi n (by assumption)
        · exact Option.noConfusion hfit
      · exact Option.noConfusion hfit
    · exact Option.noConfusion hgn
  have hjm : ∀ (srcNames : List String) (p : String → Bool),
      i ∉ (srcNames.filterMap (fun n =>
        if p n then some (JMItem.mk n ((namesWithMeta entries0).contains n)
          (metasOf entries0 n).id) else none)).filterMap (fun it =>
          if it.hasMeta then
            match truthyVal it.metaId with
            | some i' => if lm.pageIds.contains i' then some i' else none
            | none => none
          else none) := by
    intro srcNames p hmem'
    rw [List.mem_filterMap] at hmem'
    obtain ⟨it, hit, hfit⟩ := hmem'
    rw [List.mem_filterMap] at hit
    obtain ⟨n, -, hgn⟩ := hit
    split at hgn
    · cases hgn
      split at hfit
      · split at hfit
        · split at hfit
          · cases hfit
            exact hmi n (by assumption)
          · exact Option.noConfusion hfit
        · exact Option.noConfusion hfit
      · exact Option.noConfusion hfit
    · exact Option.noConfusion hgn
  have hrec : i ∉ ((namesWithHtml entries0).filterMap (fun n =>
      match truthyVal (metasOf entries0 n).id with
      | some i' =>
          if (namesWithJson entries0).contains n && (namesWithMeta entries0).contains n &&
              !(lm.pageIds.contains i')
          then some (PMItem.mk n i') else none
      | none => none)).map (fun it => it.id) := by
    intro hmem'
    rw [List.mem_map] at hmem'
    obtain ⟨it, hit, hid⟩ := hmem'
    rw [List.mem_filterMap] at hit
    obtain ⟨n, -, hgn⟩ := hit
    split at hgn
    · split at hgn
      · cases hgn
        exact hmi n (by simp_all)
      · exact Option.noConfusion hgn
    · exact Option.noConfusion hgn
  exact count_concat5 _ _ _ _ _ i horph1 hresid
    (hjm (namesWithHtml entries0) (fun n => !((namesWithJson entries0).contains n)))
    (hjm (namesWithJson entries0) (fun n => !((namesWithHtml entries0).contains n)))
    hrec

end Thelaby

namespace Thelaby

theorem uploadNewImages_env (fs : FS) (env₁ env₂ : Env)
    (h : env₁.uploadUrl = env₂.uploadUrl) (paths : List String)
    (cache : List (String × String)) :
    uploadNewImages fs env₁ paths cache = uploadNewImages fs env₂ paths cache := by
  unfold uploadNewImages
  rw [h]

theorem prepPage_env (fs : FS) (env₁ env₂ : Env)
    (h : env₁.uploadUrl = env₂.uploadUrl) (st : PState) (h0 : String)
    (ans : List AnswerJ) :
    prepPage fs env₁ st h0 ans = prepPage fs env₂ st h0 ans := by
  have hu : uploadNewImages fs env₁ = uploadNewImages fs env₂ :=
    funext (fun p => funext (fun c => uploadNewImages_env fs env₁ env₂ h p c))
  simp only [prepPage, hu]

theorem createOne_env (fs : FS) (env₁ env₂ : Env)
    (hc : env₁.createId = env₂.createId) (hu : env₁.uploadUrl = env₂.uploadUrl)
    (labyId : String) (fp : Option String) (st : PState) (name : String) :
    createOne fs env₁ labyId fp st name = createOne fs env₂ labyId fp st name := by
  have hp : prepPage fs env₁ = prepPage fs env₂ :=
    funext (fun a => funext (fun b => funext (fun c => prepPage_env fs env₁ env₂ hu a b c)))
  simp only [createOne, hp, hc]

theorem updateOne_env (fs : FS) (env₁ env₂ : Env)
    (hu : env₁.uploadUrl = env₂.uploadUrl)
    (fp : Option String) (st : PState) (name : String) :
    updateOne fs env₁ fp st name = updateOne fs env₂ fp st name := by
  have hp : prepPage fs env₁ = prepPage fs env₂ :=
    funext (fun a => funext (fun b => funext (fun c => prepPage_env fs env₁ env₂ hu a b c)))
  simp only [updateOne, hp]

theorem labyStep_env (fs : FS) (config : Config) (env₁ env₂ : Env)
    (hl : env₁.labyCreateId = env₂.labyCreateId) (lm0 : LabyMeta) :
    labyStep fs config env₁ lm0 = labyStep fs config env₂ lm0 := by
  simp only [labyStep, hl]

theorem mainPhases_env (fs : FS) (config : Config) (env₁ env₂ : Env)
    (hc : env₁.createId = env₂.createId) (hu : env₁.uploadUrl = env₂.uploadUrl)
    (entries0 : List (String × Entry)) (lm : LabyMeta) :
    mainPhases fs config env₁ entries0 lm = mainPhases fs config env₂ entries0 lm := by
  have h1 : createOne fs env₁ (lm.id.getD "") (firstPageOf config) =
      createOne fs env₂ (lm.id.getD "") (firstPageOf config) :=
    funext (fun st => funext (fun n => createOne_env fs env₁ env₂ hc hu _ _ st n))
  have h2 : updateOne fs env₁ (firstPageOf config) =
      updateOne fs env₂ (firstPageOf config) :=
    funext (fun st => funext (fun n => updateOne_env fs env₁ env₂ hu _ st n))
  simp only [mainPhases, runDeletes_eq, h1, h2]

theorem reconcile_env (fs : FS) (config : Config) (env₁ env₂ : Env) (tree : Tree)
    (hl : env₁.labyCreateId = env₂.labyCreateId)
    (hc : env₁.createId = env₂.createId) (hu : env₁.uploadUrl = env₂.uploadUrl) :
    reconcile fs config env₁ tree = reconcile fs config env₂ tree := by
  have h1 : labyStep fs config env₁ = labyStep fs config env₂ :=
    funext (fun lm0 => labyStep_env fs config env₁ env₂ hl lm0)
  have h2 : mainPhases fs config env₁ = mainPhases fs config env₂ :=
    funext (fun e0 => funext (fun lm => mainPhases_env fs config env₁ env₂ hc hu e0 lm))
  simp only [reconcile, h1, h2]

end Thelaby

namespace Thelaby

/-- C7.  A `pageIds` entry that no meta file maps to (an orphan) is deleted
exactly once by a gate-passing run, is absent from the recorded `pageIds`
afterwards, and the delete call's reported result (`deleteOk`) has no effect
on the run whatsoever — in particular a "not found" result never aborts.
Assumes no page's content file is the empty string (an empty content file
crashes the program before the deletion phase). -/
theorem orphan_delete_spec
    (fs : FS) (config : Config) (env : Env) (tree : Tree) (lm : LabyMeta) (i : String)
    (hlm : tree.labyMeta = some lm)
    (ht : truthyS config.title = true)
    (hcfg : validateConfig config = [])
    (hv : validateAllPages (loadPages fs (entriesAfterCleanup tree)) = [])
    (hfp : firstPageBad config (loadPages fs (entriesAfterCleanup tree)) = false)
    (hW5 : ∀ n ∈ namesWithHtml tree.entries, (findEntry tree.entries n).html ≠ some "")
    (hmem : i ∈ lm.pageIds)
    (hnodup : lm.pageIds.Nodup)
    (hneta : ∀ pr ∈ tree.entries, ∀ m, pr.2.meta = some m → truthyVal m.id ≠ some i)
    (hcid : ∀ k, truthyVal (env.createId k) ≠ some i) :
    (reconcile fs config env tree).abort = none ∧
    ((reconcile fs config env tree).trace).count
      (RAction.deleteP ((labyStep fs config env lm).2.id.getD "") i) = 1 ∧
    (∀ lm', (reconcile fs config env tree).tree.labyMeta = some lm' →
      i ∉ lm'.pageIds) ∧
    (∀ d, reconcile fs config { env with deleteOk := d } tree =
      reconcile fs config env tree) := by
  have hE : entriesAfterCleanup tree = tree.entries := by
    simp [entriesAfterCleanup, hlm]
  have hG : tree.labyMeta.getD {} = lm := by rw [hlm]; rfl
  have hR := reconcile_success_eq fs config env tree ht hcfg hv hfp
  rw [hG, hE] at hR
  set lmw := (labyStep fs config env lm).2 with hlmw
  have hpids : lmw.pageIds = lm.pageIds := (labyStep_statics fs config env lm).1
  have hmd := mainPhases_decomp fs config env tree.entries lmw
  have hmi : ∀ n, truthyVal (metasOf tree.entries n).id ≠ some i :=
    metasOf_id_ne tree.entries i hneta
  obtain ⟨hcnt1, hmemAD⟩ := allDeleteIds_count fs tree.entries lmw i
    (by rw [hpids]; exact hmem) (by rw [hpids]; exact hnodup) hmi
  have hls0 : ((labyStep fs config env lm).1).count
      (RAction.deleteP (lmw.id.getD "") i) = 0 := by
    rcases labyStep_shape fs config env lm with h | h | ⟨l, h⟩ <;>
      rw [h, List.count_eq_zero] <;> intro hx <;> simp at hx
  obtain ⟨Δu, hΔu, hshu⟩ := foldl_updateOne_trace fs env (firstPageOf config)
    (planOf fs tree.entries lmw).1.updatedPages (st4Of fs config env tree.entries lmw)
  obtain ⟨Δc, hΔc, hshc⟩ := foldl_createOne_trace fs env (lmw.id.getD "")
    (firstPageOf config) (planOf fs tree.entries lmw).1.newPages
    (st0Of fs tree.entries lmw)
  have htr4 : (st4Of fs config env tree.entries lmw).trace = Δc := by
    unfold st4Of
    rw [hΔc]
    show ([] : List RAction) ++ Δc = Δc
    exact List.nil_append Δc
  have htr5 : (st5Of fs config env tree.entries lmw).trace = Δc ++ Δu := by
    unfold st5Of
    rw [hΔu, htr4]
  have hc5 : ((st5Of fs config env tree.entries lmw).trace).count
      (RAction.deleteP (lmw.id.getD "") i) = 0 := by
    rw [htr5, List.count_eq_zero]
    intro hmem5
    rcases List.mem_append.1 hmem5 with h | h
    · rcases hshc _ h with ⟨p, hp⟩ | ⟨n, t, h0, -, hp⟩ <;> exact RAction.noConfusion hp
    · rcases hshu _ h with ⟨p, hp⟩ | ⟨pid, n, t, h0, -, hp⟩ <;>
        exact RAction.noConfusion hp
  have hc6 : (runLinks (st5Of fs config env tree.entries lmw)
      (pageIdMapOf fs config env tree.entries lmw)
      (connsOf fs config env tree.entries lmw)).count
      (RAction.deleteP (lmw.id.getD "") i) = 0 := by
    rw [List.count_eq_zero]
    intro hmem6
    rcases runLinks_shape _ _ _ _ hmem6 with ⟨t, hp⟩ | ⟨t, s', i', hp⟩ | ⟨t, hp⟩ <;>
      exact RAction.noConfusion hp
  have hnot5 : i ∉ (st5Of fs config env tree.entries lmw).pageIds := by
    have h50 : (st5Of fs config env tree.entries lmw).pageIds =
        (st4Of fs config env tree.entries lmw).pageIds := by
      unfold st5Of
      exact foldl_updateOne_pageIds fs env (firstPageOf config) _ _
    rw [h50]
    unfold st4Of
    apply foldl_createOne_pageIds_not_new fs env _ _ _ i hcid
    show i ∉ lmw.pageIds.filter
      (fun x => !((allDeleteIds fs tree.entries lmw).contains x))
    intro hmem0
    have hpred := (List.mem_filter.1 hmem0).2
    rw [Bool.not_eq_true', contains_eq_decide_mem] at hpred
    exact absurd hmemAD (by simpa using hpred)
  refine ⟨?_, ?_, ?_, ?_⟩
  · rw [hR]
  · rw [hR, hmd]
    show ((labyStep fs config env lm).1 ++
      ((allDeleteIds fs tree.entries lmw).map (RAction.deleteP (lmw.id.getD "")) ++
        (st5Of fs config env tree.entries lmw).trace ++
        runLinks (st5Of fs config env tree.entries lmw)
          (pageIdMapOf fs config env tree.entries lmw)
          (connsOf fs config env tree.entries lmw))).count
      (RAction.deleteP (lmw.id.getD "") i) = 1
    rw [List.count_append, List.count_append, List.count_append, hls0,
      count_map_deleteP, hcnt1, hc5, hc6]
  · intro lm' hlm'
    rw [hR, hmd] at hlm'
    cases Option.some.inj hlm'
    exact hnot5
  · intro d
    exact reconcile_env fs config { env with deleteOk := d } env tree rfl rfl rfl

end Thelaby

namespace Thelaby

theorem orphan_delete_spec_witness :
    (reconcile demoFS demoCfg orphanEnv orphanTree).abort = none ∧
    ((reconcile demoFS demoCfg orphanEnv orphanTree).trace).count
      (RAction.deleteP ((labyStep demoFS demoCfg orphanEnv orphanLM).2.id.getD "")
        "500") = 1 ∧
    (∀ lm', (reconcile demoFS demoCfg orphanEnv orphanTree).tree.labyMeta = some lm' →
      "500" ∉ lm'.pageIds) ∧
    (∀ d, reconcile demoFS demoCfg { orphanEnv with deleteOk := d } orphanTree =
      reconcile demoFS demoCfg orphanEnv orphanTree) :=
  orphan_delete_spec demoFS demoCfg orphanEnv orphanTree orphanLM "500"
    (by rfl) (by decide) (by decide) (by decide) (by decide)
    (by intro n hn; exact absurd hn (List.not_mem_nil n))
    (by decide) (by decide)
    (by intro pr hpr; exact absurd hpr (List.not_mem_nil pr))
    (by intro k h; exact Option.noConfusion h)

end Thelaby

namespace Thelaby

theorem count_filterMap_proj (f : PMItem → String) (g : String → Option PMItem)
    (name target : String)
    (hgname : ∃ it, g name = some it ∧ f it = target)
    (hother : ∀ n, n ≠ name → ∀ it, g n = some it → f it ≠ target) :
    ∀ L : List String, ((L.filterMap g).map f).count target = L.count name := by
  intro L
  induction L with
  | nil => rfl
  | cons x rest ih =>
      rw [List.filterMap_cons]
      by_cases hx : x = name
      · subst hx
        obtain ⟨it, hit, hfit⟩ := hgname
        rw [hit, List.map_cons, List.count_cons, List.count_cons, ih, hfit]
        simp
      · cases hgx : g x with
        | none =>
            rw [List.count_cons, ih]
            simp [hx]
        | some it =>
            rw [List.map_cons, List.count_cons, List.count_cons, ih]
            have := hother x hx it hgx
            simp [hx, this]

theorem eq_append_cons_of_count_one (l : List String) (a : String)
    (h : l.count a = 1) : ∃ s t, l = s ++ a :: t ∧ a ∉ s ∧ a ∉ t := by
  have hmem : a ∈ l := by
    rw [← List.count_pos_iff, h]
    exact Nat.one_pos
  obtain ⟨s, t, rfl⟩ := List.append_of_mem hmem
  refine ⟨s, t, rfl, ?_, ?_⟩
  · intro hs
    have : 2 ≤ (s ++ a :: t).count a := by
      rw [List.count_append, List.count_cons_self]
      have h1 : 1 ≤ s.count a := List.count_pos_iff.2 hs
      omega
    omega
  · intro ht
    have : 2 ≤ (s ++ a :: t).count a := by
      rw [List.count_append, List.count_cons_self]
      have h1 : 1 ≤ t.count a := List.count_pos_iff.2 ht
      omega
    omega

theorem mem_entry_names_of_namesWithHtml (entries : List (String × Entry)) (n : String)
    (h : n ∈ namesWithHtml entries) : n ∈ entries.map (fun p => p.1) := by
  rw [namesWithHtml] at h
  rcases List.mem_map.1 h with ⟨pr, hpr, rfl⟩
  exact List.mem_map.2 ⟨pr, (List.mem_filter.1 hpr).1, rfl⟩

theorem deleteMetasFor_names (entries : List (String × Entry)) (names : List String) :
    (deleteMetasFor entries names).map (fun p => p.1) = entries.map (fun p => p.1) := by
  rw [deleteMetasFor, List.map_map]
  apply List.map_congr_left
  intro pe hpe
  by_cases hc : pe.1 ∈ names <;> simp [Function.comp, hc]

theorem findPage_map_preserve_html (f : (String × PageRec) → (String × PageRec))
    (hf : ∀ pr, (f pr).1 = pr.1 ∧ (f pr).2.html = pr.2.html) (n : String) :
    ∀ pages : List (String × PageRec),
      (findPage (pages.map f) n).html = (findPage pages n).html := by
  intro pages
  induction pages with
  | nil => rfl
  | cons pr rest ih =>
      rw [List.map_cons]
      by_cases hn : pr.1 = n
      · have h1 : (f pr).1 = n := (hf pr).1.trans hn
        rw [findPage, findPage, lookupAssoc, lookupAssoc,
          List.find?_cons_of_pos _ (by simpa using h1),
          List.find?_cons_of_pos _ (by simpa using hn)]
        simp [(hf pr).2]
      · have h1 : ¬ ((f pr).1 = n) := fun h => hn (((hf pr).1).symm.trans h)
        rw [findPage, findPage, lookupAssoc, lookupAssoc,
          List.find?_cons_of_neg _ (by simpa using h1),
          List.find?_cons_of_neg _ (by simpa using hn)]
        simpa [findPage, lookupAssoc] using ih

theorem countP_map_deleteP_isCreateOf (labyId name : String) (l : List String) :
    ((l.map (RAction.deleteP labyId)).countP (isCreateOf name)) = 0 := by
  rw [List.countP_eq_zero]
  intro a ha
  rcases List.mem_map.1 ha with ⟨x, -, rfl⟩
  simp [isCreateOf]

end Thelaby

namespace Thelaby

theorem count_concat5_last (A B C D E : List String) (i : String)
    (h1 : i ∉ A) (h2 : i ∉ B) (h3 : i ∉ C) (h4 : i ∉ D) (h5 : E.count i = 1) :
    (A ++ B ++ C ++ D ++ E).count i = 1 ∧ i ∈ A ++ B ++ C ++ D ++ E := by
  constructor
  · rw [List.count_append, List.count_append, List.count_append, List.count_append,
      h5, List.count_eq_zero.2 h1, List.count_eq_zero.2 h2, List.count_eq_zero.2 h3,
      List.count_eq_zero.2 h4]
  · have hE : i ∈ E := by
      rw [← List.count_pos_iff, h5]
      exact Nat.one_pos
    exact List.mem_append_right _ hE

theorem allDeleteIds_count_recreate (fs : FS) (entries0 : List (String × Entry))
    (lm : LabyMeta) (name oldId : String)
    (hold : oldId ∉ lm.pageIds)
    (htid : truthyVal (metasOf entries0 name).id = some oldId)
    (hinj : ∀ n', n' ≠ name → truthyVal (metasOf entries0 n').id ≠ some oldId)
    (hcnt : (namesWithHtml entries0).count name = 1)
    (hjson : (namesWithJson entries0).contains name = true)
    (hmeta : (namesWithMeta entries0).contains name = true) :
    (allDeleteIds fs entries0 lm).count oldId = 1 ∧
      oldId ∈ allDeleteIds fs entries0 lm := by
  have hcf : lm.pageIds.contains oldId = false := by
    rw [contains_eq_decide_mem]
    exact decide_eq_false hold
  have hjsonm : name ∈ namesWithJson entries0 := by
    rw [contains_eq_decide_mem] at hjson
    exact of_decide_eq_true hjson
  have hmetam : name ∈ namesWithMeta entries0 := by
    rw [contains_eq_decide_mem] at hmeta
    exact of_decide_eq_true hmeta
  simp only [allDeleteIds, planOf, buildPlan, determinePageStates]
  have hA : oldId ∉ lm.pageIds.filter (fun x => !((namesWithMeta entries0).any
      (fun n => truthyVal (metasOf entries0 n).id == some x))) := by
    intro hx
    exact hold (List.mem_filter.1 hx).1
  have hB : oldId ∉ ((namesWithMeta entries0).filterMap (fun n =>
      if !((namesWithHtml entries0).contains n) && !((namesWithJson entries0).contains n)
      then some (RMItem.mk n (metasOf entries0 n).id
        (match truthyVal (metasOf entries0 n).id with
         | some i' => lm.pageIds.contains i'
         | none => false))
      else none)).filterMap (fun it =>
        match truthyVal it.id with
        | some i' => if it.inPageIds then some i' else none
        | none => none) := by
    intro hmem'
    rw [List.mem_filterMap] at hmem'
    obtain ⟨it, hit, hfit⟩ := hmem'
    rw [List.mem_filterMap] at hit
    obtain ⟨n, -, hgn⟩ := hit
    split at hgn
    · cases hgn
      by_cases hn : n = name
      · subst hn
        rw [htid] at hfit
        simp [hcf] at hfit
        exact hold hfit
      · split at hfit
        · split at hfit
          · cases hfit
            exact hinj n hn (by assumption)
          · exact Option.noConfusion hfit
        · exact Option.noConfusion hfit
    · exact Option.noConfusion hgn
  have hjmDel : ∀ (srcNames : List String) (p : String → Bool),
      oldId ∉ (srcNames.filterMap (fun n =>
        if p n then some (JMItem.mk n ((namesWithMeta entries0).contains n)
          (metasOf entries0 n).id) else none)).filterMap (fun it =>
          if it.hasMeta then
            match truthyVal it.metaId with
            | some i' => if lm.pageIds.contains i' then some i' else none
            | none => none
          else none) := by
    intro srcNames p hmem'
    rw [List.mem_filterMap] at hmem'
    obtain ⟨it, hit, hfit⟩ := hmem'
    rw [List.mem_filterMap] at hit
    obtain ⟨n, -, hgn⟩ := hit
    split at hgn
    · cases hgn
      split at hfit
      · split at hfit
        · split at hfit
          · cases hfit
            simp_all
          · exact Option.noConfusion hfit
        · exact Option.noConfusion hfit
      · exact Option.noConfusion hfit
    · exact Option.noConfusion hgn
  have hE : (((namesWithHtml entries0).filterMap (fun n =>
      match truthyVal (metasOf entries0 n).id with
      | some i' =>
          if (namesWithJson entries0).contains n && (namesWithMeta entries0).contains n &&
              !(lm.pageIds.contains i')
          then some (PMItem.mk n i') else none
      | none => none)).map (fun it => it.id)).count oldId = 1 := by
    rw [count_filterMap_proj (fun it => it.id) _ name oldId ?_ ?_ (namesWithHtml entries0),
      hcnt]
    · refine ⟨PMItem.mk name oldId, ?_, rfl⟩
      show (match truthyVal (metasOf entries0 name).id with
        | some i' =>
            if (namesWithJson entries0).contains name && (namesWithMeta entries0).contains name &&
                !(lm.pageIds.contains i')
            then some (PMItem.mk name i') else none
        | none => none) = some (PMItem.mk name oldId)
      rw [htid]
      simp [hjsonm, hmetam, hold]
    · intro n hn it hgn hid
      split at hgn
      · split at hgn
        · cases hgn
          rename_i heq _
          exact hinj n hn (hid ▸ heq)
        · exact Option.noConfusion hgn
      · exact Option.noConfusion hgn
  exact count_concat5_last _ _ _ _ _ oldId hA hB
    (hjmDel (namesWithHtml entries0) (fun n => !((namesWithJson entries0).contains n)))
    (hjmDel (namesWithJson entries0) (fun n => !((namesWithHtml entries0).contains n)))
    hE

end Thelaby

namespace Thelaby

theorem updatedPages_not_mem_of_missing (fs : FS) (entries0 : List (String × Entry))
    (lm : LabyMeta) (name oldId : String)
    (htid : truthyVal (metasOf entries0 name).id = some oldId)
    (hold : oldId ∉ lm.pageIds) :
    name ∉ (planOf fs entries0 lm).1.updatedPages := by
  simp only [planOf, buildPlan, determinePageStates]
  intro hmem
  have h1 := (List.mem_filter.1 hmem).1
  have h2 := (List.mem_filter.1 h1).2
  rw [Bool.and_eq_true] at h2
  have h3 := h2.2
  rw [htid] at h3
  simp at h3
  exact hold h3

theorem newPages_count_one (fs : FS) (entries0 : List (String × Entry))
    (lm : LabyMeta) (name oldId : String)
    (htid : truthyVal (metasOf entries0 name).id = some oldId)
    (hold : oldId ∉ lm.pageIds)
    (hcntH : (namesWithHtml entries0).count name = 1)
    (hjson : name ∈ namesWithJson entries0)
    (hmeta : name ∈ namesWithMeta entries0) :
    ((planOf fs entries0 lm).1.newPages).count name = 1 := by
  have hmetac : (namesWithMeta entries0).contains name = true := by
    rw [contains_eq_decide_mem]
    exact decide_eq_true hmeta
  simp only [planOf, buildPlan, determinePageStates]
  rw [List.count_append]
  have h0 : ((namesWithHtml entries0).filter (fun n =>
      (namesWithJson entries0).contains n && !((namesWithMeta entries0).contains n))).count
      name = 0 := by
    rw [List.count_eq_zero]
    intro hx
    obtain ⟨-, h2⟩ := Bool.and_eq_true _ _ ▸ (List.mem_filter.1 hx).2
    rw [Bool.not_eq_true', hmetac] at h2
    exact Bool.noConfusion h2
  have h1 : (((namesWithHtml entries0).filterMap (fun n =>
      match truthyVal (metasOf entries0 n).id with
      | some i' =>
          if (namesWithJson entries0).contains n && (namesWithMeta entries0).contains n &&
              !(lm.pageIds.contains i')
          then some (PMItem.mk n i') else none
      | none => none)).map (fun it => it.name)).count name = 1 := by
    rw [count_filterMap_proj (fun it => it.name) _ name name ?_ ?_ (namesWithHtml entries0),
      hcntH]
    · refine ⟨PMItem.mk name oldId, ?_, rfl⟩
      show (match truthyVal (metasOf entries0 name).id with
        | some i' =>
            if (namesWithJson entries0).contains name && (namesWithMeta entries0).contains name &&
                !(lm.pageIds.contains i')
            then some (PMItem.mk name i') else none
        | none => none) = some (PMItem.mk name oldId)
      rw [htid]
      simp [hjson, hmeta, hold]
    · intro n hn it hgn hname
      split at hgn
      · split at hgn
        · cases hgn
          exact hn hname
        · exact Option.noConfusion hgn
      · exact Option.noConfusion hgn
  rw [h0, h1]

end Thelaby

namespace Thelaby

theorem planOf_pages_html (fs : FS) (entries0 : List (String × Entry)) (lm : LabyMeta)
    (n : String) :
    (findPage (planOf fs entries0 lm).2 n).html =
      (findPage (loadPages fs entries0) n).html := by
  simp only [planOf, buildPlan]
  exact findPage_map_preserve_html _
    (fun pr => by refine ⟨?_, ?_⟩ <;> (dsimp only; split <;> rfl)) n _

end Thelaby

namespace Thelaby

/-- C5.  A page with content, metadata and a recorded meta whose truthy id is
absent from `pageIds` is recreated: the run splits as `tr1 ++ tr2` where
`tr1` (labyrinth step + deletions) holds exactly one delete of the stale id
and no create of the page, `tr2` (creates, updates, links) holds exactly one
create of the page and no delete of the stale id, the run does not abort, and
the page's recorded meta afterwards carries the freshly assigned id, not the
old one.  Assumes no page's content file is the empty string (an empty
content file crashes the program before the deletion phase). -/
theorem recreate_missing_id_spec
    (fs : FS) (config : Config) (env : Env) (tree : Tree) (lm : LabyMeta)
    (name oldId : String)
    (hlm : tree.labyMeta = some lm)
    (ht : truthyS config.title = true)
    (hcfg : validateConfig config = [])
    (hv : validateAllPages (loadPages fs (entriesAfterCleanup tree)) = [])
    (hfp : firstPageBad config (loadPages fs (entriesAfterCleanup tree)) = false)
    (hW5 : ∀ n ∈ namesWithHtml tree.entries, (findEntry tree.entries n).html ≠ some "")
    (hhtml : name ∈ namesWithHtml tree.entries)
    (hjson : name ∈ namesWithJson tree.entries)
    (hmeta : name ∈ namesWithMeta tree.entries)
    (htid : truthyVal (metasOf tree.entries name).id = some oldId)
    (hold : oldId ∉ lm.pageIds)
    (hinj : ∀ n', n' ≠ name → truthyVal (metasOf tree.entries n').id ≠ some oldId)
    (hnodH : (namesWithHtml tree.entries).Nodup)
    (hpg : (findPage (loadPages fs tree.entries) name).html ≠ "")
    (hcid : ∀ k, ∃ pid, truthyVal (env.createId k) = some pid)
    (hfresh : ∀ k pid, truthyVal (env.createId k) = some pid → pid ≠ oldId) :
    ∃ tr1 tr2 pid m',
      (reconcile fs config env tree).trace = tr1 ++ tr2 ∧
      tr1.count (RAction.deleteP ((labyStep fs config env lm).2.id.getD "") oldId) = 1 ∧
      tr1.countP (isCreateOf name) = 0 ∧
      tr2.countP (isCreateOf name) = 1 ∧
      tr2.count (RAction.deleteP ((labyStep fs config env lm).2.id.getD "") oldId) = 0 ∧
      (reconcile fs config env tree).abort = none ∧
      (findEntry (reconcile fs config env tree).tree.entries name).meta = some m' ∧
      m'.id = some pid ∧ pid ≠ oldId := by
  have hE : entriesAfterCleanup tree = tree.entries := by
    simp [entriesAfterCleanup, hlm]
  have hG : tree.labyMeta.getD {} = lm := by rw [hlm]; rfl
  have hR := reconcile_success_eq fs config env tree ht hcfg hv hfp
  rw [hG, hE] at hR
  set lmw := (labyStep fs config env lm).2 with hlmw
  have hpids : lmw.pageIds = lm.pageIds := (labyStep_statics fs config env lm).1
  have hmd := mainPhases_decomp fs config env tree.entries lmw
  have holdw : oldId ∉ lmw.pageIds := by rw [hpids]; exact hold
  have hcntH : (namesWithHtml tree.entries).count name = 1 :=
    List.count_eq_one_of_mem hnodH hhtml
  have hjsonc : (namesWithJson tree.entries).contains name = true := by
    rw [contains_eq_decide_mem]; exact decide_eq_true hjson
  have hmetac : (namesWithMeta tree.entries).contains name = true := by
    rw [contains_eq_decide_mem]; exact decide_eq_true hmeta
  obtain ⟨hdelCnt, hdelMem⟩ := allDeleteIds_count_recreate fs tree.entries lmw name oldId
    holdw htid hinj hcntH hjsonc hmetac
  have hcntNew : ((planOf fs tree.entries lmw).1.newPages).count name = 1 :=
    newPages_count_one fs tree.entries lmw name oldId htid holdw hcntH hjson hmeta
  have hnotupd : name ∉ (planOf fs tree.entries lmw).1.updatedPages :=
    updatedPages_not_mem_of_missing fs tree.entries lmw name oldId htid holdw
  obtain ⟨preN, postN, hsplit, hnotpre, hnotpost⟩ :=
    eq_append_cons_of_count_one _ name hcntNew
  have hst4 : st4Of fs config env tree.entries lmw =
      postN.foldl (createOne fs env (lmw.id.getD "") (firstPageOf config))
        (createOne fs env (lmw.id.getD "") (firstPageOf config)
          (preN.foldl (createOne fs env (lmw.id.getD "") (firstPageOf config))
            (st0Of fs tree.entries lmw)) name) := by
    unfold st4Of
    rw [hsplit, List.foldl_append, List.foldl_cons]
  have hfp_pre : findPage (preN.foldl
      (createOne fs env (lmw.id.getD "") (firstPageOf config))
      (st0Of fs tree.entries lmw)).pages name =
      findPage (st0Of fs tree.entries lmw).pages name :=
    (foldl_createOne_untouched fs env _ _ preN name hnotpre _).2
  have hhtml_pre : (findPage (preN.foldl
      (createOne fs env (lmw.id.getD "") (firstPageOf config))
      (st0Of fs tree.entries lmw)).pages name).html ≠ "" := by
    rw [hfp_pre]
    show (findPage (planOf fs tree.entries lmw).2 name).html ≠ ""
    rw [planOf_pages_html]
    exact hpg
  obtain ⟨pid, hpid⟩ := hcid (preN.foldl
    (createOne fs env (lmw.id.getD "") (firstPageOf config))
    (st0Of fs tree.entries lmw)).createCount
  obtain ⟨hmidE, hmidP, hmidI, hmidC⟩ := createOne_success fs env (lmw.id.getD "")
    (firstPageOf config)
    (preN.foldl (createOne fs env (lmw.id.getD "") (firstPageOf config))
      (st0Of fs tree.entries lmw)) name pid hhtml_pre hpid
  have hcontains : ((preN.foldl (createOne fs env (lmw.id.getD "") (firstPageOf config))
      (st0Of fs tree.entries lmw)).entries.map (fun p => p.1)).contains name = true := by
    rw [(foldl_createOne_names fs env (lmw.id.getD "") (firstPageOf config) preN _).1]
    show ((deleteMetasFor tree.entries
      (planOf fs tree.entries lmw).1.metasToDelete).map (fun p => p.1)).contains name = true
    rw [deleteMetasFor_names, contains_eq_decide_mem]
    exact decide_eq_true (mem_entry_names_of_namesWithHtml tree.entries name hhtml)
  have hE4 : findEntry (st4Of fs config env tree.entries lmw).entries name =
      findEntry (createOne fs env (lmw.id.getD "") (firstPageOf config)
        (preN.foldl (createOne fs env (lmw.id.getD "") (firstPageOf config))
          (st0Of fs tree.entries lmw)) name).entries name := by
    rw [hst4]
    exact (foldl_createOne_untouched fs env _ _ postN name hnotpost _).1
  have hE5 : findEntry (st5Of fs config env tree.entries lmw).entries name =
      findEntry (st4Of fs config env tree.entries lmw).entries name := by
    unfold st5Of
    exact (foldl_updateOne_untouched fs env (firstPageOf config) _ name hnotupd _).1
  -- trace shape facts
  obtain ⟨Δu, hΔu, hshu⟩ := foldl_updateOne_trace fs env (firstPageOf config)
    (planOf fs tree.entries lmw).1.updatedPages (st4Of fs config env tree.entries lmw)
  obtain ⟨Δc, hΔc, hshc⟩ := foldl_createOne_trace fs env (lmw.id.getD "")
    (firstPageOf config) (planOf fs tree.entries lmw).1.newPages
    (st0Of fs tree.entries lmw)
  have htr4 : (st4Of fs config env tree.entries lmw).trace = Δc := by
    unfold st4Of
    rw [hΔc]
    show ([] : List RAction) ++ Δc = Δc
    exact List.nil_append Δc
  have htr5 : (st5Of fs config env tree.entries lmw).trace = Δc ++ Δu := by
    unfold st5Of
    rw [hΔu, htr4]
  refine ⟨(labyStep fs config env lm).1 ++
      (allDeleteIds fs tree.entries lmw).map (RAction.deleteP (lmw.id.getD "")),
    (st5Of fs config env tree.entries lmw).trace ++
      runLinks (st5Of fs config env tree.entries lmw)
        (pageIdMapOf fs config env tree.entries lmw)
        (connsOf fs config env tree.entries lmw),
    pid,
    { (findPage (preN.foldl (createOne fs env (lmw.id.getD "") (firstPageOf config))
          (st0Of fs tree.entries lmw)).pages name).meta with
        id := some pid
        hash := some (findPage (preN.foldl
          (createOne fs env (lmw.id.getD "") (firstPageOf config))
          (st0Of fs tree.entries lmw)).pages name).hash
        is_first := some ((firstPageOf config) = some name)
        is_ending := some ((findPage (preN.foldl
          (createOne fs env (lmw.id.getD "") (firstPageOf config))
          (st0Of fs tree.entries lmw)).pages name).json.is_ending.getD false) },
    ?_, ?_, ?_, ?_, ?_, ?_, ?_, rfl, hfresh _ pid hpid⟩
  · rw [hR, hmd]
    show (labyStep fs config env lm).1 ++
        ((allDeleteIds fs tree.entries lmw).map (RAction.deleteP (lmw.id.getD "")) ++
          (st5Of fs config env tree.entries lmw).trace ++
          runLinks (st5Of fs config env tree.entries lmw)
            (pageIdMapOf fs config env tree.entries lmw)
            (connsOf fs config env tree.entries lmw)) = _
    simp [List.append_assoc]
  · rw [List.count_append]
    have h0 : ((labyStep fs config env lm).1).count
        (RAction.deleteP (lmw.id.getD "") oldId) = 0 := by
      rcases labyStep_shape fs config env lm with h | h | ⟨l, h⟩ <;>
        rw [h, List.count_eq_zero] <;> intro hx <;> simp at hx
    rw [h0, count_map_deleteP, hdelCnt]
  · rw [List.countP_append]
    have h0 : ((labyStep fs config env lm).1).countP (isCreateOf name) = 0 := by
      rcases labyStep_shape fs config env lm with h | h | ⟨l, h⟩ <;>
        rw [h, List.countP_eq_zero] <;> intro a ha <;> simp at ha <;>
        simp [ha, isCreateOf]
    rw [h0, countP_map_deleteP_isCreateOf]
  · rw [List.countP_append]
    have hlinks : (runLinks (st5Of fs config env tree.entries lmw)
        (pageIdMapOf fs config env tree.entries lmw)
        (connsOf fs config env tree.entries lmw)).countP (isCreateOf name) = 0 := by
      rw [List.countP_eq_zero]
      intro a ha
      rcases runLinks_shape _ _ _ a ha with ⟨t, rfl⟩ | ⟨t, s', i', rfl⟩ | ⟨t, rfl⟩ <;>
        simp [isCreateOf]
    have h5c : ((st5Of fs config env tree.entries lmw).trace).countP (isCreateOf name)
        = 1 := by
      have hu := foldl_updateOne_countP_create fs env (firstPageOf config)
        (planOf fs tree.entries lmw).1.updatedPages name
        (st4Of fs config env tree.entries lmw)
      have h4 : ((st4Of fs config env tree.entries lmw).trace).countP (isCreateOf name)
          = 1 := by
        rw [hst4]
        rw [foldl_createOne_countP_absent fs env (lmw.id.getD "") (firstPageOf config)
          postN name hnotpost]
        obtain ⟨Δ₁, hΔ₁, hsh₁, hcnt₁⟩ := createOne_trace_delta fs env (lmw.id.getD "")
          (firstPageOf config)
          (preN.foldl (createOne fs env (lmw.id.getD "") (firstPageOf config))
            (st0Of fs tree.entries lmw)) name
        rw [hΔ₁, List.countP_append]
        rw [foldl_createOne_countP_absent fs env (lmw.id.getD "") (firstPageOf config)
          preN name hnotpre]
        rw [if_neg hhtml_pre] at hcnt₁
        rw [hcnt₁]
        rfl
      show ((st5Of fs config env tree.entries lmw).trace).countP (isCreateOf name) = 1
      unfold st5Of
      rw [hu, h4]
    rw [h5c, hlinks]
  · rw [List.count_append]
    have hlinks : (runLinks (st5Of fs config env tree.entries lmw)
        (pageIdMapOf fs config env tree.entries lmw)
        (connsOf fs config env tree.entries lmw)).count
        (RAction.deleteP (lmw.id.getD "") oldId) = 0 := by
      rw [List.count_eq_zero]
      intro ha
      rcases runLinks_shape _ _ _ _ ha with ⟨t, hp⟩ | ⟨t, s', i', hp⟩ | ⟨t, hp⟩ <;>
        exact RAction.noConfusion hp
    have h5 : ((st5Of fs config env tree.entries lmw).trace).count
        (RAction.deleteP (lmw.id.getD "") oldId) = 0 := by
      rw [htr5, List.count_eq_zero]
      intro hmem5
      rcases List.mem_append.1 hmem5 with h | h
      · rcases hshc _ h with ⟨p, hp⟩ | ⟨n, t, h0, -, hp⟩ <;> exact RAction.noConfusion hp
      · rcases hshu _ h with ⟨p, hp⟩ | ⟨pid', n, t, h0, -, hp⟩ <;>
          exact RAction.noConfusion hp
    rw [h5, hlinks]
  · rw [hR]
  · rw [hR, hmd]
    show (findEntry (st5Of fs config env tree.entries lmw).entries name).meta = _
    rw [hE5, hE4, hmidE, findEntry_setEntryMeta_self _ _ _ hcontains]

end Thelaby

namespace Thelaby

theorem recreate_missing_id_spec_witness :
    ∃ tr1 tr2 pid m',
      (reconcile demoFS demoCfg c5Env c5Tree).trace = tr1 ++ tr2 ∧
      tr1.count (RAction.deleteP ((labyStep demoFS demoCfg c5Env c5LM).2.id.getD "")
        "9") = 1 ∧
      tr1.countP (isCreateOf "p") = 0 ∧
      tr2.countP (isCreateOf "p") = 1 ∧
      tr2.count (RAction.deleteP ((labyStep demoFS demoCfg c5Env c5LM).2.id.getD "")
        "9") = 0 ∧
      (reconcile demoFS demoCfg c5Env c5Tree).abort = none ∧
      (findEntry (reconcile demoFS demoCfg c5Env c5Tree).tree.entries "p").meta =
        some m' ∧
      m'.id = some pid ∧ pid ≠ "9" :=
  recreate_missing_id_spec demoFS demoCfg c5Env c5Tree c5LM "p" "9"
    (by rfl) (by decide) (by decide) (by decide) (by decide)
    (by
      intro n hn
      have h2 : namesWithHtml c5Tree.entries = ["p"] := by decide
      rw [h2] at hn
      rcases List.mem_singleton.1 hn with rfl
      decide)
    (by decide) (by decide)
    (by decide) (by decide) (by decide)
    (by
      intro n' hn h
      have hm : metasOf c5Tree.entries n' = {} := by
        unfold metasOf findEntry
        simp only [c5Tree, List.find?_cons, List.find?_nil]
        rw [show decide ("p" = n') = false from
          decide_eq_false (fun hc => hn hc.symm)]
        rfl
      rw [hm] at h
      exact Option.noConfusion h)
    (by decide) (by decide)
    (fun k => ⟨"42", rfl⟩)
    (by intro k pid h; cases h; decide)

end Thelaby

namespace Thelaby

theorem linkState_sets_exact (env : Env) (hok : ∀ t s i, env.connectOk t s i = true)
    (t : String) (cs : List Conn) :
    ∀ (init : List (String × List Conn)) (l : List Conn),
      lookupAssoc init t = some l →
      lookupAssoc (linkStateAfter env init
        (cs.map (fun c => RAction.setParentConnection t c.fromPageId c.answerIndex))) t =
        some (l ++ cs) ∧
      ∀ t', t' ≠ t →
        lookupAssoc (linkStateAfter env init
          (cs.map (fun c => RAction.setParentConnection t c.fromPageId c.answerIndex)))
          t' = lookupAssoc init t' := by
  induction cs with
  | nil =>
      intro init l hl
      refine ⟨?_, fun t' ht' => rfl⟩
      rw [List.map_nil]
      show lookupAssoc init t = some (l ++ [])
      rw [List.append_nil]
      exact hl
  | cons c rest ih =>
      intro init l hl
      have hstep : applyLinkAction env init
          (RAction.setParentConnection t c.fromPageId c.answerIndex) =
          setAssoc init t (l ++ [c]) := by
        show (if env.connectOk t c.fromPageId c.answerIndex then
          setAssoc init t ((lookupAssoc init t).getD [] ++ [⟨c.fromPageId, c.answerIndex⟩])
          else init) = _
        rw [if_pos (hok t c.fromPageId c.answerIndex), hl]
        rfl
      obtain ⟨ih1, ih2⟩ := ih (setAssoc init t (l ++ [c])) (l ++ [c])
        (lookupAssoc_setAssoc_self init t (l ++ [c]))
      rw [List.map_cons]
      constructor
      · show lookupAssoc (linkStateAfter env (applyLinkAction env init _) _) t = _
        rw [hstep, ih1]
        simp
      · intro t' ht'
        show lookupAssoc (linkStateAfter env (applyLinkAction env init _) _) t' = _
        rw [hstep, ih2 t' ht', lookupAssoc_setAssoc_ne _ _ _ _ ht']

theorem linkState_segment (env : Env) (hok : ∀ t s i, env.connectOk t s i = true)
    (st : PState) (pim : List (String × String)) (tc : String × List Conn)
    (init : List (String × List Conn)) :
    lookupAssoc (linkStateAfter env init
      ([RAction.clearParentConnections tc.1] ++
       tc.2.map (fun c => RAction.setParentConnection tc.1 c.fromPageId c.answerIndex) ++
       (match lookupAssoc st.finalHtml
          ((((pim.find? (fun p => p.2 = tc.1)).map (fun p => p.1))).getD tc.1) with
        | some _ => [RAction.setEditorContent tc.1]
        | none => []))) tc.1 = some tc.2 ∧
    ∀ t', t' ≠ tc.1 →
      lookupAssoc (linkStateAfter env init
        ([RAction.clearParentConnections tc.1] ++
         tc.2.map (fun c => RAction.setParentConnection tc.1 c.fromPageId c.answerIndex) ++
         (match lookupAssoc st.finalHtml
            ((((pim.find? (fun p => p.2 = tc.1)).map (fun p => p.1))).getD tc.1) with
          | some _ => [RAction.setEditorContent tc.1]
          | none => []))) t' = lookupAssoc init t' := by
  have hclear : applyLinkAction env init (RAction.clearParentConnections tc.1) =
      setAssoc init tc.1 [] := rfl
  obtain ⟨h1, h2⟩ := linkState_sets_exact env hok tc.1 tc.2
    (setAssoc init tc.1 []) [] (lookupAssoc_setAssoc_self init tc.1 [])
  have heds : ∀ (s : List (String × List Conn)),
      linkStateAfter env s
        (match lookupAssoc st.finalHtml
          ((((pim.find? (fun p => p.2 = tc.1)).map (fun p => p.1))).getD tc.1) with
         | some _ => [RAction.setEditorContent tc.1]
         | none => []) = s := by
    intro s
    cases lookupAssoc st.finalHtml
        ((((pim.find? (fun p => p.2 = tc.1)).map (fun p => p.1))).getD tc.1) with
    | none => rfl
    | some v => rfl
  constructor
  · show lookupAssoc (linkStateAfter env init (_ ++ _)) tc.1 = _
    unfold linkStateAfter
    unfold linkStateAfter at heds
    rw [List.foldl_append, List.foldl_append, heds]
    show lookupAssoc (linkStateAfter env (applyLinkAction env init
      (RAction.clearParentConnections tc.1))
      (tc.2.map (fun c => RAction.setParentConnection tc.1 c.fromPageId c.answerIndex)))
      tc.1 = some tc.2
    rw [hclear, h1]
    rfl
  · intro t' ht'
    show lookupAssoc (linkStateAfter env init (_ ++ _)) t' = _
    unfold linkStateAfter
    unfold linkStateAfter at heds
    rw [List.foldl_append, List.foldl_append, heds]
    show lookupAssoc (linkStateAfter env (applyLinkAction env init
      (RAction.clearParentConnections tc.1))
      (tc.2.map (fun c => RAction.setParentConnection tc.1 c.fromPageId c.answerIndex)))
      t' = _
    rw [hclear, h2 t' ht', lookupAssoc_setAssoc_ne _ _ _ _ ht']

end Thelaby

namespace Thelaby

theorem foldl_preserve {α β : Type} (f : β → α → β) (P : β → Prop)
    (hstep : ∀ b a, P b → P (f b a)) : ∀ (l : List α) (b : β), P b → P (l.foldl f b) := by
  intro l
  induction l with
  | nil => intro b hb; exact hb
  | cons a rest ih => intro b hb; exact ih (f b a) (hstep b a hb)

theorem pushConn_keys (l : List (String × List Conn)) (k : String) (c : Conn) :
    (pushConn l k c).map (fun p => p.1) =
      if l.any (fun p => p.1 = k) then l.map (fun p => p.1)
      else l.map (fun p => p.1) ++ [k] := by
  unfold pushConn
  by_cases ha : l.any (fun p => p.1 = k) = true
  · rw [if_pos ha, if_pos ha, List.map_map]
    apply List.map_congr_left
    intro p hp
    by_cases hk : p.1 = k <;> simp [Function.comp, hk]
  · rw [if_neg ha, if_neg ha, List.map_append]
    rfl

theorem pushConn_keys_nodup (l : List (String × List Conn)) (k : String) (c : Conn)
    (h : (l.map (fun p => p.1)).Nodup) :
    ((pushConn l k c).map (fun p => p.1)).Nodup := by
  rw [pushConn_keys]
  by_cases ha : l.any (fun p => p.1 = k) = true
  · rw [if_pos ha]; exact h
  · rw [if_neg ha]
    refine List.Nodup.append h (List.nodup_singleton k) ?_
    rw [List.disjoint_singleton]
    intro hk
    rcases List.mem_map.1 hk with ⟨p, hp, hpk⟩
    rw [Bool.not_eq_true, List.any_eq_false] at ha
    exact absurd (by simpa using hpk) (by simpa using ha p hp)

theorem buildConnections_keys_nodup (pages : List (String × PageRec))
    (pim : List (String × String)) (newP updP : List String) :
    ((buildConnections pages pim newP updP).map (fun p => p.1)).Nodup := by
  simp only [buildConnections]
  refine foldl_preserve _
    (fun l : List (String × List Conn) => (l.map (fun p => p.1)).Nodup) ?_ pages []
    (by simp)
  intro b pr hb
  cases truthyVal pr.2.meta.id with
  | none => exact hb
  | some fromId =>
      refine foldl_preserve _
        (fun l : List (String × List Conn) => (l.map (fun p => p.1)).Nodup) ?_
        ((pr.2.json.answers.getD []).enum) b hb
      intro b2 ia hb2
      split
      · split
        · split
          · exact pushConn_keys_nodup _ _ _ hb2
          · exact hb2
        · exact hb2
      · exact hb2

end Thelaby

namespace Thelaby

/-- C6, amended.  Clear-then-set: over the link phase's trace, every target id
in the computed edge map has its stored predecessor set replaced by exactly
the freshly computed edge list (not appended), and every other target's
stored set is untouched.  A target that lost its last qualifying incoming
edge is not in the map, so its stale stored set survives — the spec's
"becomes empty" scenario does not hold. -/
theorem link_clear_then_set (env : Env) (hok : ∀ t s i, env.connectOk t s i = true)
    (st : PState) (pim : List (String × String)) (pages : List (String × PageRec))
    (newP updP : List String) (init : List (String × List Conn)) :
    (∀ tc ∈ buildConnections pages pim newP updP,
      lookupAssoc (linkStateAfter env init
        (runLinks st pim (buildConnections pages pim newP updP))) tc.1 = some tc.2) ∧
    (∀ t, t ∉ (buildConnections pages pim newP updP).map (fun p => p.1) →
      lookupAssoc (linkStateAfter env init
        (runLinks st pim (buildConnections pages pim newP updP))) t =
      lookupAssoc init t) := by
  have hgen : ∀ (conns : List (String × List Conn)),
      ((conns.map (fun p => p.1)).Nodup) → ∀ init : List (String × List Conn),
      (∀ tc ∈ conns,
        lookupAssoc (linkStateAfter env init (runLinks st pim conns)) tc.1 = some tc.2) ∧
      (∀ t, t ∉ conns.map (fun p => p.1) →
        lookupAssoc (linkStateAfter env init (runLinks st pim conns)) t =
        lookupAssoc init t) := by
    intro conns
    induction conns with
    | nil =>
        intro h0 init
        exact ⟨fun tc htc => absurd htc (List.not_mem_nil tc), fun t ht => rfl⟩
    | cons tc rest ih =>
        intro hnd init
        rw [List.map_cons, List.nodup_cons] at hnd
        obtain ⟨hko, hndr⟩ := hnd
        obtain ⟨hseg1, hseg2⟩ := linkState_segment env hok st pim tc init
        have hsplit : runLinks st pim (tc :: rest) =
            ([RAction.clearParentConnections tc.1] ++
             tc.2.map (fun c =>
               RAction.setParentConnection tc.1 c.fromPageId c.answerIndex) ++
             (match lookupAssoc st.finalHtml
                ((((pim.find? (fun p => p.2 = tc.1)).map (fun p => p.1))).getD tc.1) with
              | some _ => [RAction.setEditorContent tc.1]
              | none => [])) ++ runLinks st pim rest := by
          rw [runLinks, List.flatMap_cons]
          rfl
        have hafter : ∀ l1 l2 : List RAction,
            linkStateAfter env init (l1 ++ l2) =
            linkStateAfter env (linkStateAfter env init l1) l2 := by
          intro l1 l2
          unfold linkStateAfter
          rw [List.foldl_append]
        obtain ⟨ih1, ih2⟩ := ih hndr (linkStateAfter env init
          ([RAction.clearParentConnections tc.1] ++
           tc.2.map (fun c =>
             RAction.setParentConnection tc.1 c.fromPageId c.answerIndex) ++
           (match lookupAssoc st.finalHtml
              ((((pim.find? (fun p => p.2 = tc.1)).map (fun p => p.1))).getD tc.1) with
            | some _ => [RAction.setEditorContent tc.1]
            | none => [])))
        constructor
        · intro tc' htc'
          rcases List.mem_cons.1 htc' with rfl | htc'
          · rw [hsplit, hafter, ih2 tc'.1 (by simpa using hko)]
            exact hseg1
          · rw [hsplit, hafter]
            exact ih1 tc' htc'
        · intro t ht
          rw [List.map_cons, List.mem_cons] at ht
          push_neg at ht
          rw [hsplit, hafter, ih2 t ht.2]
          exact hseg2 t ht.1
  exact hgen (buildConnections pages pim newP updP)
    (buildConnections_keys_nodup pages pim newP updP) init

end Thelaby

namespace Thelaby

/-- Counterexample to C6's convergence scenario: after run 1, B's stored
predecessor set is exactly {(A's id "100", answer 1)}; removing A's answer
locally and re-running leaves B's stored set unchanged — it does NOT become
empty, because a target with no qualifying incoming edge is never visited by
the link phase, so its stale stored set survives. -/
theorem link_convergence_cex :
    lookupAssoc c6State1 "101" = some [⟨"100", 1⟩] ∧
    c6Run2.abort = none ∧
    c6Run2.trace ≠ [] ∧
    lookupAssoc c6State2 "101" = some [⟨"100", 1⟩] ∧
    ¬ lookupAssoc c6State2 "101" = some [] := by
  decide

end Thelaby

namespace Thelaby

theorem link_clear_then_set_witness :
    (∀ tc ∈ buildConnections linkWPages linkWPim ["A", "B"] [],
      lookupAssoc (linkStateAfter demoEnv []
        (runLinks linkWSt linkWPim (buildConnections linkWPages linkWPim ["A", "B"] [])))
        tc.1 = some tc.2) ∧
    (∀ t, t ∉ (buildConnections linkWPages linkWPim ["A", "B"] []).map (fun p => p.1) →
      lookupAssoc (linkStateAfter demoEnv []
        (runLinks linkWSt linkWPim (buildConnections linkWPages linkWPim ["A", "B"] [])))
        t = lookupAssoc ([] : List (String × List Conn)) t) :=
  link_clear_then_set demoEnv (fun t s i => rfl) linkWSt linkWPim linkWPages
    ["A", "B"] [] []

end Thelaby

namespace Thelaby

theorem truthyVal_some_ne_empty (o : Option String) (s : String)
    (h : truthyVal o = some s) : s ≠ "" ∧ truthyVal (some s) = some s := by
  cases o with
  | none => exact Option.noConfusion h
  | some v =>
      by_cases hv : v = ""
      · rw [truthyVal, if_pos hv] at h
        exact Option.noConfusion h
      · rw [truthyVal, if_neg hv] at h
        cases h
        exact ⟨hv, by rw [truthyVal, if_neg hv]⟩

theorem metaOnly_refl (entries : List (String × Entry)) : MetaOnly entries entries := by
  refine ⟨fun _ e => e.meta, ?_⟩
  induction entries with
  | nil => rfl
  | cons pe rest ih => rw [List.map_cons, ← ih]

theorem metaOnly_trans (a b c : List (String × Entry))
    (h1 : MetaOnly a b) (h2 : MetaOnly b c) : MetaOnly a c := by
  obtain ⟨f, rfl⟩ := h1
  obtain ⟨g, rfl⟩ := h2
  refine ⟨fun n e => g n { e with meta := f n e }, ?_⟩
  rw [List.map_map]
  rfl

theorem metaOnly_clearAllMetas (entries : List (String × Entry)) :
    MetaOnly entries (clearAllMetas entries) :=
  ⟨fun _ _ => none, rfl⟩

theorem metaOnly_deleteMetasFor (entries : List (String × Entry)) (names : List String) :
    MetaOnly entries (deleteMetasFor entries names) := by
  refine ⟨fun n e => if names.contains n then none else e.meta, ?_⟩
  rw [deleteMetasFor]
  apply List.map_congr_left
  intro pe hpe
  by_cases hc : names.contains pe.1 = true
  · rw [if_pos hc]
    show (pe.1, _) = (pe.1, { pe.2 with meta := if names.contains pe.1 then none else pe.2.meta })
    rw [if_pos hc]
  · rw [if_neg hc]
    show pe = (pe.1, { pe.2 with meta := if names.contains pe.1 then none else pe.2.meta })
    rw [if_neg hc]

theorem metaOnly_setEntryMeta (entries : List (String × Entry)) (name : String)
    (m : Option MetaRec) : MetaOnly entries (setEntryMeta entries name m) := by
  refine ⟨fun n e => if n = name then m else e.meta, ?_⟩
  rw [setEntryMeta]
  apply List.map_congr_left
  intro pe hpe
  by_cases hc : pe.1 = name
  · rw [if_pos hc]
    show (pe.1, _) = (pe.1, { pe.2 with meta := if pe.1 = name then m else pe.2.meta })
    rw [if_pos hc]
  · rw [if_neg hc]
    show pe = (pe.1, { pe.2 with meta := if pe.1 = name then m else pe.2.meta })
    rw [if_neg hc]

theorem metaOnly_createOne (entries0 : List (String × Entry)) (fs : FS) (env : Env)
    (labyId : String) (fp : Option String) (st : PState) (name : String)
    (h : MetaOnly entries0 st.entries) :
    MetaOnly entries0 (createOne fs env labyId fp st name).entries := by
  by_cases hh : (findPage st.pages name).html = ""
  · rw [createOne_skip fs env labyId fp st name hh]
    exact h
  · cases htv : truthyVal (env.createId st.createCount) with
    | none =>
        rw [(createOne_fail fs env labyId fp st name hh htv).1]
        exact h
    | some pid =>
        rw [(createOne_success fs env labyId fp st name pid hh htv).1]
        exact metaOnly_trans _ _ _ h (metaOnly_setEntryMeta _ _ _)

theorem metaOnly_updateOne (entries0 : List (String × Entry)) (fs : FS) (env : Env)
    (fp : Option String) (st : PState) (name : String)
    (h : MetaOnly entries0 st.entries) :
    MetaOnly entries0 (updateOne fs env fp st name).entries := by
  cases htv : truthyVal (findPage st.pages name).meta.id with
  | none =>
      rw [updateOne_skip fs env fp st name htv]
      exact h
  | some pid =>
      by_cases hh : (findPage st.pages name).html = ""
      · have : updateOne fs env fp st name = st := by
          simp only [updateOne]
          rw [htv]
          simp only [if_pos hh]
        rw [this]
        exact h
      · rw [(updateOne_success fs env fp st name pid htv hh).1]
        exact metaOnly_trans _ _ _ h (metaOnly_setEntryMeta _ _ _)

theorem metaOnly_foldl_createOne (entries0 : List (String × Entry)) (fs : FS) (env : Env)
    (labyId : String) (fp : Option String) (names : List String) (st : PState)
    (h : MetaOnly entries0 st.entries) :
    MetaOnly entries0 ((names.foldl (createOne fs env labyId fp) st).entries) := by
  refine foldl_preserve _ (fun st : PState => MetaOnly entries0 st.entries) ?_ names st h
  intro b a hb
  exact metaOnly_createOne entries0 fs env labyId fp b a hb

theorem metaOnly_foldl_updateOne (entries0 : List (String × Entry)) (fs : FS) (env : Env)
    (fp : Option String) (names : List String) (st : PState)
    (h : MetaOnly entries0 st.entries) :
    MetaOnly entries0 ((names.foldl (updateOne fs env fp) st).entries) := by
  refine foldl_preserve _ (fun st : PState => MetaOnly entries0 st.entries) ?_ names st h
  intro b a hb
  exact metaOnly_updateOne entries0 fs env fp b a hb

end Thelaby

namespace Thelaby

theorem loadPages_cons (fs : FS) (pe : String × Entry) (rest : List (String × Entry)) :
    loadPages fs (pe :: rest) = loadPages fs [pe] ++ loadPages fs rest := by
  unfold loadPages
  show List.filterMap _ ([pe] ++ rest) = _
  rw [List.filterMap_append]

theorem loadPages_single_quad (fs : FS) (n : String) (e : Entry) (X : Option MetaRec) :
    (loadPages fs [(n, { e with meta := X })]).map
      (fun p => (p.1, p.2.html, p.2.json, p.2.hash)) =
    (loadPages fs [(n, e)]).map (fun p => (p.1, p.2.html, p.2.json, p.2.hash)) := by
  cases he : e.html with
  | none => simp [loadPages, he]
  | some hs =>
      cases hj : e.json with
      | none => simp [loadPages, he, hj]
      | some jv =>
          by_cases hemp : hs = ""
          · simp [loadPages, he, hj, hemp]
          · simp [loadPages, he, hj, hemp]

theorem loadPages_metaOnly (fs : FS) (entries entries' : List (String × Entry))
    (h : MetaOnly entries entries') :
    (loadPages fs entries').map (fun p => (p.1, p.2.html, p.2.json, p.2.hash)) =
    (loadPages fs entries).map (fun p => (p.1, p.2.html, p.2.json, p.2.hash)) := by
  obtain ⟨f, rfl⟩ := h
  induction entries with
  | nil => rfl
  | cons pe rest ih =>
      rw [List.map_cons, loadPages_cons, loadPages_cons fs pe rest,
        List.map_append, List.map_append, ih, loadPages_single_quad]

end Thelaby

namespace Thelaby

theorem validateAllPages_congr (l₁ l₂ : List (String × PageRec))
    (h : l₁.map (fun p => (p.1, p.2.json)) = l₂.map (fun p => (p.1, p.2.json))) :
    validateAllPages l₁ = validateAllPages l₂ := by
  have key : ∀ (l : List (String × PageRec)) (N : List String),
      l.flatMap (fun p => validatePageJson p.1 p.2.json N) =
      (l.map (fun p => (p.1, p.2.json))).flatMap (fun q => validatePageJson q.1 q.2 N) := by
    intro l N
    induction l with
    | nil => rfl
    | cons p rest ih => rw [List.map_cons, List.flatMap_cons, List.flatMap_cons, ih]
  have hnames : l₁.map (fun p => p.1) = l₂.map (fun p => p.1) := by
    have h2 := congrArg (List.map (fun q : String × PageJson => q.1)) h
    rw [List.map_map, List.map_map] at h2
    exact h2
  rw [validateAllPages, validateAllPages, hnames, key l₁, key l₂, h]

theorem firstPageBad_congr (config : Config) (l₁ l₂ : List (String × PageRec))
    (h : l₁.map (fun p => p.1) = l₂.map (fun p => p.1)) :
    firstPageBad config l₁ = firstPageBad config l₂ := by
  rw [firstPageBad, firstPageBad, h]

theorem quad_names (l₁ l₂ : List (String × PageRec))
    (h : l₁.map (fun p => (p.1, p.2.html, p.2.json, p.2.hash)) =
      l₂.map (fun p => (p.1, p.2.html, p.2.json, p.2.hash))) :
    l₁.map (fun p => p.1) = l₂.map (fun p => p.1) := by
  have h2 := congrArg (List.map
    (fun q : String × String × PageJson × String => q.1)) h
  rw [List.map_map, List.map_map] at h2
  exact h2

theorem quad_json (l₁ l₂ : List (String × PageRec))
    (h : l₁.map (fun p => (p.1, p.2.html, p.2.json, p.2.hash)) =
      l₂.map (fun p => (p.1, p.2.html, p.2.json, p.2.hash))) :
    l₁.map (fun p => (p.1, p.2.json)) = l₂.map (fun p => (p.1, p.2.json)) := by
  have h2 := congrArg (List.map
    (fun q : String × String × PageJson × String => (q.1, q.2.2.1))) h
  rw [List.map_map, List.map_map] at h2
  exact h2

theorem findPage_quad_congr (n : String) :
    ∀ (l₁ l₂ : List (String × PageRec)),
      l₁.map (fun p => (p.1, p.2.html, p.2.json, p.2.hash)) =
        l₂.map (fun p => (p.1, p.2.html, p.2.json, p.2.hash)) →
      (findPage l₁ n).html = (findPage l₂ n).html ∧
      (findPage l₁ n).json = (findPage l₂ n).json ∧
      (findPage l₁ n).hash = (findPage l₂ n).hash := by
  intro l₁
  induction l₁ with
  | nil =>
      intro l₂ h
      cases l₂ with
      | nil => exact ⟨rfl, rfl, rfl⟩
      | cons q r => exact List.noConfusion h
  | cons p rest ih =>
      intro l₂ h
      cases l₂ with
      | nil => exact List.noConfusion h
      | cons q r =>
          rw [List.map_cons, List.map_cons] at h
          have hhead := (List.cons.inj h).1
          have htail := (List.cons.inj h).2
          have hk : p.1 = q.1 := (Prod.mk.inj hhead).1
          have hfields := (Prod.mk.inj hhead).2
          by_cases hn : p.1 = n
          · have hqn : q.1 = n := hk ▸ hn
            rw [findPage, findPage, lookupAssoc, lookupAssoc,
              List.find?_cons_of_pos _ (by simpa using hn),
              List.find?_cons_of_pos _ (by simpa using hqn)]
            refine ⟨?_, ?_, ?_⟩
            · exact (Prod.mk.inj hfields).1
            · exact (Prod.mk.inj (Prod.mk.inj hfields).2).1
            · exact (Prod.mk.inj (Prod.mk.inj hfields).2).2
          · have hqn : ¬ (q.1 = n) := fun hq => hn (hk ▸ hq)
            rw [findPage, findPage, lookupAssoc, lookupAssoc,
              List.find?_cons_of_neg _ (by simpa using hn),
              List.find?_cons_of_neg _ (by simpa using hqn)]
            exact ih r htail

end Thelaby

namespace Thelaby

theorem metaOnly_names (entries entries' : List (String × Entry))
    (h : MetaOnly entries entries') :
    entries'.map (fun p => p.1) = entries.map (fun p => p.1) ∧
    namesWithHtml entries' = namesWithHtml entries ∧
    namesWithJson entries' = namesWithJson entries := by
  obtain ⟨f, rfl⟩ := h
  refine ⟨?_, ?_, ?_⟩
  · rw [List.map_map]
    rfl
  · rw [namesWithHtml, namesWithHtml]
    induction entries with
    | nil => rfl
    | cons pe rest ih =>
        rw [List.map_cons, List.filter_cons, List.filter_cons]
        dsimp only
        by_cases hh : pe.2.html.isSome = true
        · rw [if_pos hh, if_pos hh, List.map_cons, List.map_cons, ih]
        · rw [if_neg hh, if_neg hh, ih]
  · rw [namesWithJson, namesWithJson]
    induction entries with
    | nil => rfl
    | cons pe rest ih =>
        rw [List.map_cons, List.filter_cons, List.filter_cons]
        dsimp only
        by_cases hh : pe.2.json.isSome = true
        · rw [if_pos hh, if_pos hh, List.map_cons, List.map_cons, ih]
        · rw [if_neg hh, if_neg hh, ih]

theorem findEntry_cases (entries : List (String × Entry)) (n : String) :
    (entries.find? (fun p => p.1 = n) = none ∧ findEntry entries n = {}) ∨
    ∃ pr ∈ entries, pr.1 = n ∧ findEntry entries n = pr.2 := by
  cases hf : entries.find? (fun p => p.1 = n) with
  | none => exact Or.inl ⟨rfl, by rw [findEntry, hf]; rfl⟩
  | some pr =>
      refine Or.inr ⟨pr, List.mem_of_find?_eq_some hf, ?_, by rw [findEntry, hf]; rfl⟩
      have := List.find?_some hf
      simpa using this

theorem mem_namesWithMeta_of_meta (entries : List (String × Entry)) (n : String)
    (m : MetaRec) (h : (findEntry entries n).meta = some m) :
    n ∈ namesWithMeta entries := by
  rcases findEntry_cases entries n with ⟨-, he⟩ | ⟨pr, hpr, hk, he⟩
  · rw [he] at h
    exact Option.noConfusion h
  · rw [he] at h
    rw [namesWithMeta]
    refine List.mem_map.2 ⟨pr, List.mem_filter.2 ⟨hpr, ?_⟩, hk⟩
    rw [h]
    rfl

theorem mem_namesWithMeta_of_tid (entries : List (String × Entry)) (n : String)
    (i : String) (h : truthyVal (metasOf entries n).id = some i) :
    n ∈ namesWithMeta entries := by
  cases hm : (findEntry entries n).meta with
  | none =>
      rw [metasOf, hm] at h
      exact Option.noConfusion h
  | some m => exact mem_namesWithMeta_of_meta entries n m hm

theorem findEntry_unique (entries : List (String × Entry))
    (hnod : (entries.map (fun p => p.1)).Nodup) (n : String) :
    ∀ pr ∈ entries, pr.1 = n → findEntry entries n = pr.2 := by
  induction entries with
  | nil => intro pr hpr; exact absurd hpr (List.not_mem_nil pr)
  | cons q rest ih =>
      rw [List.map_cons, List.nodup_cons] at hnod
      intro pr hpr hk
      rcases List.mem_cons.1 hpr with rfl | hpr'
      · rw [findEntry, List.find?_cons_of_pos _ (by simpa using hk)]
        rfl
      · have hq : ¬ (q.1 = n) := by
          intro hq
          exact hnod.1 (hq ▸ hk ▸ List.mem_map.2 ⟨pr, hpr', rfl⟩)
        rw [findEntry, List.find?_cons_of_neg _ (by simpa using hq)]
        rw [findEntry] at ih
        exact ih hnod.2 pr hpr' hk

theorem findEntry_html_of_mem (entries : List (String × Entry))
    (hnod : (entries.map (fun p => p.1)).Nodup) (n : String)
    (h : n ∈ namesWithHtml entries) : ((findEntry entries n).html).isSome = true := by
  rw [namesWithHtml] at h
  rcases List.mem_map.1 h with ⟨pr, hpr, rfl⟩
  rw [findEntry_unique entries hnod pr.1 pr (List.mem_filter.1 hpr).1 rfl]
  exact (List.mem_filter.1 hpr).2

theorem findEntry_json_of_mem (entries : List (String × Entry))
    (hnod : (entries.map (fun p => p.1)).Nodup) (n : String)
    (h : n ∈ namesWithJson entries) : ((findEntry entries n).json).isSome = true := by
  rw [namesWithJson] at h
  rcases List.mem_map.1 h with ⟨pr, hpr, rfl⟩
  rw [findEntry_unique entries hnod pr.1 pr (List.mem_filter.1 hpr).1 rfl]
  exact (List.mem_filter.1 hpr).2

theorem findEntry_meta_of_mem (entries : List (String × Entry))
    (hnod : (entries.map (fun p => p.1)).Nodup) (n : String)
    (h : n ∈ namesWithMeta entries) : ((findEntry entries n).meta).isSome = true := by
  rw [namesWithMeta] at h
  rcases List.mem_map.1 h with ⟨pr, hpr, rfl⟩
  rw [findEntry_unique entries hnod pr.1 pr (List.mem_filter.1 hpr).1 rfl]
  exact (List.mem_filter.1 hpr).2

theorem mem_namesWithHtml_of_html (entries : List (String × Entry)) (n : String)
    (h : ((findEntry entries n).html).isSome = true) : n ∈ namesWithHtml entries := by
  rcases findEntry_cases entries n with ⟨-, he⟩ | ⟨pr, hpr, hk, he⟩
  · rw [he] at h
    exact Bool.noConfusion h
  · rw [he] at h
    rw [namesWithHtml]
    exact List.mem_map.2 ⟨pr, List.mem_filter.2 ⟨hpr, h⟩, hk⟩

theorem mem_namesWithJson_of_json (entries : List (String × Entry)) (n : String)
    (h : ((findEntry entries n).json).isSome = true) : n ∈ namesWithJson entries := by
  rcases findEntry_cases entries n with ⟨-, he⟩ | ⟨pr, hpr, hk, he⟩
  · rw [he] at h
    exact Bool.noConfusion h
  · rw [he] at h
    rw [namesWithJson]
    exact List.mem_map.2 ⟨pr, List.mem_filter.2 ⟨hpr, h⟩, hk⟩

end Thelaby

namespace Thelaby

theorem labyStep_id_hash (fs : FS) (config : Config) (env : Env) (lm0 : LabyMeta)
    (henv : env.labyCreateId ≠ "") :
    truthyS (labyStep fs config env lm0).2.id = true ∧
    (labyStep fs config env lm0).2.hash = some (computeLabyrinthHash fs config) := by
  rw [labyStep]
  by_cases h1 : truthyS lm0.id
  · rw [if_neg (by simpa using h1)]
    by_cases h2 : lm0.hash ≠ some (computeLabyrinthHash fs config)
    · rw [if_pos h2]
      exact ⟨h1, rfl⟩
    · rw [if_neg h2]
      exact ⟨h1, not_not.1 h2⟩
  · rw [if_pos (by simpa using h1)]
    refine ⟨?_, rfl⟩
    show truthyS (some env.labyCreateId) = true
    rw [truthyS]
    simpa using henv

theorem findPage_loadPages (fs : FS) (n : String) (h0 : String) (j : PageJson) :
    ∀ (entries : List (String × Entry)),
      (entries.map (fun p => p.1)).Nodup →
      (findEntry entries n).html = some h0 → h0 ≠ "" →
      (findEntry entries n).json = some j →
      n ∈ entries.map (fun p => p.1) →
      findPage (loadPages fs entries) n =
        ⟨h0, j, ((findEntry entries n).meta).getD {},
         computePageHash h0 (pageJsonToJVal j)
           ((dedupL (pageImagePaths fs h0 (j.answers.getD []))).map
             (fun p => calculateChecksum (fs.fileBytes p)))⟩ := by
  intro entries
  induction entries with
  | nil =>
      intro _ _ _ _ hmem
      simp at hmem
  | cons pe rest ih =>
      intro hnod hh hne hj hmem
      rw [List.map_cons, List.nodup_cons] at hnod
      by_cases hk : pe.1 = n
      · have hfe : findEntry (pe :: rest) n = pe.2 := by
          rw [findEntry, List.find?_cons_of_pos _ (by simpa using hk)]
          rfl
        rw [hfe] at hh hj
        rw [hfe, loadPages_cons]
        have hload : loadPages fs [pe] = [(pe.1,
            ⟨h0, j, pe.2.meta.getD {},
             computePageHash h0 (pageJsonToJVal j)
               ((dedupL (pageImagePaths fs h0 (j.answers.getD []))).map
                 (fun p => calculateChecksum (fs.fileBytes p)))⟩)] := by
          rw [loadPages]
          rw [List.filterMap]
          simp [hh, hj, hne]
        rw [hload, List.singleton_append]
        rw [findPage, lookupAssoc, List.find?_cons_of_pos _ (by simpa using hk)]
        rfl
      · have hfe : findEntry (pe :: rest) n = findEntry rest n := by
          rw [findEntry, findEntry, List.find?_cons_of_neg _ (by simpa using hk)]
        rw [hfe] at hh hj
        have hmem' : n ∈ rest.map (fun p => p.1) := by
          rcases List.mem_cons.1 hmem with h | h
          · exact absurd h.symm hk
          · exact h
        rw [hfe, loadPages_cons]
        have hside : loadPages fs [pe] = [] ∨
            ∃ X, loadPages fs [pe] = [(pe.1, X)] := by
          cases hph : pe.2.html with
          | none => exact Or.inl (by simp [loadPages, hph])
          | some hs =>
              cases hpj : pe.2.json with
              | none => exact Or.inl (by simp [loadPages, hph, hpj])
              | some jv =>
                  by_cases hemp : hs = ""
                  · exact Or.inl (by simp [loadPages, hph, hpj, hemp])
                  · exact Or.inr ⟨⟨hs, jv, pe.2.meta.getD {},
                      computePageHash hs (pageJsonToJVal jv)
                        ((dedupL (pageImagePaths fs hs (jv.answers.getD []))).map
                          (fun p => calculateChecksum (fs.fileBytes p)))⟩,
                      by simp [loadPages, hph, hpj, hemp]⟩
        have hfp : ∀ l2 : List (String × PageRec),
            findPage (loadPages fs [pe] ++ l2) n = findPage l2 n := by
          intro l2
          rcases hside with hc | ⟨X, hc⟩
          · rw [hc]
            rfl
          · rw [hc, List.singleton_append, findPage, findPage, lookupAssoc, lookupAssoc,
              List.find?_cons_of_neg _ (by simpa using hk)]
        rw [hfp]
        exact ih hnod.2 hh hne hj hmem'

end Thelaby

namespace Thelaby

theorem findEntry_deleteMetasFor_mem (names : List String) (n : String)
    (hc : names.contains n = true) :
    ∀ entries : List (String × Entry),
      findEntry (deleteMetasFor entries names) n = { findEntry entries n with meta := none } := by
  intro entries
  induction entries with
  | nil => rfl
  | cons pe rest ih =>
      by_cases hk : pe.1 = n
      · rw [deleteMetasFor, List.map_cons]
        rw [show (if names.contains pe.1 then (pe.1, { pe.2 with meta := none }) else pe)
            = (pe.1, { pe.2 with meta := none }) from by rw [if_pos (hk ▸ hc)]]
        rw [findEntry, List.find?_cons_of_pos _ (by simpa using hk),
          findEntry, List.find?_cons_of_pos _ (by simpa using hk)]
        rfl
      · rw [deleteMetasFor, List.map_cons]
        have hkey : (if names.contains pe.1 then (pe.1, { pe.2 with meta := none })
            else pe).1 = pe.1 := by
          by_cases hc2 : names.contains pe.1 = true
          · rw [if_pos hc2]
          · rw [if_neg hc2]
        rw [findEntry, List.find?_cons_of_neg _ (by rw [hkey]; simpa using hk),
          findEntry, List.find?_cons_of_neg _ (by simpa using hk)]
        rw [findEntry, findEntry] at ih
        exact ih

theorem findEntry_deleteMetasFor_notmem (names : List String) (n : String)
    (hc : names.contains n = false) :
    ∀ entries : List (String × Entry),
      findEntry (deleteMetasFor entries names) n = findEntry entries n := by
  intro entries
  induction entries with
  | nil => rfl
  | cons pe rest ih =>
      by_cases hk : pe.1 = n
      · rw [deleteMetasFor, List.map_cons]
        rw [show (if names.contains pe.1 then (pe.1, { pe.2 with meta := none }) else pe)
            = pe from by rw [if_neg (by rw [hk, hc]; exact Bool.false_ne_true)]]
        rw [findEntry, List.find?_cons_of_pos _ (by simpa using hk),
          findEntry, List.find?_cons_of_pos _ (by simpa using hk)]
      · rw [deleteMetasFor, List.map_cons]
        have hkey : (if names.contains pe.1 then (pe.1, { pe.2 with meta := none })
            else pe).1 = pe.1 := by
          by_cases hc2 : names.contains pe.1 = true
          · rw [if_pos hc2]
          · rw [if_neg hc2]
        rw [findEntry, List.find?_cons_of_neg _ (by rw [hkey]; simpa using hk),
          findEntry, List.find?_cons_of_neg _ (by simpa using hk)]
        rw [findEntry, findEntry] at ih
        exact ih

theorem foldl_createOne_processed (fs : FS) (env : Env) (labyId : String)
    (fp : Option String) (names : List String) (st : PState) (n : String)
    (hcnt : names.count n = 1)
    (hcont : (st.entries.map (fun p => p.1)).contains n = true)
    (hh : (findPage st.pages n).html ≠ "")
    (hsucc : ∀ k, ∃ pid, truthyVal (env.createId k) = some pid) :
    ∃ pid,
      (findEntry ((names.foldl (createOne fs env labyId fp) st).entries) n).meta =
        some ⟨some pid, some (findPage st.pages n).hash, some (fp = some n),
          some ((findPage st.pages n).json.is_ending.getD false)⟩ ∧
      pid ∈ (names.foldl (createOne fs env labyId fp) st).pageIds ∧
      truthyVal (some pid) = some pid := by
  obtain ⟨pre, post, hsplit, hnotpre, hnotpost⟩ := eq_append_cons_of_count_one _ n hcnt
  obtain ⟨pid, hpid⟩ := hsucc (pre.foldl (createOne fs env labyId fp) st).createCount
  have hfppre : findPage (pre.foldl (createOne fs env labyId fp) st).pages n =
      findPage st.pages n :=
    (foldl_createOne_untouched fs env labyId fp pre n hnotpre st).2
  have hhpre : (findPage (pre.foldl (createOne fs env labyId fp) st).pages n).html ≠ "" := by
    rw [hfppre]; exact hh
  obtain ⟨hE, hP, hI, hC⟩ := createOne_success fs env labyId fp
    (pre.foldl (createOne fs env labyId fp) st) n pid hhpre hpid
  have hcontpre : ((pre.foldl (createOne fs env labyId fp) st).entries.map
      (fun p => p.1)).contains n = true := by
    rw [(foldl_createOne_names fs env labyId fp pre st).1]
    exact hcont
  have hfold : names.foldl (createOne fs env labyId fp) st =
      post.foldl (createOne fs env labyId fp)
        (createOne fs env labyId fp (pre.foldl (createOne fs env labyId fp) st) n) := by
    rw [hsplit, List.foldl_append, List.foldl_cons]
  refine ⟨pid, ?_, ?_, (truthyVal_some_ne_empty _ pid hpid).2⟩
  · rw [hfold,
      (foldl_createOne_untouched fs env labyId fp post n hnotpost _).1, hE,
      findEntry_setEntryMeta_self _ _ _ hcontpre, hfppre]
  · rw [hfold]
    apply foldl_createOne_pageIds_mono
    rw [hI]
    by_cases hmem : ((pre.foldl (createOne fs env labyId fp) st).pageIds).contains pid
    · rw [if_pos hmem]
      rw [contains_eq_decide_mem] at hmem
      exact of_decide_eq_true hmem
    · rw [if_neg hmem]
      exact List.mem_append_right _ (List.mem_singleton.2 rfl)

theorem foldl_updateOne_processed (fs : FS) (env : Env) (fp : Option String)
    (names : List String) (st : PState) (n : String)
    (hcnt : names.count n = 1)
    (hcont : (st.entries.map (fun p => p.1)).contains n = true)
    (hh : (findPage st.pages n).html ≠ "")
    (pid : String)
    (hid : truthyVal (findPage st.pages n).meta.id = some pid) :
    (findEntry ((names.foldl (updateOne fs env fp) st).entries) n).meta =
      some { (findPage st.pages n).meta with
        hash := some (findPage st.pages n).hash
        is_first := some (fp = some n)
        is_ending := some ((findPage st.pages n).json.is_ending.getD false) } := by
  obtain ⟨pre, post, hsplit, hnotpre, hnotpost⟩ := eq_append_cons_of_count_one _ n hcnt
  have hfppre : findPage (pre.foldl (updateOne fs env fp) st).pages n =
      findPage st.pages n :=
    (foldl_updateOne_untouched fs env fp pre n hnotpre st).2
  obtain ⟨hE, hP⟩ := updateOne_success fs env fp
    (pre.foldl (updateOne fs env fp) st) n pid (by rw [hfppre]; exact hid)
    (by rw [hfppre]; exact hh)
  have hcontpre : ((pre.foldl (updateOne fs env fp) st).entries.map
      (fun p => p.1)).contains n = true := by
    rw [(foldl_updateOne_names fs env fp pre st).1]
    exact hcont
  have hfold : names.foldl (updateOne fs env fp) st =
      post.foldl (updateOne fs env fp)
        (updateOne fs env fp (pre.foldl (updateOne fs env fp) st) n) := by
    rw [hsplit, List.foldl_append, List.foldl_cons]
  rw [hfold,
    (foldl_updateOne_untouched fs env fp post n hnotpost _).1, hE,
    findEntry_setEntryMeta_self _ _ _ hcontpre, hfppre]

end Thelaby

namespace Thelaby

theorem foldl_createOne_pageIds_prov (fs : FS) (env : Env) (labyId : String)
    (fp : Option String) :
    ∀ (names : List String) (st : PState), names.Nodup →
      (∀ m ∈ names, (st.entries.map (fun p => p.1)).contains m = true) →
      ∀ i, i ∈ (names.foldl (createOne fs env labyId fp) st).pageIds →
      i ∈ st.pageIds ∨ ∃ n ∈ names,
        truthyVal ((findEntry
          ((names.foldl (createOne fs env labyId fp) st).entries) n).meta.getD {}).id =
          some i := by
  intro names
  induction names with
  | nil => intro st _ _ i hi; exact Or.inl hi
  | cons n rest ih =>
      intro st hnd hsub i hi
      rw [List.nodup_cons] at hnd
      rw [List.foldl_cons] at hi
      have hsub' : ∀ m ∈ rest,
          (((createOne fs env labyId fp st n).entries).map (fun p => p.1)).contains m
            = true := by
        intro m hm
        rw [(createOne_names fs env labyId fp st n).1]
        exact hsub m (List.mem_cons_of_mem n hm)
      rcases ih (createOne fs env labyId fp st n) hnd.2 hsub' i hi with hi' | ⟨n', hn', hmeta⟩
      · rcases createOne_pageIds_cases fs env labyId fp st n with hc | ⟨pid, hpid, hni, hc⟩
        · rw [hc] at hi'
          exact Or.inl hi'
        · rw [hc] at hi'
          rcases List.mem_append.1 hi' with h | h
          · exact Or.inl h
          · rcases List.mem_singleton.1 h with rfl
            right
            refine ⟨n, List.mem_cons_self n rest, ?_⟩
            rw [List.foldl_cons,
              (foldl_createOne_untouched fs env labyId fp rest n hnd.1
                (createOne fs env labyId fp st n)).1]
            by_cases hh : (findPage st.pages n).html = ""
            · exfalso
              rw [createOne_skip fs env labyId fp st n hh] at hc
              have := congrArg List.length hc
              simp at this
            · obtain ⟨hE, -, -, -⟩ := createOne_success fs env labyId fp st n i hh hpid
              rw [hE, findEntry_setEntryMeta_self _ _ _
                (hsub n (List.mem_cons_self n rest))]
              show truthyVal (some i) = some i
              exact (truthyVal_some_ne_empty _ i hpid).2
      · right
        refine ⟨n', List.mem_cons_of_mem n hn', ?_⟩
        rw [List.foldl_cons]
        exact hmeta

end Thelaby

namespace Thelaby

theorem deleteMetasFor_nil (entries : List (String × Entry)) :
    deleteMetasFor entries [] = entries := by
  induction entries with
  | nil => rfl
  | cons pe rest ih =>
      show pe :: deleteMetasFor rest [] = pe :: rest
      rw [ih]

theorem buildConnections_nil (pages : List (String × PageRec))
    (pim : List (String × String)) :
    buildConnections pages pim [] [] = [] := by
  simp only [buildConnections]
  refine foldl_preserve _ (fun l : List (String × List Conn) => l = []) ?_ pages [] rfl
  intro b pr hb
  cases truthyVal pr.2.meta.id with
  | none => exact hb
  | some fromId =>
      refine foldl_preserve _ (fun l : List (String × List Conn) => l = []) ?_
        ((pr.2.json.answers.getD []).enum) b hb
      intro b2 ia hb2
      split
      · split
        · split
          · rename_i hcond
            simp at hcond
          · exact hb2
        · exact hb2
      · exact hb2

theorem noopready_reconcile (fs : FS) (config : Config) (tree : Tree) (lm : LabyMeta)
    (h : NoOpReady fs config tree lm) :
    ∀ env₂ : Env, reconcile fs config env₂ tree = ⟨[], tree, none⟩ := by
  intro env₂
  have hE : entriesAfterCleanup tree = tree.entries := by
    simp [entriesAfterCleanup, h.hlm]
  have hG : tree.labyMeta.getD {} = lm := by rw [h.hlm]; rfl
  have hls : labyStep fs config env₂ lm = ([], lm) := by
    rw [labyStep, if_neg (by simp [h.hid]), if_neg (by simp [h.hhash])]
  have hR := reconcile_success_eq fs config env₂ tree h.htitle h.hcfg
    (by rw [hE]; exact h.hval) (by rw [hE]; exact h.hfp)
  rw [hG, hE, hls] at hR
  have hmd := mainPhases_decomp fs config env₂ tree.entries lm
  -- plan facts
  have hpm0 : (determinePageStates (namesWithHtml tree.entries)
      (namesWithJson tree.entries) (namesWithMeta tree.entries) lm.pageIds
      (metasOf tree.entries)).pageIds_missing = [] := by
    show (namesWithHtml tree.entries).filterMap _ = []
    rw [List.filterMap_eq_nil_iff]
    intro n hn
    show (match truthyVal (metasOf tree.entries n).id with
      | some i => if ((namesWithJson tree.entries).contains n &&
            (namesWithMeta tree.entries).contains n && !(lm.pageIds.contains i)) = true
          then some (PMItem.mk n i) else none
      | none => none) = none
    cases htid : truthyVal (metasOf tree.entries n).id with
    | none => rfl
    | some i =>
        show (if ((namesWithJson tree.entries).contains n &&
            (namesWithMeta tree.entries).contains n && !(lm.pageIds.contains i)) = true
          then some (PMItem.mk n i) else none) = none
        rw [h.hpm n hn i htid]
        simp
  have hnewP : (planOf fs tree.entries lm).1.newPages = [] := by
    show (determinePageStates (namesWithHtml tree.entries) (namesWithJson tree.entries)
      (namesWithMeta tree.entries) lm.pageIds (metasOf tree.entries)).newP ++
      ((determinePageStates (namesWithHtml tree.entries) (namesWithJson tree.entries)
        (namesWithMeta tree.entries) lm.pageIds
        (metasOf tree.entries)).pageIds_missing.map (fun it => it.name)) = []
    have h1 : (determinePageStates (namesWithHtml tree.entries) (namesWithJson tree.entries)
        (namesWithMeta tree.entries) lm.pageIds (metasOf tree.entries)).newP = [] := by
      show (namesWithHtml tree.entries).filter _ = []
      rw [List.filter_eq_nil_iff]
      intro n hn
      show ¬ ((namesWithJson tree.entries).contains n &&
        !((namesWithMeta tree.entries).contains n)) = true
      rw [h.hnew n hn]
      exact Bool.false_ne_true
    rw [h1, hpm0]
    rfl
  have hresid : (determinePageStates (namesWithHtml tree.entries)
      (namesWithJson tree.entries) (namesWithMeta tree.entries) lm.pageIds
      (metasOf tree.entries)).residual_meta = [] := by
    show (namesWithMeta tree.entries).filterMap _ = []
    rw [List.filterMap_eq_nil_iff]
    intro n hn
    show (if (!((namesWithHtml tree.entries).contains n) &&
        !((namesWithJson tree.entries).contains n)) = true
      then some (RMItem.mk n (metasOf tree.entries n).id
        (match truthyVal (metasOf tree.entries n).id with
         | some i => lm.pageIds.contains i
         | none => false)) else none) = none
    rw [(h.hmetaok n hn).1, (h.hmetaok n hn).2]
    simp
  have hjmJ : ∀ it ∈ (determinePageStates (namesWithHtml tree.entries)
      (namesWithJson tree.entries) (namesWithMeta tree.entries) lm.pageIds
      (metasOf tree.entries)).json_missing, it.hasMeta = false := by
    intro it hit
    have hit' : it ∈ (namesWithHtml tree.entries).filterMap (fun n =>
        if !((namesWithJson tree.entries).contains n)
        then some (JMItem.mk n ((namesWithMeta tree.entries).contains n)
          (metasOf tree.entries n).id) else none) := hit
    rw [List.mem_filterMap] at hit'
    obtain ⟨n, hn, hgn⟩ := hit'
    split at hgn
    · cases hgn
      rename_i hcond
      show (namesWithMeta tree.entries).contains n = false
      by_cases hm : (namesWithMeta tree.entries).contains n = true
      · exfalso
        have hmem : n ∈ namesWithMeta tree.entries := by
          rw [contains_eq_decide_mem] at hm
          exact of_decide_eq_true hm
        have hj := (h.hmetaok n hmem).2
        rw [Bool.not_eq_true', hj] at hcond
        exact Bool.noConfusion hcond
      · exact Bool.not_eq_true _ ▸ hm
    · exact Option.noConfusion hgn
  have hjmH : ∀ it ∈ (determinePageStates (namesWithHtml tree.entries)
      (namesWithJson tree.entries) (namesWithMeta tree.entries) lm.pageIds
      (metasOf tree.entries)).html_missing, it.hasMeta = false := by
    intro it hit
    have hit' : it ∈ (namesWithJson tree.entries).filterMap (fun n =>
        if !((namesWithHtml tree.entries).contains n)
        then some (JMItem.mk n ((namesWithMeta tree.entries).contains n)
          (metasOf tree.entries n).id) else none) := hit
    rw [List.mem_filterMap] at hit'
    obtain ⟨n, hn, hgn⟩ := hit'
    split at hgn
    · cases hgn
      rename_i hcond
      show (namesWithMeta tree.entries).contains n = false
      by_cases hm : (namesWithMeta tree.entries).contains n = true
      · exfalso
        have hmem : n ∈ namesWithMeta tree.entries := by
          rw [contains_eq_decide_mem] at hm
          exact of_decide_eq_true hm
        have hj := (h.hmetaok n hmem).1
        rw [Bool.not_eq_true', hj] at hcond
        exact Bool.noConfusion hcond
      · exact Bool.not_eq_true _ ▸ hm
    · exact Option.noConfusion hgn
  have horphE : (determinePageStates (namesWithHtml tree.entries)
      (namesWithJson tree.entries) (namesWithMeta tree.entries) lm.pageIds
      (metasOf tree.entries)).orphan = [] := by
    show lm.pageIds.filter _ = []
    rw [List.filter_eq_nil_iff]
    intro i hi
    show ¬ (!((namesWithMeta tree.entries).any
      (fun n => truthyVal (metasOf tree.entries n).id == some i))) = true
    rw [h.horph i hi]
    simp
  have hjmIdsJ : ((determinePageStates (namesWithHtml tree.entries)
      (namesWithJson tree.entries) (namesWithMeta tree.entries) lm.pageIds
      (metasOf tree.entries)).json_missing.filterMap (fun it =>
        if it.hasMeta then
          match truthyVal it.metaId with
          | some i => if lm.pageIds.contains i then some i else none
          | none => none
        else none)) = [] := by
    rw [List.filterMap_eq_nil_iff]
    intro it hit
    rw [hjmJ it hit]
    rfl
  have hjmIdsH : ((determinePageStates (namesWithHtml tree.entries)
      (namesWithJson tree.entries) (namesWithMeta tree.entries) lm.pageIds
      (metasOf tree.entries)).html_missing.filterMap (fun it =>
        if it.hasMeta then
          match truthyVal it.metaId with
          | some i => if lm.pageIds.contains i then some i else none
          | none => none
        else none)) = [] := by
    rw [List.filterMap_eq_nil_iff]
    intro it hit
    rw [hjmH it hit]
    rfl
  have hdelP : (planOf fs tree.entries lm).1.pagesToDelete = [] := by
    show (determinePageStates (namesWithHtml tree.entries) (namesWithJson tree.entries)
        (namesWithMeta tree.entries) lm.pageIds (metasOf tree.entries)).orphan ++
      (determinePageStates (namesWithHtml tree.entries) (namesWithJson tree.entries)
        (namesWithMeta tree.entries) lm.pageIds
        (metasOf tree.entries)).residual_meta.filterMap _ ++
      (determinePageStates (namesWithHtml tree.entries) (namesWithJson tree.entries)
        (namesWithMeta tree.entries) lm.pageIds
        (metasOf tree.entries)).json_missing.filterMap _ ++
      (determinePageStates (namesWithHtml tree.entries) (namesWithJson tree.entries)
        (namesWithMeta tree.entries) lm.pageIds
        (metasOf tree.entries)).html_missing.filterMap _ = []
    rw [horphE, hresid, hjmIdsJ, hjmIdsH]
    rfl
  have hrecI : (planOf fs tree.entries lm).1.recreateIds = [] := by
    show (determinePageStates (namesWithHtml tree.entries) (namesWithJson tree.entries)
      (namesWithMeta tree.entries) lm.pageIds
      (metasOf tree.entries)).pageIds_missing.map (fun it => it.id) = []
    rw [hpm0]
    rfl
  have hmetasD : (planOf fs tree.entries lm).1.metasToDelete = [] := by
    show (determinePageStates (namesWithHtml tree.entries) (namesWithJson tree.entries)
        (namesWithMeta tree.entries) lm.pageIds
        (metasOf tree.entries)).json_missing.filterMap (fun it =>
          if it.hasMeta then some it.name else none) ++
      (determinePageStates (namesWithHtml tree.entries) (namesWithJson tree.entries)
        (namesWithMeta tree.entries) lm.pageIds
        (metasOf tree.entries)).html_missing.filterMap (fun it =>
          if it.hasMeta then some it.name else none) ++
      (determinePageStates (namesWithHtml tree.entries) (namesWithJson tree.entries)
        (namesWithMeta tree.entries) lm.pageIds
        (metasOf tree.entries)).residual_meta.map (fun it => it.name) = []
    have hz1 : ((determinePageStates (namesWithHtml tree.entries)
        (namesWithJson tree.entries) (namesWithMeta tree.entries) lm.pageIds
        (metasOf tree.entries)).json_missing.filterMap (fun it =>
          if it.hasMeta then some it.name else none)) = [] := by
      rw [List.filterMap_eq_nil_iff]
      intro it hit
      rw [hjmJ it hit]
      rfl
    have hz2 : ((determinePageStates (namesWithHtml tree.entries)
        (namesWithJson tree.entries) (namesWithMeta tree.entries) lm.pageIds
        (metasOf tree.entries)).html_missing.filterMap (fun it =>
          if it.hasMeta then some it.name else none)) = [] := by
      rw [List.filterMap_eq_nil_iff]
      intro it hit
      rw [hjmH it hit]
      rfl
    rw [hz1, hz2, hresid]
    rfl
  have hupdP : (planOf fs tree.entries lm).1.updatedPages = [] := by
    show (determinePageStates (namesWithHtml tree.entries) (namesWithJson tree.entries)
      (namesWithMeta tree.entries) lm.pageIds
      (metasOf tree.entries)).normal.filter _ = []
    rw [List.filter_eq_nil_iff]
    intro n hn
    have hn' : n ∈ (namesWithHtml tree.entries).filter (fun n =>
        (namesWithJson tree.entries).contains n &&
        (namesWithMeta tree.entries).contains n &&
        (truthyVal (metasOf tree.entries n).id).isSome &&
        (match truthyVal (metasOf tree.entries n).id with
         | some i => lm.pageIds.contains i
         | none => false)) := hn
    rw [List.mem_filter] at hn'
    have heq := h.hupd n hn'.1 hn'.2
    show ¬ (decide ((findPage (loadPages fs tree.entries) n).meta.hash ≠
      some (findPage (loadPages fs tree.entries) n).hash)) = true
    simp [heq]
  have hallD : allDeleteIds fs tree.entries lm = [] := by
    rw [allDeleteIds, hdelP, hrecI]
    rfl
  have hpages : (planOf fs tree.entries lm).2 = loadPages fs tree.entries := by
    show (loadPages fs tree.entries).map _ = loadPages fs tree.entries
    rw [hpm0]
    simp
  have hfilter : lm.pageIds.filter
      (fun x => !((allDeleteIds fs tree.entries lm).contains x)) = lm.pageIds := by
    rw [hallD]
    simp
  have hst0 : st0Of fs tree.entries lm =
      ⟨[], tree.entries, loadPages fs tree.entries, lm.images, lm.pageIds, [], 0⟩ := by
    rw [st0Of, hmetasD, deleteMetasFor_nil, hpages, hfilter]
  have hst4 : st4Of fs config env₂ tree.entries lm = st0Of fs tree.entries lm := by
    rw [st4Of, hnewP]
    rfl
  have hst5 : st5Of fs config env₂ tree.entries lm = st0Of fs tree.entries lm := by
    rw [st5Of, hupdP]
    show st4Of fs config env₂ tree.entries lm = _
    rw [hst4]
  have hconns : connsOf fs config env₂ tree.entries lm = [] := by
    rw [connsOf, hnewP, hupdP]
    exact buildConnections_nil _ _
  have hlinks : runLinks (st5Of fs config env₂ tree.entries lm)
      (pageIdMapOf fs config env₂ tree.entries lm)
      (connsOf fs config env₂ tree.entries lm) = [] := by
    rw [hconns]
    rfl
  have htree : tree = ⟨tree.entries, some lm⟩ := by
    have hl := h.hlm
    cases tree with
    | mk e l =>
        have hl' : l = some lm := hl
        subst hl'
        rfl
  have hR' : reconcile fs config env₂ tree =
      ⟨[] ++ (mainPhases fs config env₂ tree.entries lm).1,
       (mainPhases fs config env₂ tree.entries lm).2, none⟩ := hR
  rw [hR', hmd, hallD, hlinks, hst5, hst0]
  show RunResult.mk ([] ++ (List.map _ ([] : List String) ++ [] ++ [])) _ none = _
  rw [List.map_nil]
  show RunResult.mk [] (Tree.mk tree.entries (some
    { lm with images := lm.images, pageIds := lm.pageIds })) none = _
  rw [← htree]

end Thelaby

namespace Thelaby

theorem metaOnly_findEntry (entries entries' : List (String × Entry))
    (h : MetaOnly entries entries') (n : String) :
    (findEntry entries' n).html = (findEntry entries n).html ∧
    (findEntry entries' n).json = (findEntry entries n).json := by
  obtain ⟨f, rfl⟩ := h
  induction entries with
  | nil => exact ⟨rfl, rfl⟩
  | cons pe rest ih =>
      rw [List.map_cons]
      by_cases hk : pe.1 = n
      · rw [findEntry, findEntry,
          List.find?_cons_of_pos _ (by simpa using hk),
          List.find?_cons_of_pos _ (by simpa using hk)]
        exact ⟨rfl, rfl⟩
      · rw [findEntry, findEntry,
          List.find?_cons_of_neg _ (by simpa using hk),
          List.find?_cons_of_neg _ (by simpa using hk)]
        rw [findEntry, findEntry] at ih
        exact ih

theorem findPage_map_if (P : String → Bool) (g : PageRec → PageRec) (n : String)
    (hn : P n = false) :
    ∀ pages : List (String × PageRec),
      findPage (pages.map (fun pr => if P pr.1 then (pr.1, g pr.2) else pr)) n =
        findPage pages n := by
  intro pages
  induction pages with
  | nil => rfl
  | cons pr rest ih =>
      rw [List.map_cons]
      have hkey : (if P pr.1 then (pr.1, g pr.2) else pr).1 = pr.1 := by
        by_cases hc : P pr.1 = true
        · rw [if_pos hc]
        · rw [if_neg hc]
      by_cases hk : pr.1 = n
      · have hP : P pr.1 = false := hk ▸ hn
        rw [show (if P pr.1 then (pr.1, g pr.2) else pr) = pr from by
          rw [hP]; exact if_neg (by simp)]
        rw [findPage, findPage, lookupAssoc, lookupAssoc,
          List.find?_cons_of_pos _ (by simpa using hk),
          List.find?_cons_of_pos _ (by simpa using hk)]
      · rw [findPage, findPage, lookupAssoc, lookupAssoc,
          List.find?_cons_of_neg _ (by rw [hkey]; simpa using hk),
          List.find?_cons_of_neg _ (by simpa using hk)]
        rw [findPage, findPage, lookupAssoc, lookupAssoc] at ih
        exact ih

theorem findPage_map_preserve_hash (f : (String × PageRec) → (String × PageRec))
    (hf : ∀ pr, (f pr).1 = pr.1 ∧ (f pr).2.hash = pr.2.hash) (n : String) :
    ∀ pages : List (String × PageRec),
      (findPage (pages.map f) n).hash = (findPage pages n).hash := by
  intro pages
  induction pages with
  | nil => rfl
  | cons pr rest ih =>
      rw [List.map_cons]
      by_cases hn : pr.1 = n
      · have h1 : (f pr).1 = n := (hf pr).1.trans hn
        rw [findPage, findPage, lookupAssoc, lookupAssoc,
          List.find?_cons_of_pos _ (by simpa using h1),
          List.find?_cons_of_pos _ (by simpa using hn)]
        simp [(hf pr).2]
      · have h1 : ¬ ((f pr).1 = n) := fun h => hn (((hf pr).1).symm.trans h)
        rw [findPage, findPage, lookupAssoc, lookupAssoc,
          List.find?_cons_of_neg _ (by simpa using h1),
          List.find?_cons_of_neg _ (by simpa using hn)]
        simpa [findPage, lookupAssoc] using ih

theorem planOf_pages_hash (fs : FS) (entries0 : List (String × Entry)) (lm : LabyMeta)
    (n : String) :
    (findPage (planOf fs entries0 lm).2 n).hash =
      (findPage (loadPages fs entries0) n).hash := by
  simp only [planOf, buildPlan]
  exact findPage_map_preserve_hash _
    (fun pr => by refine ⟨?_, ?_⟩ <;> (dsimp only; split <;> rfl)) n _

theorem count_filterMap_proj_none (f : PMItem → String) (g : String → Option PMItem)
    (name : String) (hnone : g name = none)
    (hname : ∀ n it, g n = some it → it.name = n)
    (hfnm : ∀ it, f it = it.name) :
    ∀ L : List String, ((L.filterMap g).map f).count name = 0 := by
  intro L
  rw [List.count_eq_zero]
  intro hmem
  rcases List.mem_map.1 hmem with ⟨it, hit, hfit⟩
  rcases List.mem_filterMap.1 hit with ⟨n, hn, hgn⟩
  have h1 : it.name = n := hname n it hgn
  rw [hfnm it, h1] at hfit
  rw [hfit] at hgn
  rw [hnone] at hgn
  exact Option.noConfusion hgn

theorem newPages_count_one_new (fs : FS) (entries0 : List (String × Entry))
    (lm : LabyMeta) (name : String)
    (hcntH : (namesWithHtml entries0).count name = 1)
    (hjson : (namesWithJson entries0).contains name = true)
    (hnometa : (namesWithMeta entries0).contains name = false) :
    ((planOf fs entries0 lm).1.newPages).count name = 1 := by
  have hmnone : (findEntry entries0 name).meta = none := by
    cases hm : (findEntry entries0 name).meta with
    | none => rfl
    | some m =>
        have := mem_namesWithMeta_of_meta entries0 name m hm
        rw [contains_eq_decide_mem, decide_eq_true this] at hnometa
        exact Bool.noConfusion hnometa
  have htidnone : truthyVal (metasOf entries0 name).id = none := by
    rw [metasOf, hmnone]
    rfl
  simp only [planOf, buildPlan, determinePageStates]
  rw [List.count_append]
  have h1 : ((namesWithHtml entries0).filter (fun n =>
      (namesWithJson entries0).contains n && !((namesWithMeta entries0).contains n))).count
      name = (namesWithHtml entries0).count name := by
    apply count_filter_pos
    rw [hjson, hnometa]
    rfl
  have h2 : (((namesWithHtml entries0).filterMap (fun n =>
      match truthyVal (metasOf entries0 n).id with
      | some i' =>
          if (namesWithJson entries0).contains n && (namesWithMeta entries0).contains n &&
              !(lm.pageIds.contains i')
          then some (PMItem.mk n i') else none
      | none => none)).map (fun it => it.name)).count name = 0 := by
    apply count_filterMap_proj_none (fun it => it.name) _ name
    · show (match truthyVal (metasOf entries0 name).id with
        | some i' =>
            if (namesWithJson entries0).contains name &&
                (namesWithMeta entries0).contains name && !(lm.pageIds.contains i')
            then some (PMItem.mk name i') else none
        | none => none) = none
      rw [htidnone]
    · intro n it hgn
      split at hgn
      · split at hgn
        · cases hgn
          rfl
        · exact Option.noConfusion hgn
      · exact Option.noConfusion hgn
    · intro it
      rfl
  rw [h1, h2, hcntH]

end Thelaby

namespace Thelaby

theorem planOf_pages_notpm (fs : FS) (entries0 : List (String × Entry)) (lm : LabyMeta)
    (n : String)
    (hn : ((determinePageStates (namesWithHtml entries0) (namesWithJson entries0)
      (namesWithMeta entries0) lm.pageIds (metasOf entries0)).pageIds_missing.any
      (fun it => it.name = n)) = false) :
    findPage (planOf fs entries0 lm).2 n = findPage (loadPages fs entries0) n := by
  simp only [planOf, buildPlan]
  exact findPage_map_if (fun x => (determinePageStates (namesWithHtml entries0)
    (namesWithJson entries0) (namesWithMeta entries0) lm.pageIds
    (metasOf entries0)).pageIds_missing.any (fun it => it.name = x))
    (fun r => { r with meta := {} }) n hn _

theorem namesWithHtml_nodup (entries : List (String × Entry))
    (h : (entries.map (fun p => p.1)).Nodup) : (namesWithHtml entries).Nodup :=
  h.sublist ((List.filter_sublist _).map _)

theorem namesWithJson_nodup (entries : List (String × Entry))
    (h : (entries.map (fun p => p.1)).Nodup) : (namesWithJson entries).Nodup :=
  h.sublist ((List.filter_sublist _).map _)

theorem updatedPages_nodup (fs : FS) (entries0 : List (String × Entry)) (lm : LabyMeta)
    (hnodH : (namesWithHtml entries0).Nodup) :
    ((planOf fs entries0 lm).1.updatedPages).Nodup := by
  show (((namesWithHtml entries0).filter _).filter _).Nodup
  exact (hnodH.filter _).filter _

theorem newPages_subset_html (fs : FS) (entries0 : List (String × Entry)) (lm : LabyMeta) :
    ∀ n ∈ (planOf fs entries0 lm).1.newPages, n ∈ namesWithHtml entries0 := by
  intro n hn
  have hn' : n ∈ (namesWithHtml entries0).filter (fun n =>
      (namesWithJson entries0).contains n && !((namesWithMeta entries0).contains n)) ++
    ((namesWithHtml entries0).filterMap (fun n =>
      match truthyVal (metasOf entries0 n).id with
      | some i' =>
          if (namesWithJson entries0).contains n && (namesWithMeta entries0).contains n &&
              !(lm.pageIds.contains i')
          then some (PMItem.mk n i') else none
      | none => none)).map (fun it => it.name) := hn
  rcases List.mem_append.1 hn' with h | h
  · exact (List.mem_filter.1 h).1
  · rcases List.mem_map.1 h with ⟨it, hit, rfl⟩
    rcases List.mem_filterMap.1 hit with ⟨n', hn'', hgn⟩
    split at hgn
    · split at hgn
      · cases hgn
        exact hn''
      · exact Option.noConfusion hgn
    · exact Option.noConfusion hgn

theorem updated_subset_html (fs : FS) (entries0 : List (String × Entry)) (lm : LabyMeta) :
    ∀ n ∈ (planOf fs entries0 lm).1.updatedPages, n ∈ namesWithHtml entries0 := by
  intro n hn
  have hn' : n ∈ ((namesWithHtml entries0).filter _).filter _ := hn
  exact (List.mem_filter.1 (List.mem_filter.1 hn').1).1

theorem mem_updated_extract (fs : FS) (entries0 : List (String × Entry)) (lm : LabyMeta)
    (n : String) (h : n ∈ (planOf fs entries0 lm).1.updatedPages) :
    n ∈ namesWithHtml entries0 ∧
    (namesWithJson entries0).contains n = true ∧
    (namesWithMeta entries0).contains n = true ∧
    ∃ i, truthyVal (metasOf entries0 n).id = some i ∧
      lm.pageIds.contains i = true ∧
      ¬ ((findPage (loadPages fs entries0) n).meta.hash =
          some (findPage (loadPages fs entries0) n).hash) := by
  have h' : n ∈ ((namesWithHtml entries0).filter (fun n =>
      (namesWithJson entries0).contains n && (namesWithMeta entries0).contains n &&
      (truthyVal (metasOf entries0 n).id).isSome &&
      (match truthyVal (metasOf entries0 n).id with
       | some i => lm.pageIds.contains i
       | none => false))).filter (fun n =>
        decide ((findPage (loadPages fs entries0) n).meta.hash ≠
          some (findPage (loadPages fs entries0) n).hash)) := h
  obtain ⟨hnormal, hne⟩ := List.mem_filter.1 h'
  obtain ⟨hH, hcond⟩ := List.mem_filter.1 hnormal
  rw [Bool.and_eq_true] at hcond
  obtain ⟨h123, h4⟩ := hcond
  rw [Bool.and_eq_true] at h123
  obtain ⟨h12, h3⟩ := h123
  rw [Bool.and_eq_true] at h12
  obtain ⟨h1, h2⟩ := h12
  cases htid : truthyVal (metasOf entries0 n).id with
  | none => rw [htid] at h3; exact Bool.noConfusion h3
  | some i =>
      refine ⟨hH, h1, h2, i, rfl, ?_, ?_⟩
      · rw [htid] at h4
        exact h4
      · exact of_decide_eq_true hne

theorem mem_newPages_extract (fs : FS) (entries0 : List (String × Entry)) (lm : LabyMeta)
    (n : String) (h : n ∈ (planOf fs entries0 lm).1.newPages) :
    n ∈ namesWithHtml entries0 ∧ (namesWithJson entries0).contains n = true ∧
    ((namesWithMeta entries0).contains n = false ∨
     ∃ i, truthyVal (metasOf entries0 n).id = some i ∧
       (namesWithMeta entries0).contains n = true ∧ lm.pageIds.contains i = false) := by
  have hn' : n ∈ (namesWithHtml entries0).filter (fun n =>
      (namesWithJson entries0).contains n && !((namesWithMeta entries0).contains n)) ++
    ((namesWithHtml entries0).filterMap (fun n =>
      match truthyVal (metasOf entries0 n).id with
      | some i' =>
          if (namesWithJson entries0).contains n && (namesWithMeta entries0).contains n &&
              !(lm.pageIds.contains i')
          then some (PMItem.mk n i') else none
      | none => none)).map (fun it => it.name) := h
  rcases List.mem_append.1 hn' with hm | hm
  · obtain ⟨hH, hcond⟩ := List.mem_filter.1 hm
    rw [Bool.and_eq_true] at hcond
    refine ⟨hH, hcond.1, Or.inl ?_⟩
    rw [Bool.not_eq_true'] at hcond
    exact hcond.2
  · rcases List.mem_map.1 hm with ⟨it, hit, hname⟩
    rcases List.mem_filterMap.1 hit with ⟨n', hn'', hgn⟩
    split at hgn
    · split at hgn
      · cases hgn
        cases hname
        rename_i htid hcond
        rw [Bool.and_eq_true] at hcond
        obtain ⟨h12, h3⟩ := hcond
        rw [Bool.and_eq_true] at h12
        refine ⟨hn'', h12.1, Or.inr ⟨_, htid, h12.2, ?_⟩⟩
        rw [Bool.not_eq_true'] at h3
        exact h3
      · exact Option.noConfusion hgn
    · exact Option.noConfusion hgn

end Thelaby

namespace Thelaby

theorem mem_metasToDelete_extract (fs : FS) (entries0 : List (String × Entry))
    (lm : LabyMeta) (n : String) (h : n ∈ (planOf fs entries0 lm).1.metasToDelete) :
    (namesWithMeta entries0).contains n = true ∧
    ((namesWithHtml entries0).contains n = false ∨
     (namesWithJson entries0).contains n = false) := by
  have h' : n ∈ ((namesWithHtml entries0).filterMap (fun m =>
      if !((namesWithJson entries0).contains m)
      then some (JMItem.mk m ((namesWithMeta entries0).contains m)
        (metasOf entries0 m).id) else none)).filterMap (fun it =>
        if it.hasMeta then some it.name else none) ++
    ((namesWithJson entries0).filterMap (fun m =>
      if !((namesWithHtml entries0).contains m)
      then some (JMItem.mk m ((namesWithMeta entries0).contains m)
        (metasOf entries0 m).id) else none)).filterMap (fun it =>
        if it.hasMeta then some it.name else none) ++
    ((namesWithMeta entries0).filterMap (fun m =>
      if !((namesWithHtml entries0).contains m) && !((namesWithJson entries0).contains m)
      then some (RMItem.mk m (metasOf entries0 m).id
        (match truthyVal (metasOf entries0 m).id with
         | some i => lm.pageIds.contains i
         | none => false)) else none)).map (fun it => it.name) := h
  rcases List.mem_append.1 h' with h12 | h3
  · rcases List.mem_append.1 h12 with h1 | h2
    · rcases List.mem_filterMap.1 h1 with ⟨it, hit, hfit⟩
      rcases List.mem_filterMap.1 hit with ⟨m, hmH, hgm⟩
      split at hgm
      · cases hgm
        split at hfit
        · cases hfit
          rename_i hnoj hmeta
          rw [Bool.not_eq_true'] at hnoj
          exact ⟨hmeta, Or.inr hnoj⟩
        · exact Option.noConfusion hfit
      · exact Option.noConfusion hgm
    · rcases List.mem_filterMap.1 h2 with ⟨it, hit, hfit⟩
      rcases List.mem_filterMap.1 hit with ⟨m, hmJ, hgm⟩
      split at hgm
      · cases hgm
        split at hfit
        · cases hfit
          rename_i hnoh hmeta
          rw [Bool.not_eq_true'] at hnoh
          exact ⟨hmeta, Or.inl hnoh⟩
        · exact Option.noConfusion hfit
      · exact Option.noConfusion hgm
  · rcases List.mem_map.1 h3 with ⟨it, hit, hname⟩
    rcases List.mem_filterMap.1 hit with ⟨m, hmM, hgm⟩
    split at hgm
    · cases hgm
      cases hname
      rename_i hcond
      rw [Bool.and_eq_true, Bool.not_eq_true', Bool.not_eq_true'] at hcond
      refine ⟨?_, Or.inl hcond.1⟩
      rw [contains_eq_decide_mem]
      exact decide_eq_true hmM
    · exact Option.noConfusion hgm

theorem mem_metasToDelete_json_missing (fs : FS) (entries0 : List (String × Entry))
    (lm : LabyMeta) (n : String)
    (hH : n ∈ namesWithHtml entries0)
    (hJ : (namesWithJson entries0).contains n = false)
    (hM : (namesWithMeta entries0).contains n = true) :
    n ∈ (planOf fs entries0 lm).1.metasToDelete := by
  show n ∈ _ ++ _ ++ _
  apply List.mem_append_left
  apply List.mem_append_left
  show n ∈ ((namesWithHtml entries0).filterMap (fun m =>
      if !((namesWithJson entries0).contains m)
      then some (JMItem.mk m ((namesWithMeta entries0).contains m)
        (metasOf entries0 m).id) else none)).filterMap (fun it =>
        if it.hasMeta then some it.name else none)
  rw [List.mem_filterMap]
  refine ⟨JMItem.mk n ((namesWithMeta entries0).contains n) (metasOf entries0 n).id, ?_, ?_⟩
  · rw [List.mem_filterMap]
    refine ⟨n, hH, ?_⟩
    rw [hJ]
    rfl
  · show (if (namesWithMeta entries0).contains n then _ else _) = _
    rw [hM]
    rfl

theorem mem_metasToDelete_html_missing (fs : FS) (entries0 : List (String × Entry))
    (lm : LabyMeta) (n : String)
    (hJ : n ∈ namesWithJson entries0)
    (hH : (namesWithHtml entries0).contains n = false)
    (hM : (namesWithMeta entries0).contains n = true) :
    n ∈ (planOf fs entries0 lm).1.metasToDelete := by
  show n ∈ _ ++ _ ++ _
  apply List.mem_append_left
  apply List.mem_append_right
  show n ∈ ((namesWithJson entries0).filterMap (fun m =>
      if !((namesWithHtml entries0).contains m)
      then some (JMItem.mk m ((namesWithMeta entries0).contains m)
        (metasOf entries0 m).id) else none)).filterMap (fun it =>
        if it.hasMeta then some it.name else none)
  rw [List.mem_filterMap]
  refine ⟨JMItem.mk n ((namesWithMeta entries0).contains n) (metasOf entries0 n).id, ?_, ?_⟩
  · rw [List.mem_filterMap]
    refine ⟨n, hJ, ?_⟩
    rw [hH]
    rfl
  · show (if (namesWithMeta entries0).contains n then _ else _) = _
    rw [hM]
    rfl

theorem mem_metasToDelete_residual (fs : FS) (entries0 : List (String × Entry))
    (lm : LabyMeta) (n : String)
    (hM : n ∈ namesWithMeta entries0)
    (hH : (namesWithHtml entries0).contains n = false)
    (hJ : (namesWithJson entries0).contains n = false) :
    n ∈ (planOf fs entries0 lm).1.metasToDelete := by
  show n ∈ _ ++ _ ++ _
  apply List.mem_append_right
  show n ∈ ((namesWithMeta entries0).filterMap (fun m =>
      if !((namesWithHtml entries0).contains m) && !((namesWithJson entries0).contains m)
      then some (RMItem.mk m (metasOf entries0 m).id
        (match truthyVal (metasOf entries0 m).id with
         | some i => lm.pageIds.contains i
         | none => false)) else none)).map (fun it => it.name)
  rw [List.mem_map]
  refine ⟨RMItem.mk n (metasOf entries0 n).id
    (match truthyVal (metasOf entries0 n).id with
     | some i => lm.pageIds.contains i
     | none => false), ?_, rfl⟩
  rw [List.mem_filterMap]
  refine ⟨n, hM, ?_⟩
  rw [hH, hJ]
  rfl

theorem normal_id_not_deleted (fs : FS) (entries0 : List (String × Entry))
    (lm : LabyMeta) (n i : String)
    (hM : n ∈ namesWithMeta entries0)
    (htid : truthyVal (metasOf entries0 n).id = some i)
    (hin : lm.pageIds.contains i = true)
    (hJ : (namesWithJson entries0).contains n = true)
    (hHc : (namesWithHtml entries0).contains n = true)
    (hinj : ∀ n', n' ≠ n → truthyVal (metasOf entries0 n').id ≠ some i) :
    i ∉ allDeleteIds fs entries0 lm := by
  intro hmem
  have hmem' : i ∈ lm.pageIds.filter (fun x =>
      !((namesWithMeta entries0).any
        (fun n' => truthyVal (metasOf entries0 n').id == some x))) ++
    ((namesWithMeta entries0).filterMap (fun m =>
      if !((namesWithHtml entries0).contains m) && !((namesWithJson entries0).contains m)
      then some (RMItem.mk m (metasOf entries0 m).id
        (match truthyVal (metasOf entries0 m).id with
         | some i' => lm.pageIds.contains i'
         | none => false)) else none)).filterMap (fun it =>
        match truthyVal it.id with
        | some i' => if it.inPageIds then some i' else none
        | none => none) ++
    ((namesWithHtml entries0).filterMap (fun m =>
      if !((namesWithJson entries0).contains m)
      then some (JMItem.mk m ((namesWithMeta entries0).contains m)
        (metasOf entries0 m).id) else none)).filterMap (fun it =>
        if it.hasMeta then
          match truthyVal it.metaId with
          | some i' => if lm.pageIds.contains i' then some i' else none
          | none => none
        else none) ++
    ((namesWithJson entries0).filterMap (fun m =>
      if !((namesWithHtml entries0).contains m)
      then some (JMItem.mk m ((namesWithMeta entries0).contains m)
        (metasOf entries0 m).id) else none)).filterMap (fun it =>
        if it.hasMeta then
          match truthyVal it.metaId with
          | some i' => if lm.pageIds.contains i' then some i' else none
          | none => none
        else none) ++
    ((namesWithHtml entries0).filterMap (fun m =>
      match truthyVal (metasOf entries0 m).id with
      | some i' =>
          if (namesWithJson entries0).contains m && (namesWithMeta entries0).contains m &&
              !(lm.pageIds.contains i')
          then some (PMItem.mk m i') else none
      | none => none)).map (fun it => it.id) := hmem
  rcases List.mem_append.1 hmem' with h1234 | h5
  rcases List.mem_append.1 h1234 with h123 | h4
  rcases List.mem_append.1 h123 with h12 | h3
  rcases List.mem_append.1 h12 with h1 | h2
  · -- orphan segment
    have hpred := (List.mem_filter.1 h1).2
    rw [Bool.not_eq_true', List.any_eq_false] at hpred
    have hx := hpred n hM
    rw [htid] at hx
    simp at hx
  · -- residual segment
    rcases List.mem_filterMap.1 h2 with ⟨it, hit, hfit⟩
    rcases List.mem_filterMap.1 hit with ⟨m, hmM, hgm⟩
    split at hgm
    · rename_i hcond
      cases hgm
      by_cases hmn : m = n
      · subst hmn
        rw [Bool.and_eq_true, Bool.not_eq_true'] at hcond
        rw [hcond.1] at hHc
        exact Bool.noConfusion hHc
      · split at hfit
        · split at hfit
          · cases hfit
            exact hinj m hmn (by assumption)
          · exact Option.noConfusion hfit
        · exact Option.noConfusion hfit
    · exact Option.noConfusion hgm
  · -- json_missing segment
    rcases List.mem_filterMap.1 h3 with ⟨it, hit, hfit⟩
    rcases List.mem_filterMap.1 hit with ⟨m, hmH, hgm⟩
    split at hgm
    · rename_i hcond
      cases hgm
      by_cases hmn : m = n
      · subst hmn
        rw [Bool.not_eq_true'] at hcond
        rw [hcond] at hJ
        exact Bool.noConfusion hJ
      · split at hfit
        · split at hfit
          · split at hfit
            · cases hfit
              exact hinj m hmn (by assumption)
            · exact Option.noConfusion hfit
          · exact Option.noConfusion hfit
        · exact Option.noConfusion hfit
    · exact Option.noConfusion hgm
  · -- html_missing segment
    rcases List.mem_filterMap.1 h4 with ⟨it, hit, hfit⟩
    rcases List.mem_filterMap.1 hit with ⟨m, hmJ, hgm⟩
    split at hgm
    · rename_i hcond
      cases hgm
      by_cases hmn : m = n
      · subst hmn
        rw [Bool.not_eq_true'] at hcond
        rw [hcond] at hHc
        exact Bool.noConfusion hHc
      · split at hfit
        · split at hfit
          · split at hfit
            · cases hfit
              exact hinj m hmn (by assumption)
            · exact Option.noConfusion hfit
          · exact Option.noConfusion hfit
        · exact Option.noConfusion hfit
    · exact Option.noConfusion hgm
  · -- recreate segment
    rcases List.mem_map.1 h5 with ⟨it, hit, hid⟩
    rcases List.mem_filterMap.1 hit with ⟨m, hmH, hgm⟩
    split at hgm
    · rename_i i' heq
      split at hgm
      · rename_i hcond
        cases hgm
        have hii : i' = i := hid
        subst hii
        by_cases hmn : m = n
        · subst hmn
          rw [Bool.and_eq_true] at hcond
          obtain ⟨-, h3'⟩ := hcond
          rw [Bool.not_eq_true', hin] at h3'
          exact Bool.noConfusion h3'
        · exact hinj m hmn heq
      · exact Option.noConfusion hgm
    · exact Option.noConfusion hgm

theorem truthyVal_metasOf_clearAllMetas (entries : List (String × Entry)) (n : String) :
    truthyVal (metasOf (clearAllMetas entries) n).id = none := by
  have h : (findEntry (clearAllMetas entries) n).meta = none := by
    induction entries with
    | nil => rfl
    | cons pe rest ih =>
        by_cases hk : pe.1 = n
        · rw [clearAllMetas, List.map_cons, findEntry,
            List.find?_cons_of_pos _ (by simpa using hk)]
          rfl
        · rw [clearAllMetas, List.map_cons, findEntry,
            List.find?_cons_of_neg _ (by simpa using hk)]
          rw [clearAllMetas, findEntry] at ih
          exact ih
  rw [metasOf, h]
  rfl

theorem count_one_of_nodup_mem (l : List String) (a : String)
    (hnd : l.Nodup) (ha : a ∈ l) : l.count a = 1 := by
  induction l with
  | nil => exact absurd ha (List.not_mem_nil a)
  | cons b rest ih =>
      rw [List.nodup_cons] at hnd
      rcases List.mem_cons.1 ha with rfl | ha'
      · rw [List.count_cons_self, List.count_eq_zero.2 hnd.1]
      · rw [List.count_cons_of_ne (fun h : a = b => hnd.1 (h ▸ ha')), ih hnd.2 ha']

theorem map_proj_filterMap {α : Type} (g : String → Option α) (f : α → String)
    (hf : ∀ n it, g n = some it → f it = n) :
    ∀ L : List String, (L.filterMap g).map f = L.filter (fun n => (g n).isSome) := by
  intro L
  induction L with
  | nil => rfl
  | cons n rest ih =>
      cases hg : g n with
      | none => simp [hg, ih]
      | some it => simp [hg, ih, hf n it hg]

theorem newPages_nodup (fs : FS) (entries0 : List (String × Entry)) (lm : LabyMeta)
    (hnodH : (namesWithHtml entries0).Nodup) :
    ((planOf fs entries0 lm).1.newPages).Nodup := by
  have hf : ∀ (n : String) (it : PMItem),
      (match truthyVal (metasOf entries0 n).id with
       | some i' =>
           if (namesWithJson entries0).contains n && (namesWithMeta entries0).contains n &&
               !(lm.pageIds.contains i')
           then some (PMItem.mk n i') else none
       | none => none) = some it → it.name = n := by
    intro n it hgn
    split at hgn
    · split at hgn
      · cases hgn
        rfl
      · exact Option.noConfusion hgn
    · exact Option.noConfusion hgn
  show ((namesWithHtml entries0).filter (fun n =>
      (namesWithJson entries0).contains n && !((namesWithMeta entries0).contains n)) ++
    ((namesWithHtml entries0).filterMap (fun n =>
      match truthyVal (metasOf entries0 n).id with
      | some i' =>
          if (namesWithJson entries0).contains n && (namesWithMeta entries0).contains n &&
              !(lm.pageIds.contains i')
          then some (PMItem.mk n i') else none
      | none => none)).map (fun it => it.name)).Nodup
  rw [map_proj_filterMap _ _ hf]
  apply List.Nodup.append (hnodH.filter _) (hnodH.filter _)
  intro a ha hb
  have h1 := (List.mem_filter.1 ha).2
  have h2 := (List.mem_filter.1 hb).2
  rw [Bool.and_eq_true, Bool.not_eq_true'] at h1
  split at h2
  · split at h2
    · rename_i hcond
      rw [Bool.and_eq_true, Bool.and_eq_true] at hcond
      obtain ⟨⟨-, hMt⟩, -⟩ := hcond
      rw [h1.2] at hMt
      exact Bool.noConfusion hMt
    · exact Bool.noConfusion h2
  · exact Bool.noConfusion h2

theorem mem_allDeleteIds_orphan (fs : FS) (entries0 : List (String × Entry))
    (lm : LabyMeta) (i : String) (hin : i ∈ lm.pageIds)
    (hany : ((namesWithMeta entries0).any
      (fun n => truthyVal (metasOf entries0 n).id == some i)) = false) :
    i ∈ allDeleteIds fs entries0 lm := by
  show i ∈ _ ++ _
  apply List.mem_append_left
  show i ∈ _ ++ _ ++ _ ++ _
  apply List.mem_append_left
  apply List.mem_append_left
  apply List.mem_append_left
  show i ∈ lm.pageIds.filter (fun x =>
    !((namesWithMeta entries0).any (fun n => truthyVal (metasOf entries0 n).id == some x)))
  refine List.mem_filter.2 ⟨hin, ?_⟩
  rw [hany]
  rfl

theorem mem_allDeleteIds_residual (fs : FS) (entries0 : List (String × Entry))
    (lm : LabyMeta) (n i : String)
    (hM : n ∈ namesWithMeta entries0)
    (hH : (namesWithHtml entries0).contains n = false)
    (hJ : (namesWithJson entries0).contains n = false)
    (htid : truthyVal (metasOf entries0 n).id = some i)
    (hin : lm.pageIds.contains i = true) :
    i ∈ allDeleteIds fs entries0 lm := by
  show i ∈ _ ++ _
  apply List.mem_append_left
  show i ∈ _ ++ _ ++ _ ++ _
  apply List.mem_append_left
  apply List.mem_append_left
  apply List.mem_append_right
  show i ∈ ((namesWithMeta entries0).filterMap (fun m =>
      if !((namesWithHtml entries0).contains m) && !((namesWithJson entries0).contains m)
      then some (RMItem.mk m (metasOf entries0 m).id
        (match truthyVal (metasOf entries0 m).id with
         | some i' => lm.pageIds.contains i'
         | none => false)) else none)).filterMap (fun it =>
        match truthyVal it.id with
        | some i' => if it.inPageIds then some i' else none
        | none => none)
  rw [List.mem_filterMap]
  refine ⟨RMItem.mk n (metasOf entries0 n).id
    (match truthyVal (metasOf entries0 n).id with
     | some i' => lm.pageIds.contains i'
     | none => false), ?_, ?_⟩
  · rw [List.mem_filterMap]
    refine ⟨n, hM, ?_⟩
    rw [hH, hJ]
    rfl
  · show (match truthyVal (metasOf entries0 n).id with
      | some i' =>
          if (match truthyVal (metasOf entries0 n).id with
              | some i'' => lm.pageIds.contains i''
              | none => false) = true
          then some i' else none
      | none => none) = some i
    rw [htid]
    simp [hin]
    rw [contains_eq_decide_mem] at hin
    exact of_decide_eq_true hin

theorem mem_allDeleteIds_json_missing (fs : FS) (entries0 : List (String × Entry))
    (lm : LabyMeta) (n i : String)
    (hH : n ∈ namesWithHtml entries0)
    (hJ : (namesWithJson entries0).contains n = false)
    (hM : (namesWithMeta entries0).contains n = true)
    (htid : truthyVal (metasOf entries0 n).id = some i)
    (hin : lm.pageIds.contains i = true) :
    i ∈ allDeleteIds fs entries0 lm := by
  show i ∈ _ ++ _
  apply List.mem_append_left
  show i ∈ _ ++ _ ++ _ ++ _
  apply List.mem_append_left
  apply List.mem_append_right
  show i ∈ ((namesWithHtml entries0).filterMap (fun m =>
      if !((namesWithJson entries0).contains m)
      then some (JMItem.mk m ((namesWithMeta entries0).contains m)
        (metasOf entries0 m).id) else none)).filterMap (fun it =>
        if it.hasMeta then
          match truthyVal it.metaId with
          | some i' => if lm.pageIds.contains i' then some i' else none
          | none => none
        else none)
  rw [List.mem_filterMap]
  refine ⟨JMItem.mk n ((namesWithMeta entries0).contains n) (metasOf entries0 n).id, ?_, ?_⟩
  · rw [List.mem_filterMap]
    refine ⟨n, hH, ?_⟩
    rw [hJ]
    rfl
  · show (if (namesWithMeta entries0).contains n then
        (match truthyVal (metasOf entries0 n).id with
         | some i' => if lm.pageIds.contains i' then some i' else none
         | none => none) else none) = some i
    rw [hM, htid]
    simp [hin]
    rw [contains_eq_decide_mem] at hin
    exact of_decide_eq_true hin

theorem mem_allDeleteIds_html_missing (fs : FS) (entries0 : List (String × Entry))
    (lm : LabyMeta) (n i : String)
    (hJm : n ∈ namesWithJson entries0)
    (hH : (namesWithHtml entries0).contains n = false)
    (hM : (namesWithMeta entries0).contains n = true)
    (htid : truthyVal (metasOf entries0 n).id = some i)
    (hin : lm.pageIds.contains i = true) :
    i ∈ allDeleteIds fs entries0 lm := by
  show i ∈ _ ++ _
  apply List.mem_append_left
  show i ∈ _ ++ _ ++ _ ++ _
  apply List.mem_append_right
  show i ∈ ((namesWithJson entries0).filterMap (fun m =>
      if !((namesWithHtml entries0).contains m)
      then some (JMItem.mk m ((namesWithMeta entries0).contains m)
        (metasOf entries0 m).id) else none)).filterMap (fun it =>
        if it.hasMeta then
          match truthyVal it.metaId with
          | some i' => if lm.pageIds.contains i' then some i' else none
          | none => none
        else none)
  rw [List.mem_filterMap]
  refine ⟨JMItem.mk n ((namesWithMeta entries0).contains n) (metasOf entries0 n).id, ?_, ?_⟩
  · rw [List.mem_filterMap]
    refine ⟨n, hJm, ?_⟩
    rw [hH]
    rfl
  · show (if (namesWithMeta entries0).contains n then
        (match truthyVal (metasOf entries0 n).id with
         | some i' => if lm.pageIds.contains i' then some i' else none
         | none => none) else none) = some i
    rw [hM, htid]
    simp [hin]
    rw [contains_eq_decide_mem] at hin
    exact of_decide_eq_true hin

theorem mem_states_normal (entries0 : List (String × Entry)) (pageIds : List String)
    (n i : String)
    (hH : n ∈ namesWithHtml entries0)
    (hJ : (namesWithJson entries0).contains n = true)
    (hM : (namesWithMeta entries0).contains n = true)
    (htid : truthyVal (metasOf entries0 n).id = some i)
    (hin : pageIds.contains i = true) :
    n ∈ (determinePageStates (namesWithHtml entries0) (namesWithJson entries0)
      (namesWithMeta entries0) pageIds (metasOf entries0)).normal := by
  show n ∈ (namesWithHtml entries0).filter (fun n =>
    (namesWithJson entries0).contains n && (namesWithMeta entries0).contains n &&
    (truthyVal (metasOf entries0 n).id).isSome &&
    (match truthyVal (metasOf entries0 n).id with
     | some i => pageIds.contains i
     | none => false))
  refine List.mem_filter.2 ⟨hH, ?_⟩
  rw [hJ, hM, htid]
  simp only [Bool.true_and, Option.isSome_some, Bool.and_true]
  rw [hin]

theorem normal_not_updated_hash (fs : FS) (entries0 : List (String × Entry))
    (lm : LabyMeta) (n : String)
    (hn : n ∈ (determinePageStates (namesWithHtml entries0) (namesWithJson entries0)
      (namesWithMeta entries0) lm.pageIds (metasOf entries0)).normal)
    (hnu : n ∉ (planOf fs entries0 lm).1.updatedPages) :
    (findPage (loadPages fs entries0) n).meta.hash =
      some (findPage (loadPages fs entries0) n).hash := by
  by_contra hne
  apply hnu
  show n ∈ (determinePageStates (namesWithHtml entries0) (namesWithJson entries0)
      (namesWithMeta entries0) lm.pageIds (metasOf entries0)).normal.filter (fun n =>
    decide ((findPage (loadPages fs entries0) n).meta.hash ≠
      some (findPage (loadPages fs entries0) n).hash))
  exact List.mem_filter.2 ⟨hn, decide_eq_true hne⟩

theorem new_updated_disjoint (fs : FS) (entries0 : List (String × Entry))
    (lm : LabyMeta) (n : String)
    (hnew : n ∈ (planOf fs entries0 lm).1.newPages)
    (hupd : n ∈ (planOf fs entries0 lm).1.updatedPages) : False := by
  obtain ⟨-, -, hMt, i, htid, hin, -⟩ := mem_updated_extract fs entries0 lm n hupd
  obtain ⟨-, -, hc⟩ := mem_newPages_extract fs entries0 lm n hnew
  rcases hc with hMf | ⟨i', htid', -, hnin⟩
  · rw [hMt] at hMf
    exact Bool.noConfusion hMf
  · rw [htid] at htid'
    cases htid'
    rw [hin] at hnin
    exact Bool.noConfusion hnin

theorem st5_entries_untouched (fs : FS) (config : Config) (env : Env)
    (entries0 : List (String × Entry)) (lm : LabyMeta) (n : String)
    (h4 : n ∉ (planOf fs entries0 lm).1.newPages)
    (h5 : n ∉ (planOf fs entries0 lm).1.updatedPages) :
    findEntry ((st5Of fs config env entries0 lm).entries) n =
      findEntry (deleteMetasFor entries0 (planOf fs entries0 lm).1.metasToDelete) n := by
  have h1 : findEntry ((st5Of fs config env entries0 lm).entries) n =
      findEntry ((st4Of fs config env entries0 lm).entries) n :=
    (foldl_updateOne_untouched fs env (firstPageOf config) _ n h5
      (st4Of fs config env entries0 lm)).1
  have h2 : findEntry ((st4Of fs config env entries0 lm).entries) n =
      findEntry (deleteMetasFor entries0 (planOf fs entries0 lm).1.metasToDelete) n :=
    (foldl_createOne_untouched fs env (lm.id.getD "") (firstPageOf config) _ n h4
      (st0Of fs entries0 lm)).1
  exact h1.trans h2

theorem findPage_map_preserve_json (f : (String × PageRec) → (String × PageRec))
    (hf : ∀ pr, (f pr).1 = pr.1 ∧ (f pr).2.json = pr.2.json) (n : String) :
    ∀ pages : List (String × PageRec),
      (findPage (pages.map f) n).json = (findPage pages n).json := by
  intro pages
  induction pages with
  | nil => rfl
  | cons pr rest ih =>
      rw [List.map_cons]
      by_cases hn : pr.1 = n
      · have h1 : (f pr).1 = n := (hf pr).1.trans hn
        rw [findPage, findPage, lookupAssoc, lookupAssoc,
          List.find?_cons_of_pos _ (by simpa using h1),
          List.find?_cons_of_pos _ (by simpa using hn)]
        simp [(hf pr).2]
      · have h1 : ¬ ((f pr).1 = n) := fun h => hn (((hf pr).1).symm.trans h)
        rw [findPage, findPage, lookupAssoc, lookupAssoc,
          List.find?_cons_of_neg _ (by simpa using h1),
          List.find?_cons_of_neg _ (by simpa using hn)]
        simpa [findPage, lookupAssoc] using ih

theorem planOf_pages_json (fs : FS) (entries0 : List (String × Entry)) (lm : LabyMeta)
    (n : String) :
    (findPage (planOf fs entries0 lm).2 n).json =
      (findPage (loadPages fs entries0) n).json := by
  simp only [planOf, buildPlan]
  exact findPage_map_preserve_json _
    (fun pr => by refine ⟨?_, ?_⟩ <;> (dsimp only; split <;> rfl)) n _

theorem created_final_meta (fs : FS) (config : Config) (env : Env)
    (entries0 : List (String × Entry)) (lm1 : LabyMeta)
    (hnod : (entries0.map (fun p => p.1)).Nodup)
    (hW5 : ∀ n ∈ namesWithHtml entries0, (findEntry entries0 n).html ≠ some "")
    (hE2 : ∀ k, ∃ pid, truthyVal (env.createId k) = some pid)
    (n : String) (hn : n ∈ (planOf fs entries0 lm1).1.newPages) :
    ∃ pid,
      (findEntry ((st5Of fs config env entries0 lm1).entries) n).meta =
        some ⟨some pid, some ((findPage (loadPages fs entries0) n).hash),
          some (firstPageOf config = some n),
          some ((findPage (loadPages fs entries0) n).json.is_ending.getD false)⟩ ∧
      pid ∈ (st5Of fs config env entries0 lm1).pageIds ∧
      truthyVal (some pid) = some pid := by
  have hnH := newPages_subset_html fs entries0 lm1 n hn
  have hnodH := namesWithHtml_nodup entries0 hnod
  have hcnt : ((planOf fs entries0 lm1).1.newPages).count n = 1 :=
    count_one_of_nodup_mem _ n (newPages_nodup fs entries0 lm1 hnodH) hn
  obtain ⟨-, hJc, -⟩ := mem_newPages_extract fs entries0 lm1 n hn
  obtain ⟨h0, hh0⟩ := Option.isSome_iff_exists.1 (findEntry_html_of_mem entries0 hnod n hnH)
  have hne0 : h0 ≠ "" := fun he => hW5 n hnH (by rw [hh0, he])
  have hnJ : n ∈ namesWithJson entries0 := by
    rw [contains_eq_decide_mem] at hJc
    exact of_decide_eq_true hJc
  obtain ⟨j0, hj0⟩ := Option.isSome_iff_exists.1 (findEntry_json_of_mem entries0 hnod n hnJ)
  have hfp0 := findPage_loadPages fs n h0 j0 entries0 hnod hh0 hne0 hj0
    (mem_entry_names_of_namesWithHtml entries0 n hnH)
  have hhtml1 : (findPage (st0Of fs entries0 lm1).pages n).html = h0 := by
    have h1 : (findPage (st0Of fs entries0 lm1).pages n).html =
        (findPage (loadPages fs entries0) n).html := planOf_pages_html fs entries0 lm1 n
    rw [h1, hfp0]
  have hh1 : (findPage (st0Of fs entries0 lm1).pages n).html ≠ "" := by
    rw [hhtml1]
    exact hne0
  have hcont : (((st0Of fs entries0 lm1).entries).map (fun p => p.1)).contains n = true := by
    show ((deleteMetasFor entries0 (planOf fs entries0 lm1).1.metasToDelete).map
      (fun p => p.1)).contains n = true
    rw [deleteMetasFor_names, contains_eq_decide_mem]
    exact decide_eq_true (mem_entry_names_of_namesWithHtml entries0 n hnH)
  obtain ⟨pid, hmeta4, hpid4, htv⟩ := foldl_createOne_processed fs env (lm1.id.getD "")
    (firstPageOf config) ((planOf fs entries0 lm1).1.newPages) (st0Of fs entries0 lm1)
    n hcnt hcont hh1 hE2
  have hhash0 : (findPage (st0Of fs entries0 lm1).pages n).hash =
      (findPage (loadPages fs entries0) n).hash := planOf_pages_hash fs entries0 lm1 n
  have hjson0 : (findPage (st0Of fs entries0 lm1).pages n).json =
      (findPage (loadPages fs entries0) n).json := planOf_pages_json fs entries0 lm1 n
  have hnu : n ∉ (planOf fs entries0 lm1).1.updatedPages := fun hu =>
    new_updated_disjoint fs entries0 lm1 n hn hu
  have h45 : (findEntry ((st5Of fs config env entries0 lm1).entries) n).meta =
      (findEntry ((st4Of fs config env entries0 lm1).entries) n).meta :=
    congrArg (fun e => e.meta)
      ((foldl_updateOne_untouched fs env (firstPageOf config)
        ((planOf fs entries0 lm1).1.updatedPages) n hnu
        (st4Of fs config env entries0 lm1)).1)
  have hmeta4' : (findEntry ((st4Of fs config env entries0 lm1).entries) n).meta =
      some ⟨some pid, some ((findPage (st0Of fs entries0 lm1).pages n).hash),
        some (firstPageOf config = some n),
        some ((findPage (st0Of fs entries0 lm1).pages n).json.is_ending.getD false)⟩ :=
    hmeta4
  have h5p : (st5Of fs config env entries0 lm1).pageIds =
      (st4Of fs config env entries0 lm1).pageIds :=
    foldl_updateOne_pageIds fs env (firstPageOf config)
      ((planOf fs entries0 lm1).1.updatedPages) (st4Of fs config env entries0 lm1)
  have hpid5 : pid ∈ (st5Of fs config env entries0 lm1).pageIds := by
    rw [h5p]
    exact hpid4
  refine ⟨pid, ?_, hpid5, htv⟩
  rw [h45, hmeta4', hhash0, hjson0]

theorem updated_final_meta (fs : FS) (config : Config) (env : Env)
    (entries0 : List (String × Entry)) (lm1 : LabyMeta)
    (hnod : (entries0.map (fun p => p.1)).Nodup)
    (hW5 : ∀ n ∈ namesWithHtml entries0, (findEntry entries0 n).html ≠ some "")
    (n : String) (hn : n ∈ (planOf fs entries0 lm1).1.updatedPages) :
    (findEntry ((st5Of fs config env entries0 lm1).entries) n).meta =
      some { (findPage (loadPages fs entries0) n).meta with
          hash := some ((findPage (loadPages fs entries0) n).hash)
          is_first := some (firstPageOf config = some n)
          is_ending := some ((findPage (loadPages fs entries0) n).json.is_ending.getD false) }
    := by
  obtain ⟨hnH, hJc, hMc, i, htid, hin, -⟩ := mem_updated_extract fs entries0 lm1 n hn
  have hnodH := namesWithHtml_nodup entries0 hnod
  have hcnt : ((planOf fs entries0 lm1).1.updatedPages).count n = 1 :=
    count_one_of_nodup_mem _ n (updatedPages_nodup fs entries0 lm1 hnodH) hn
  have hnnew : n ∉ (planOf fs entries0 lm1).1.newPages := fun hnw =>
    new_updated_disjoint fs entries0 lm1 n hnw hn
  obtain ⟨h0, hh0⟩ := Option.isSome_iff_exists.1 (findEntry_html_of_mem entries0 hnod n hnH)
  have hne0 : h0 ≠ "" := fun he => hW5 n hnH (by rw [hh0, he])
  have hnJ : n ∈ namesWithJson entries0 := by
    rw [contains_eq_decide_mem] at hJc
    exact of_decide_eq_true hJc
  obtain ⟨j0, hj0⟩ := Option.isSome_iff_exists.1 (findEntry_json_of_mem entries0 hnod n hnJ)
  have hfp0 := findPage_loadPages fs n h0 j0 entries0 hnod hh0 hne0 hj0
    (mem_entry_names_of_namesWithHtml entries0 n hnH)
  have hanypm : ((determinePageStates (namesWithHtml entries0) (namesWithJson entries0)
      (namesWithMeta entries0) lm1.pageIds
      (metasOf entries0)).pageIds_missing.any (fun it => it.name = n)) = false := by
    cases hx : ((determinePageStates (namesWithHtml entries0) (namesWithJson entries0)
        (namesWithMeta entries0) lm1.pageIds
        (metasOf entries0)).pageIds_missing.any (fun it => it.name = n)) with
    | false => rfl
    | true =>
        exfalso
        rcases List.any_eq_true.1 hx with ⟨it, hit, hname⟩
        have hname' : it.name = n := of_decide_eq_true hname
        apply hnnew
        show n ∈ _ ++ _
        apply List.mem_append_right
        exact List.mem_map.2 ⟨it, hit, hname'⟩
  have hfp4 : findPage ((st4Of fs config env entries0 lm1).pages) n =
      findPage (loadPages fs entries0) n := by
    have h1 : findPage ((st4Of fs config env entries0 lm1).pages) n =
        findPage ((st0Of fs entries0 lm1).pages) n :=
      (foldl_createOne_untouched fs env (lm1.id.getD "") (firstPageOf config)
        ((planOf fs entries0 lm1).1.newPages) n hnnew (st0Of fs entries0 lm1)).2
    have h2 : findPage ((st0Of fs entries0 lm1).pages) n =
        findPage (loadPages fs entries0) n := planOf_pages_notpm fs entries0 lm1 n hanypm
    exact h1.trans h2
  have hid4 : truthyVal ((findPage ((st4Of fs config env entries0 lm1).pages) n).meta).id =
      some i := by
    rw [hfp4, hfp0]
    exact htid
  have hh4 : (findPage ((st4Of fs config env entries0 lm1).pages) n).html ≠ "" := by
    rw [hfp4, hfp0]
    exact hne0
  have hcont4 : (((st4Of fs config env entries0 lm1).entries).map (fun p => p.1)).contains n
      = true := by
    have h1 : ((st4Of fs config env entries0 lm1).entries).map (fun p => p.1) =
        ((st0Of fs entries0 lm1).entries).map (fun p => p.1) :=
      (foldl_createOne_names fs env (lm1.id.getD "") (firstPageOf config)
        ((planOf fs entries0 lm1).1.newPages) (st0Of fs entries0 lm1)).1
    rw [h1]
    show ((deleteMetasFor entries0 (planOf fs entries0 lm1).1.metasToDelete).map
      (fun p => p.1)).contains n = true
    rw [deleteMetasFor_names, contains_eq_decide_mem]
    exact decide_eq_true (mem_entry_names_of_namesWithHtml entries0 n hnH)
  have hproc := foldl_updateOne_processed fs env (firstPageOf config)
    ((planOf fs entries0 lm1).1.updatedPages) (st4Of fs config env entries0 lm1)
    n hcnt hcont4 hh4 i hid4
  have hproc' : (findEntry ((st5Of fs config env entries0 lm1).entries) n).meta =
      some { (findPage ((st4Of fs config env entries0 lm1).pages) n).meta with
          hash := some ((findPage ((st4Of fs config env entries0 lm1).pages) n).hash)
          is_first := some (firstPageOf config = some n)
          is_ending := some
            ((findPage ((st4Of fs config env entries0 lm1).pages) n).json.is_ending.getD
              false) } := hproc
  rw [hproc', hfp4]

theorem survivor_pageIds_mem (fs : FS) (config : Config) (env : Env)
    (entries0 : List (String × Entry)) (lm1 : LabyMeta) (n i : String)
    (hM : n ∈ namesWithMeta entries0)
    (htid : truthyVal (metasOf entries0 n).id = some i)
    (hin : lm1.pageIds.contains i = true)
    (hJ : (namesWithJson entries0).contains n = true)
    (hHc : (namesWithHtml entries0).contains n = true)
    (hinj : ∀ n', n' ≠ n → truthyVal (metasOf entries0 n').id ≠ some i) :
    i ∈ (st5Of fs config env entries0 lm1).pageIds := by
  have hnd := normal_id_not_deleted fs entries0 lm1 n i hM htid hin hJ hHc hinj
  have hmem : i ∈ lm1.pageIds := by
    rw [contains_eq_decide_mem] at hin
    exact of_decide_eq_true hin
  have hst0 : i ∈ (st0Of fs entries0 lm1).pageIds := by
    show i ∈ lm1.pageIds.filter (fun x => !((allDeleteIds fs entries0 lm1).contains x))
    refine List.mem_filter.2 ⟨hmem, ?_⟩
    have hcf : (allDeleteIds fs entries0 lm1).contains i = false := by
      rw [contains_eq_decide_mem]
      exact decide_eq_false hnd
    rw [hcf]
    rfl
  have hst4 : i ∈ (st4Of fs config env entries0 lm1).pageIds :=
    foldl_createOne_pageIds_mono fs env (lm1.id.getD "") (firstPageOf config)
      ((planOf fs entries0 lm1).1.newPages) i (st0Of fs entries0 lm1) hst0
  have h5p : (st5Of fs config env entries0 lm1).pageIds =
      (st4Of fs config env entries0 lm1).pageIds :=
    foldl_updateOne_pageIds fs env (firstPageOf config)
      ((planOf fs entries0 lm1).1.updatedPages) (st4Of fs config env entries0 lm1)
  rw [h5p]
  exact hst4

theorem mainPhases_noopready (fs : FS) (config : Config) (env : Env)
    (entries0 : List (String × Entry)) (lm1 : LabyMeta)
    (hid1 : truthyS lm1.id = true)
    (hhash1 : lm1.hash = some (computeLabyrinthHash fs config))
    (htitle : truthyS config.title = true)
    (hcfg : validateConfig config = [])
    (hval : validateAllPages (loadPages fs entries0) = [])
    (hfp : firstPageBad config (loadPages fs entries0) = false)
    (hnod : (entries0.map (fun p => p.1)).Nodup)
    (hW5 : ∀ n ∈ namesWithHtml entries0, (findEntry entries0 n).html ≠ some "")
    (hinj : ∀ n₁ n₂ i, truthyVal (metasOf entries0 n₁).id = some i →
      truthyVal (metasOf entries0 n₂).id = some i → n₁ = n₂)
    (hE2 : ∀ k, ∃ pid, truthyVal (env.createId k) = some pid) :
    NoOpReady fs config
      ⟨(st5Of fs config env entries0 lm1).entries,
       some { lm1 with
                images := (st5Of fs config env entries0 lm1).imageCache
                pageIds := (st5Of fs config env entries0 lm1).pageIds }⟩
      { lm1 with
          images := (st5Of fs config env entries0 lm1).imageCache
          pageIds := (st5Of fs config env entries0 lm1).pageIds } := by
  have hMO : MetaOnly entries0 ((st5Of fs config env entries0 lm1).entries) :=
    metaOnly_foldl_updateOne entries0 fs env (firstPageOf config)
      ((planOf fs entries0 lm1).1.updatedPages) (st4Of fs config env entries0 lm1)
      (metaOnly_foldl_createOne entries0 fs env (lm1.id.getD "") (firstPageOf config)
        ((planOf fs entries0 lm1).1.newPages) (st0Of fs entries0 lm1)
        (metaOnly_deleteMetasFor entries0 (planOf fs entries0 lm1).1.metasToDelete))
  have hquad := loadPages_metaOnly fs entries0 ((st5Of fs config env entries0 lm1).entries) hMO
  have hnames := metaOnly_names entries0 ((st5Of fs config env entries0 lm1).entries) hMO
  have hnodE : (((st5Of fs config env entries0 lm1).entries).map (fun p => p.1)).Nodup := by
    rw [hnames.1]
    exact hnod
  refine ⟨rfl, hid1, hhash1, htitle, hcfg, ?_, ?_, ?_, ?_, ?_, ?_, ?_⟩
  · -- hval
    show validateAllPages (loadPages fs ((st5Of fs config env entries0 lm1).entries)) = []
    calc validateAllPages (loadPages fs ((st5Of fs config env entries0 lm1).entries))
        = validateAllPages (loadPages fs entries0) :=
          validateAllPages_congr _ _ (quad_json _ _ hquad)
      _ = [] := hval
  · -- hfp
    show firstPageBad config (loadPages fs ((st5Of fs config env entries0 lm1).entries))
      = false
    calc firstPageBad config (loadPages fs ((st5Of fs config env entries0 lm1).entries))
        = firstPageBad config (loadPages fs entries0) :=
          firstPageBad_congr config _ _ (quad_names _ _ hquad)
      _ = false := hfp
  · -- hnew
    intro n hn
    have hn5 : n ∈ namesWithHtml ((st5Of fs config env entries0 lm1).entries) := hn
    have hn0 : n ∈ namesWithHtml entries0 := by
      rw [hnames.2.1] at hn5
      exact hn5
    show ((namesWithJson ((st5Of fs config env entries0 lm1).entries)).contains n &&
      !((namesWithMeta ((st5Of fs config env entries0 lm1).entries)).contains n)) = false
    rw [hnames.2.2]
    cases hJb : (namesWithJson entries0).contains n with
    | false => rfl
    | true =>
        suffices hM5 : (namesWithMeta ((st5Of fs config env entries0 lm1).entries)).contains n
            = true by
          rw [hM5]
          rfl
        by_cases hnew : n ∈ (planOf fs entries0 lm1).1.newPages
        · obtain ⟨pid, hmeta, -, -⟩ := created_final_meta fs config env entries0 lm1
            hnod hW5 hE2 n hnew
          rw [contains_eq_decide_mem]
          exact decide_eq_true (mem_namesWithMeta_of_meta _ n _ hmeta)
        · by_cases hupd : n ∈ (planOf fs entries0 lm1).1.updatedPages
          · have hmeta := updated_final_meta fs config env entries0 lm1 hnod hW5 n hupd
            rw [contains_eq_decide_mem]
            exact decide_eq_true (mem_namesWithMeta_of_meta _ n _ hmeta)
          · have hstep := st5_entries_untouched fs config env entries0 lm1 n hnew hupd
            by_cases hmd : ((planOf fs entries0 lm1).1.metasToDelete).contains n = true
            · exfalso
              rw [contains_eq_decide_mem] at hmd
              obtain ⟨-, hor⟩ := mem_metasToDelete_extract fs entries0 lm1 n
                (of_decide_eq_true hmd)
              have hHc : (namesWithHtml entries0).contains n = true := by
                rw [contains_eq_decide_mem]
                exact decide_eq_true hn0
              rcases hor with h | h
              · rw [hHc] at h
                exact Bool.noConfusion h
              · rw [hJb] at h
                exact Bool.noConfusion h
            · have hmdf : ((planOf fs entries0 lm1).1.metasToDelete).contains n = false :=
                Bool.not_eq_true _ ▸ hmd
              have hfinal : findEntry ((st5Of fs config env entries0 lm1).entries) n =
                  findEntry entries0 n :=
                hstep.trans (findEntry_deleteMetasFor_notmem _ n hmdf entries0)
              by_cases hMc : (namesWithMeta entries0).contains n = true
              · have hMm : n ∈ namesWithMeta entries0 := by
                  rw [contains_eq_decide_mem] at hMc
                  exact of_decide_eq_true hMc
                obtain ⟨m0, hm0⟩ := Option.isSome_iff_exists.1
                  (findEntry_meta_of_mem entries0 hnod n hMm)
                have hm5 : (findEntry ((st5Of fs config env entries0 lm1).entries) n).meta =
                    some m0 := by
                  rw [hfinal]
                  exact hm0
                rw [contains_eq_decide_mem]
                exact decide_eq_true (mem_namesWithMeta_of_meta _ n m0 hm5)
              · exfalso
                apply hnew
                show n ∈ _ ++ _
                apply List.mem_append_left
                show n ∈ (namesWithHtml entries0).filter (fun n =>
                  (namesWithJson entries0).contains n &&
                    !((namesWithMeta entries0).contains n))
                refine List.mem_filter.2 ⟨hn0, ?_⟩
                have hMf : (namesWithMeta entries0).contains n = false :=
                  Bool.not_eq_true _ ▸ hMc
                rw [hJb, hMf]
                rfl
  · -- hpm
    intro n hn i htv
    have hn5 : n ∈ namesWithHtml ((st5Of fs config env entries0 lm1).entries) := hn
    have hn0 : n ∈ namesWithHtml entries0 := by
      rw [hnames.2.1] at hn5
      exact hn5
    have htv' : truthyVal (metasOf ((st5Of fs config env entries0 lm1).entries) n).id =
        some i := htv
    show ((st5Of fs config env entries0 lm1).pageIds).contains i = true
    by_cases hnew : n ∈ (planOf fs entries0 lm1).1.newPages
    · obtain ⟨pid, hmeta, hpid5, htvp⟩ := created_final_meta fs config env entries0 lm1
        hnod hW5 hE2 n hnew
      have htv2 : truthyVal (some pid) = some i := by
        rw [metasOf, hmeta] at htv'
        exact htv'
      have hpi : pid = i := Option.some.inj (htvp.symm.trans htv2)
      rw [contains_eq_decide_mem]
      exact decide_eq_true (hpi ▸ hpid5)
    · by_cases hupd : n ∈ (planOf fs entries0 lm1).1.updatedPages
      · have hmeta := updated_final_meta fs config env entries0 lm1 hnod hW5 n hupd
        have htv2 : truthyVal ((findPage (loadPages fs entries0) n).meta).id = some i := by
          rw [metasOf, hmeta] at htv'
          exact htv'
        obtain ⟨hnH2, hJc, hMc, i', htid', hin', -⟩ :=
          mem_updated_extract fs entries0 lm1 n hupd
        obtain ⟨h0, hh0⟩ := Option.isSome_iff_exists.1
          (findEntry_html_of_mem entries0 hnod n hn0)
        have hne0 : h0 ≠ "" := fun he => hW5 n hn0 (by rw [hh0, he])
        have hnJ : n ∈ namesWithJson entries0 := by
          rw [contains_eq_decide_mem] at hJc
          exact of_decide_eq_true hJc
        obtain ⟨j0, hj0⟩ := Option.isSome_iff_exists.1
          (findEntry_json_of_mem entries0 hnod n hnJ)
        have hfp0 := findPage_loadPages fs n h0 j0 entries0 hnod hh0 hne0 hj0
          (mem_entry_names_of_namesWithHtml entries0 n hn0)
        have htid2 : truthyVal (metasOf entries0 n).id = some i := by
          rw [hfp0] at htv2
          exact htv2
        have hMm : n ∈ namesWithMeta entries0 := mem_namesWithMeta_of_tid entries0 n i htid2
        have hin2 : lm1.pageIds.contains i = true := by
          rw [htid2] at htid'
          cases htid'
          exact hin'
        have hHc : (namesWithHtml entries0).contains n = true := by
          rw [contains_eq_decide_mem]
          exact decide_eq_true hn0
        have hinjn : ∀ n', n' ≠ n → truthyVal (metasOf entries0 n').id ≠ some i :=
          fun n' hne hc => hne (hinj n' n i hc htid2)
        have hs := survivor_pageIds_mem fs config env entries0 lm1 n i hMm htid2 hin2
          hJc hHc hinjn
        rw [contains_eq_decide_mem]
        exact decide_eq_true hs
      · have hstep := st5_entries_untouched fs config env entries0 lm1 n hnew hupd
        by_cases hmd : ((planOf fs entries0 lm1).1.metasToDelete).contains n = true
        · exfalso
          have hmnone : (findEntry ((st5Of fs config env entries0 lm1).entries) n).meta
              = none := by
            rw [hstep, findEntry_deleteMetasFor_mem _ n hmd entries0]
          rw [metasOf, hmnone] at htv'
          exact Option.noConfusion htv'
        · have hmdf : ((planOf fs entries0 lm1).1.metasToDelete).contains n = false :=
            Bool.not_eq_true _ ▸ hmd
          have hfinal : findEntry ((st5Of fs config env entries0 lm1).entries) n =
              findEntry entries0 n :=
            hstep.trans (findEntry_deleteMetasFor_notmem _ n hmdf entries0)
          have htid2 : truthyVal (metasOf entries0 n).id = some i := by
            rw [metasOf, hfinal] at htv'
            exact htv'
          have hMm : n ∈ namesWithMeta entries0 := mem_namesWithMeta_of_tid entries0 n i htid2
          have hHc : (namesWithHtml entries0).contains n = true := by
            rw [contains_eq_decide_mem]
            exact decide_eq_true hn0
          have hMc : (namesWithMeta entries0).contains n = true := by
            rw [contains_eq_decide_mem]
            exact decide_eq_true hMm
          have hJc : (namesWithJson entries0).contains n = true := by
            cases hJb : (namesWithJson entries0).contains n with
            | true => rfl
            | false =>
                exfalso
                have hmem := mem_metasToDelete_json_missing fs entries0 lm1 n hn0 hJb hMc
                rw [contains_eq_decide_mem, decide_eq_true hmem] at hmdf
                exact Bool.noConfusion hmdf
          have hin2 : lm1.pageIds.contains i = true := by
            cases hib : lm1.pageIds.contains i with
            | true => rfl
            | false =>
                exfalso
                apply hnew
                show n ∈ _ ++ _
                apply List.mem_append_right
                refine List.mem_map.2 ⟨PMItem.mk n i, ?_, rfl⟩
                show PMItem.mk n i ∈ (namesWithHtml entries0).filterMap (fun n =>
                  match truthyVal (metasOf entries0 n).id with
                  | some i' =>
                      if (namesWithJson entries0).contains n &&
                          (namesWithMeta entries0).contains n && !(lm1.pageIds.contains i')
                      then some (PMItem.mk n i') else none
                  | none => none)
                rw [List.mem_filterMap]
                refine ⟨n, hn0, ?_⟩
                rw [htid2]
                show (if ((namesWithJson entries0).contains n &&
                    (namesWithMeta entries0).contains n && !(lm1.pageIds.contains i)) = true
                  then some (PMItem.mk n i) else none) = some (PMItem.mk n i)
                rw [hJc, hMc, hib]
                rfl
          have hinjn : ∀ n', n' ≠ n → truthyVal (metasOf entries0 n').id ≠ some i :=
            fun n' hne hc => hne (hinj n' n i hc htid2)
          have hs := survivor_pageIds_mem fs config env entries0 lm1 n i hMm htid2 hin2
            hJc hHc hinjn
          rw [contains_eq_decide_mem]
          exact decide_eq_true hs
  · -- hmetaok
    intro n hnM
    have hnM' : n ∈ namesWithMeta ((st5Of fs config env entries0 lm1).entries) := hnM
    show (namesWithHtml ((st5Of fs config env entries0 lm1).entries)).contains n = true ∧
      (namesWithJson ((st5Of fs config env entries0 lm1).entries)).contains n = true
    rw [hnames.2.1, hnames.2.2]
    by_cases hnew : n ∈ (planOf fs entries0 lm1).1.newPages
    · have hnH := newPages_subset_html fs entries0 lm1 n hnew
      obtain ⟨-, hJc, -⟩ := mem_newPages_extract fs entries0 lm1 n hnew
      exact ⟨by rw [contains_eq_decide_mem]; exact decide_eq_true hnH, hJc⟩
    · by_cases hupd : n ∈ (planOf fs entries0 lm1).1.updatedPages
      · obtain ⟨hnH, hJc, -, -⟩ := mem_updated_extract fs entries0 lm1 n hupd
        exact ⟨by rw [contains_eq_decide_mem]; exact decide_eq_true hnH, hJc⟩
      · have hstep := st5_entries_untouched fs config env entries0 lm1 n hnew hupd
        obtain ⟨m0, hm0⟩ := Option.isSome_iff_exists.1
          (findEntry_meta_of_mem _ hnodE n hnM')
        by_cases hmd : ((planOf fs entries0 lm1).1.metasToDelete).contains n = true
        · exfalso
          have hmnone : (findEntry ((st5Of fs config env entries0 lm1).entries) n).meta
              = none := by
            rw [hstep, findEntry_deleteMetasFor_mem _ n hmd entries0]
          rw [hmnone] at hm0
          exact Option.noConfusion hm0
        · have hmdf : ((planOf fs entries0 lm1).1.metasToDelete).contains n = false :=
            Bool.not_eq_true _ ▸ hmd
          have hfinal : findEntry ((st5Of fs config env entries0 lm1).entries) n =
              findEntry entries0 n :=
            hstep.trans (findEntry_deleteMetasFor_notmem _ n hmdf entries0)
          have hm00 : (findEntry entries0 n).meta = some m0 := by
            rw [hfinal] at hm0
            exact hm0
          have hMm := mem_namesWithMeta_of_meta entries0 n m0 hm00
          have hMc : (namesWithMeta entries0).contains n = true := by
            rw [contains_eq_decide_mem]
            exact decide_eq_true hMm
          cases hHb : (namesWithHtml entries0).contains n with
          | false =>
              exfalso
              cases hJb : (namesWithJson entries0).contains n with
              | false =>
                  have hmem := mem_metasToDelete_residual fs entries0 lm1 n hMm hHb hJb
                  rw [contains_eq_decide_mem, decide_eq_true hmem] at hmdf
                  exact Bool.noConfusion hmdf
              | true =>
                  have hnJ : n ∈ namesWithJson entries0 := by
                    rw [contains_eq_decide_mem] at hJb
                    exact of_decide_eq_true hJb
                  have hmem := mem_metasToDelete_html_missing fs entries0 lm1 n hnJ hHb hMc
                  rw [contains_eq_decide_mem, decide_eq_true hmem] at hmdf
                  exact Bool.noConfusion hmdf
          | true =>
              cases hJb : (namesWithJson entries0).contains n with
              | false =>
                  exfalso
                  have hnH : n ∈ namesWithHtml entries0 := by
                    rw [contains_eq_decide_mem] at hHb
                    exact of_decide_eq_true hHb
                  have hmem := mem_metasToDelete_json_missing fs entries0 lm1 n hnH hJb hMc
                  rw [contains_eq_decide_mem, decide_eq_true hmem] at hmdf
                  exact Bool.noConfusion hmdf
              | true => exact ⟨rfl, rfl⟩
  · -- horph
    intro i hi
    show ((namesWithMeta ((st5Of fs config env entries0 lm1).entries)).any
      (fun n => truthyVal (metasOf ((st5Of fs config env entries0 lm1).entries) n).id ==
        some i)) = true
    have hi5 : i ∈ (st5Of fs config env entries0 lm1).pageIds := hi
    have h5p : (st5Of fs config env entries0 lm1).pageIds =
        (st4Of fs config env entries0 lm1).pageIds :=
      foldl_updateOne_pageIds fs env (firstPageOf config)
        ((planOf fs entries0 lm1).1.updatedPages) (st4Of fs config env entries0 lm1)
    have hi4 : i ∈ (st4Of fs config env entries0 lm1).pageIds := by
      rw [h5p] at hi5
      exact hi5
    have hsub : ∀ m ∈ (planOf fs entries0 lm1).1.newPages,
        (((st0Of fs entries0 lm1).entries).map (fun p => p.1)).contains m = true := by
      intro m hm
      show ((deleteMetasFor entries0 (planOf fs entries0 lm1).1.metasToDelete).map
        (fun p => p.1)).contains m = true
      rw [deleteMetasFor_names, contains_eq_decide_mem]
      exact decide_eq_true (mem_entry_names_of_namesWithHtml entries0 m
        (newPages_subset_html fs entries0 lm1 m hm))
    have hi4' : i ∈ (((planOf fs entries0 lm1).1.newPages).foldl
        (createOne fs env (lm1.id.getD "") (firstPageOf config))
        (st0Of fs entries0 lm1)).pageIds := hi4
    have hprov := foldl_createOne_pageIds_prov fs env (lm1.id.getD "") (firstPageOf config)
      ((planOf fs entries0 lm1).1.newPages) (st0Of fs entries0 lm1)
      (newPages_nodup fs entries0 lm1 (namesWithHtml_nodup entries0 hnod)) hsub i hi4'
    rcases hprov with hsurv | ⟨n, hnNew, hmeta⟩
    · have hsurv' : i ∈ lm1.pageIds.filter
          (fun x => !((allDeleteIds fs entries0 lm1).contains x)) := hsurv
      obtain ⟨hmemIds, hnotdel⟩ := List.mem_filter.1 hsurv'
      have hndel : (allDeleteIds fs entries0 lm1).contains i = false := by
        rw [Bool.not_eq_true'] at hnotdel
        exact hnotdel
      have hnmem : i ∉ allDeleteIds fs entries0 lm1 := by
        intro hx
        rw [contains_eq_decide_mem, decide_eq_true hx] at hndel
        exact Bool.noConfusion hndel
      have hinC : lm1.pageIds.contains i = true := by
        rw [contains_eq_decide_mem]
        exact decide_eq_true hmemIds
      cases hany : ((namesWithMeta entries0).any
          (fun n => truthyVal (metasOf entries0 n).id == some i)) with
      | false =>
          exfalso
          exact hnmem (mem_allDeleteIds_orphan fs entries0 lm1 i hmemIds hany)
      | true =>
          rcases List.any_eq_true.1 hany with ⟨n, hnM, hbeq⟩
          have htid : truthyVal (metasOf entries0 n).id = some i := by
            simpa using hbeq
          have hMc : (namesWithMeta entries0).contains n = true := by
            rw [contains_eq_decide_mem]
            exact decide_eq_true hnM
          have hHc : (namesWithHtml entries0).contains n = true := by
            cases hHb : (namesWithHtml entries0).contains n with
            | true => rfl
            | false =>
                exfalso
                cases hJb : (namesWithJson entries0).contains n with
                | false =>
                    exact hnmem (mem_allDeleteIds_residual fs entries0 lm1 n i hnM hHb hJb
                      htid hinC)
                | true =>
                    have hnJ : n ∈ namesWithJson entries0 := by
                      rw [contains_eq_decide_mem] at hJb
                      exact of_decide_eq_true hJb
                    exact hnmem (mem_allDeleteIds_html_missing fs entries0 lm1 n i hnJ hHb
                      hMc htid hinC)
          have hn0 : n ∈ namesWithHtml entries0 := by
            rw [contains_eq_decide_mem] at hHc
            exact of_decide_eq_true hHc
          have hJc : (namesWithJson entries0).contains n = true := by
            cases hJb : (namesWithJson entries0).contains n with
            | true => rfl
            | false =>
                exfalso
                exact hnmem (mem_allDeleteIds_json_missing fs entries0 lm1 n i hn0 hJb hMc
                  htid hinC)
          have hnnew : n ∉ (planOf fs entries0 lm1).1.newPages := by
            intro hnw
            obtain ⟨-, -, hc⟩ := mem_newPages_extract fs entries0 lm1 n hnw
            rcases hc with hMf | ⟨i', htid', -, hnin⟩
            · rw [hMc] at hMf
              exact Bool.noConfusion hMf
            · rw [htid] at htid'
              cases htid'
              rw [hinC] at hnin
              exact Bool.noConfusion hnin
          obtain ⟨h0, hh0⟩ := Option.isSome_iff_exists.1
            (findEntry_html_of_mem entries0 hnod n hn0)
          have hne0 : h0 ≠ "" := fun he => hW5 n hn0 (by rw [hh0, he])
          have hnJ : n ∈ namesWithJson entries0 := by
            rw [contains_eq_decide_mem] at hJc
            exact of_decide_eq_true hJc
          obtain ⟨j0, hj0⟩ := Option.isSome_iff_exists.1
            (findEntry_json_of_mem entries0 hnod n hnJ)
          have hfp0 := findPage_loadPages fs n h0 j0 entries0 hnod hh0 hne0 hj0
            (mem_entry_names_of_namesWithHtml entries0 n hn0)
          have htid5 : truthyVal (metasOf ((st5Of fs config env entries0 lm1).entries) n).id
              = some i := by
            by_cases hupd : n ∈ (planOf fs entries0 lm1).1.updatedPages
            · have hmeta5 := updated_final_meta fs config env entries0 lm1 hnod hW5 n hupd
              rw [metasOf, hmeta5]
              show truthyVal ((findPage (loadPages fs entries0) n).meta).id = some i
              rw [hfp0]
              exact htid
            · have hstep := st5_entries_untouched fs config env entries0 lm1 n hnnew hupd
              have hmdf : ((planOf fs entries0 lm1).1.metasToDelete).contains n = false := by
                cases hmdb : ((planOf fs entries0 lm1).1.metasToDelete).contains n with
                | false => rfl
                | true =>
                    exfalso
                    rw [contains_eq_decide_mem] at hmdb
                    obtain ⟨-, hor⟩ := mem_metasToDelete_extract fs entries0 lm1 n
                      (of_decide_eq_true hmdb)
                    rcases hor with h | h
                    · rw [hHc] at h
                      exact Bool.noConfusion h
                    · rw [hJc] at h
                      exact Bool.noConfusion h
              have hfinal := hstep.trans (findEntry_deleteMetasFor_notmem _ n hmdf entries0)
              rw [metasOf, hfinal]
              exact htid
          exact List.any_eq_true.2 ⟨n, mem_namesWithMeta_of_tid _ n i htid5, by
            rw [htid5]
            exact beq_self_eq_true (some i)⟩
    · have hnu : n ∉ (planOf fs entries0 lm1).1.updatedPages := fun hu =>
        new_updated_disjoint fs entries0 lm1 n hnNew hu
      have h45 : findEntry ((st5Of fs config env entries0 lm1).entries) n =
          findEntry ((st4Of fs config env entries0 lm1).entries) n :=
        (foldl_updateOne_untouched fs env (firstPageOf config)
          ((planOf fs entries0 lm1).1.updatedPages) n hnu
          (st4Of fs config env entries0 lm1)).1
      have hmeta' : truthyVal (((findEntry ((st4Of fs config env entries0 lm1).entries)
          n).meta).getD {}).id = some i := hmeta
      have htid5 : truthyVal (metasOf ((st5Of fs config env entries0 lm1).entries) n).id
          = some i := by
        rw [metasOf, h45]
        exact hmeta'
      exact List.any_eq_true.2 ⟨n, mem_namesWithMeta_of_tid _ n i htid5, by
        rw [htid5]
        exact beq_self_eq_true (some i)⟩
  · -- hupd
    intro n hn hcond
    have hn5 : n ∈ namesWithHtml ((st5Of fs config env entries0 lm1).entries) := hn
    have hn0 : n ∈ namesWithHtml entries0 := by
      rw [hnames.2.1] at hn5
      exact hn5
    have hcond' : ((namesWithJson ((st5Of fs config env entries0 lm1).entries)).contains n &&
        (namesWithMeta ((st5Of fs config env entries0 lm1).entries)).contains n &&
        (truthyVal (metasOf ((st5Of fs config env entries0 lm1).entries) n).id).isSome &&
        (match truthyVal (metasOf ((st5Of fs config env entries0 lm1).entries) n).id with
         | some i => ((st5Of fs config env entries0 lm1).pageIds).contains i
         | none => false)) = true := hcond
    rw [Bool.and_eq_true] at hcond'
    obtain ⟨h123, hc4⟩ := hcond'
    rw [Bool.and_eq_true] at h123
    obtain ⟨h12, hc3⟩ := h123
    rw [Bool.and_eq_true] at h12
    obtain ⟨hcJ, hcM⟩ := h12
    have hJc : (namesWithJson entries0).contains n = true := by
      rw [hnames.2.2] at hcJ
      exact hcJ
    obtain ⟨h0, hh0⟩ := Option.isSome_iff_exists.1
      (findEntry_html_of_mem entries0 hnod n hn0)
    have hne0 : h0 ≠ "" := fun he => hW5 n hn0 (by rw [hh0, he])
    have hnJ : n ∈ namesWithJson entries0 := by
      rw [contains_eq_decide_mem] at hJc
      exact of_decide_eq_true hJc
    obtain ⟨j0, hj0⟩ := Option.isSome_iff_exists.1 (findEntry_json_of_mem entries0 hnod n hnJ)
    have hfp0 := findPage_loadPages fs n h0 j0 entries0 hnod hh0 hne0 hj0
      (mem_entry_names_of_namesWithHtml entries0 n hn0)
    have hEh : (findEntry ((st5Of fs config env entries0 lm1).entries) n).html = some h0 := by
      rw [(metaOnly_findEntry entries0 _ hMO n).1]
      exact hh0
    have hEj : (findEntry ((st5Of fs config env entries0 lm1).entries) n).json = some j0 := by
      rw [(metaOnly_findEntry entries0 _ hMO n).2]
      exact hj0
    have hmemE : n ∈ ((st5Of fs config env entries0 lm1).entries).map (fun p => p.1) := by
      rw [hnames.1]
      exact mem_entry_names_of_namesWithHtml entries0 n hn0
    have hfpE := findPage_loadPages fs n h0 j0 ((st5Of fs config env entries0 lm1).entries)
      hnodE hEh hne0 hEj hmemE
    show (findPage (loadPages fs ((st5Of fs config env entries0 lm1).entries)) n).meta.hash =
      some (findPage (loadPages fs ((st5Of fs config env entries0 lm1).entries)) n).hash
    rw [hfpE]
    show ((findEntry ((st5Of fs config env entries0 lm1).entries) n).meta.getD {}).hash =
      some (computePageHash h0 (pageJsonToJVal j0)
        ((dedupL (pageImagePaths fs h0 (j0.answers.getD []))).map
          (fun p => calculateChecksum (fs.fileBytes p))))
    by_cases hnew : n ∈ (planOf fs entries0 lm1).1.newPages
    · obtain ⟨pid, hmeta, -, -⟩ := created_final_meta fs config env entries0 lm1
        hnod hW5 hE2 n hnew
      rw [hmeta, hfp0]
      rfl
    · by_cases hupd2 : n ∈ (planOf fs entries0 lm1).1.updatedPages
      · have hmeta := updated_final_meta fs config env entries0 lm1 hnod hW5 n hupd2
        rw [hmeta, hfp0]
        rfl
      · have hstep := st5_entries_untouched fs config env entries0 lm1 n hnew hupd2
        by_cases hmd : ((planOf fs entries0 lm1).1.metasToDelete).contains n = true
        · exfalso
          have hmnone : (findEntry ((st5Of fs config env entries0 lm1).entries) n).meta
              = none := by
            rw [hstep, findEntry_deleteMetasFor_mem _ n hmd entries0]
          rw [metasOf, hmnone] at hc3
          exact Bool.noConfusion hc3
        · have hmdf : ((planOf fs entries0 lm1).1.metasToDelete).contains n = false :=
            Bool.not_eq_true _ ▸ hmd
          have hfinal : findEntry ((st5Of fs config env entries0 lm1).entries) n =
              findEntry entries0 n :=
            hstep.trans (findEntry_deleteMetasFor_notmem _ n hmdf entries0)
          have hc3' : (truthyVal (metasOf entries0 n).id).isSome = true := by
            rw [metasOf, hfinal] at hc3
            exact hc3
          obtain ⟨i, htid⟩ := Option.isSome_iff_exists.1 hc3'
          have hMm : n ∈ namesWithMeta entries0 := mem_namesWithMeta_of_tid entries0 n i htid
          have hMc : (namesWithMeta entries0).contains n = true := by
            rw [contains_eq_decide_mem]
            exact decide_eq_true hMm
          have hin2 : lm1.pageIds.contains i = true := by
            cases hib : lm1.pageIds.contains i with
            | true => rfl
            | false =>
                exfalso
                apply hnew
                show n ∈ _ ++ _
                apply List.mem_append_right
                refine List.mem_map.2 ⟨PMItem.mk n i, ?_, rfl⟩
                show PMItem.mk n i ∈ (namesWithHtml entries0).filterMap (fun n =>
                  match truthyVal (metasOf entries0 n).id with
                  | some i' =>
                      if (namesWithJson entries0).contains n &&
                          (namesWithMeta entries0).contains n && !(lm1.pageIds.contains i')
                      then some (PMItem.mk n i') else none
                  | none => none)
                rw [List.mem_filterMap]
                refine ⟨n, hn0, ?_⟩
                rw [htid]
                show (if ((namesWithJson entries0).contains n &&
                    (namesWithMeta entries0).contains n && !(lm1.pageIds.contains i)) = true
                  then some (PMItem.mk n i) else none) = some (PMItem.mk n i)
                rw [hJc, hMc, hib]
                rfl
          have hnormal := mem_states_normal entries0 lm1.pageIds n i hn0 hJc hMc htid hin2
          have hhashrec := normal_not_updated_hash fs entries0 lm1 n hnormal hupd2
          rw [hfinal]
          have hmrec : ((findEntry entries0 n).meta.getD {}).hash =
              some (computePageHash h0 (pageJsonToJVal j0)
                ((dedupL (pageImagePaths fs h0 (j0.answers.getD []))).map
                  (fun p => calculateChecksum (fs.fileBytes p)))) := by
            have h1 : (findPage (loadPages fs entries0) n).meta.hash =
                some (findPage (loadPages fs entries0) n).hash := hhashrec
            rw [hfp0] at h1
            exact h1
          exact hmrec

/-- C1.  Re-run idempotence: when the first run's gates pass (truthy config
title, valid config, no page-validation errors, first page present), the tree
is well formed (duplicate-free entry names, no page whose content file is the
empty string, no two meta files recording the same truthy id) and the remote
environment's labyrinth/page creations return truthy ids, then the first run
completes without aborting and a second run of the whole pipeline over the
resulting tree — under any remote environment — issues zero create, update,
delete and link actions (its trace is empty) and returns the tree unchanged,
so all recorded state (labyrinth meta and every page meta file) is
identical. -/
theorem reconcile_rerun_noop (fs : FS) (config : Config) (env : Env) (tree : Tree)
    (htitle : truthyS config.title = true)
    (hcfg : validateConfig config = [])
    (hval : validateAllPages (loadPages fs (entriesAfterCleanup tree)) = [])
    (hfp : firstPageBad config (loadPages fs (entriesAfterCleanup tree)) = false)
    (hnod : ((entriesAfterCleanup tree).map (fun p => p.1)).Nodup)
    (hW5 : ∀ n ∈ namesWithHtml (entriesAfterCleanup tree),
      (findEntry (entriesAfterCleanup tree) n).html ≠ some "")
    (hinj : ∀ n₁ n₂ i, truthyVal (metasOf (entriesAfterCleanup tree) n₁).id = some i →
      truthyVal (metasOf (entriesAfterCleanup tree) n₂).id = some i → n₁ = n₂)
    (hE1 : env.labyCreateId ≠ "")
    (hE2 : ∀ k, ∃ pid, truthyVal (env.createId k) = some pid) :
    (reconcile fs config env tree).abort = none ∧
    ∀ env₂ : Env, reconcile fs config env₂ (reconcile fs config env tree).tree =
      ⟨[], (reconcile fs config env tree).tree, none⟩ := by
  have hR := reconcile_success_eq fs config env tree htitle hcfg hval hfp
  have hlm1 := labyStep_id_hash fs config env (tree.labyMeta.getD {}) hE1
  have hmd := mainPhases_decomp fs config env (entriesAfterCleanup tree)
    (labyStep fs config env (tree.labyMeta.getD {})).2
  have htree : (reconcile fs config env tree).tree =
      ⟨(st5Of fs config env (entriesAfterCleanup tree)
          (labyStep fs config env (tree.labyMeta.getD {})).2).entries,
       some { (labyStep fs config env (tree.labyMeta.getD {})).2 with
                images := (st5Of fs config env (entriesAfterCleanup tree)
                  (labyStep fs config env (tree.labyMeta.getD {})).2).imageCache
                pageIds := (st5Of fs config env (entriesAfterCleanup tree)
                  (labyStep fs config env (tree.labyMeta.getD {})).2).pageIds }⟩ := by
    rw [hR]
    show (mainPhases fs config env (entriesAfterCleanup tree)
      (labyStep fs config env (tree.labyMeta.getD {})).2).2 = _
    rw [hmd]
  have hready := mainPhases_noopready fs config env (entriesAfterCleanup tree)
    (labyStep fs config env (tree.labyMeta.getD {})).2 hlm1.1 hlm1.2 htitle hcfg hval hfp
    hnod hW5 hinj hE2
  refine ⟨by rw [hR], ?_⟩
  intro env₂
  rw [htree]
  exact noopready_reconcile fs config _ _ hready env₂

/-- C1 witness: a fresh one-page tree over the always-successful environment;
the first run completes and the second run (even under a different
environment) is the no-op `⟨[], tree, none⟩`. -/
theorem reconcile_rerun_noop_witness :
    (reconcile demoFS demoCfg c5Env c1Tree).abort = none ∧
    reconcile demoFS demoCfg demoEnv (reconcile demoFS demoCfg c5Env c1Tree).tree =
      ⟨[], (reconcile demoFS demoCfg c5Env c1Tree).tree, none⟩ := by
  have h := reconcile_rerun_noop demoFS demoCfg c5Env c1Tree (by decide) (by decide)
    (by decide) (by decide) (by decide)
    (by
      intro n hn
      have h2 : namesWithHtml (entriesAfterCleanup c1Tree) = ["A"] := by decide
      rw [h2] at hn
      rcases List.mem_singleton.1 hn with rfl
      decide)
    (fun n₁ n₂ i h1 h2 => absurd h1 (by
      have h3 : truthyVal (metasOf (entriesAfterCleanup c1Tree) n₁).id = none :=
        truthyVal_metasOf_clearAllMetas c1Tree.entries n₁
      rw [h3]
      exact fun hc => Option.noConfusion hc))
    (by decide) (fun k => ⟨"42", rfl⟩)
  exact ⟨h.1, h.2 demoEnv⟩

end Thelaby
